import Mathlib

/-!
Partial-annotation trainer of jumanpp: a verification development.

Shallow embedding of `src/core/training/partial_example.cc`.

* `u16`/`u32`/`size_t` values are `Nat`, `i32` values are `Int` (no overflow is modelled
  for them; signed overflow is undefined in the source language).
* `float` scores and the loss are exact rationals `ℚ`.
* A pointer `const ConnectionPtr*` is an address (`Nat`); `Lattice.deref` is the memory.
* Code of the analyzer that the trainer only calls (n-gram feature calculator, fake-beam
  test, top-1 path walker) is a parameter of the model.
-/

namespace Jumanpp

/-! ## Data model -/

/-- `ScoredFeature{feature : u32, score : float}`. -/
structure ScoredFeature where
  feature : Nat
  score : ℚ
deriving DecidableEq, Repr

/-- `analysis::LatticeNodePtr{boundary, position}`. -/
structure LatticeNodePtr where
  boundary : Nat
  position : Nat
deriving DecidableEq, Repr

/-- `analysis::ConnectionPtr`; `previous` is the address of the previous entry and
`operator==` compares all five members. -/
structure ConnectionPtr where
  boundary : Nat
  left : Nat
  right : Nat
  beam : Nat
  previous : Nat
deriving DecidableEq, Repr

/-- `ConnectionPtr::latticeNodePtr()`. -/
def ConnectionPtr.latticeNodePtr (p : ConnectionPtr) : LatticeNodePtr :=
  ⟨p.boundary, p.right⟩

/-- `analysis::ConnectionBeamElement{ptr, totalScore}`. -/
structure ConnectionBeamElement where
  ptr : ConnectionPtr
  totalScore : ℚ
deriving DecidableEq, Repr

/-- The `starts()` side of a boundary: `numEntries()`, `nodeInfo().at(i).numCodepoints()`,
`entryData().row(i)[field]`, `beamData().rowSize()` and `beamData().row(i)`. -/
structure LatticeRightBoundary where
  numEntries : Nat
  numCodepoints : Nat → Int
  entryData : Nat → Nat → Int
  beamRowSize : Nat
  beamData : Nat → List ConnectionBeamElement

/-- The `ends()` side of a boundary: `nodePtrs()`. -/
structure LatticeLeftBoundary where
  nodePtrs : List LatticeNodePtr

/-- `analysis::LatticeBoundary`. -/
structure LatticeBoundary where
  starts : LatticeRightBoundary
  ends : LatticeLeftBoundary

/-- `analysis::Lattice`, together with the memory in which the `ConnectionPtr`s live. -/
structure Lattice where
  createdBoundaryCount : Nat
  boundary : Nat → LatticeBoundary
  deref : Nat → ConnectionPtr

/-- `NgramFeatureRef{t2, t1, t0}`. -/
structure NgramFeatureRef where
  t2 : LatticeNodePtr
  t1 : LatticeNodePtr
  t0 : LatticeNodePtr
deriving DecidableEq, Repr

/-- `TagConstraint{field, value}`. -/
structure TagConstraint where
  field : Nat
  value : Int
deriving DecidableEq, Repr

/-- `NodeConstraint{boundary, length, tags}` (the surface string is not used by the
trainer). -/
structure NodeConstraint where
  boundary : Int
  length : Int
  tags : List TagConstraint
deriving DecidableEq, Repr

/-- `PartialExample`: the gold boundaries and node constraints. -/
structure PartialExample where
  boundaries : List Int
  nodes : List NodeConstraint
deriving DecidableEq, Repr

/-- What the trainer reads from `analyzer_`: the lattice, the number of declared n-gram
templates (`core().spec().features.ngram.size()`), the hash that
`NgramExampleFeatureCalculator::calculateNgramFeatures` writes into slot `i` of the buffer,
and `EntryBeam::isFake`. -/
structure Analyzer where
  lattice : Lattice
  numNgram : Nat
  ngramFeature : Nat → NgramFeatureRef → Nat
  isFake : ConnectionBeamElement → Bool

/-- The top-1 path walker `top1_` after `fillIn`, with cursor states `W`:
`totalNodes()`, the cursor after `reset()`, `moveToBoundary(b)`, and the pointers that the
loop `while (top1_.nextNode(&ptr))` receives together with the cursor it leaves behind. -/
structure AnalysisPath (W : Type) where
  totalNodes : Nat
  afterReset : W
  moveToBoundary : W → Int → Bool × W
  nextNodes : W → List ConnectionPtr × W

/-- The members of `PartialTrainer` that `compute` changes. -/
structure TrainerState where
  features : List ScoredFeature
  loss : ℚ
deriving DecidableEq, Repr

/-- The members of `PartialTrainer` that `compute` only reads. -/
structure Trainer (W : Type) where
  analyzer_ : Analyzer
  example_ : PartialExample
  top1_ : AnalysisPath W
  mask_ : Nat

/-! ## `finalizeFeatures` -/

/-- Insertion step of the sort by `f1.feature < f2.feature`. -/
def orderedInsertFeature (f : ScoredFeature) : List ScoredFeature → List ScoredFeature
  | [] => [f]
  | g :: rest => if f.feature < g.feature then f :: g :: rest else g :: orderedInsertFeature f rest

/-- `std::sort` with the comparator `f1.feature < f2.feature`. The order that `std::sort`
leaves among entries of equal hash is unspecified; an insertion sort is taken here, and
`finalizeFeatures_sort_independent` shows that the choice does not matter. -/
def sortFeatures : List ScoredFeature → List ScoredFeature
  | [] => []
  | f :: rest => orderedInsertFeature f (sortFeatures rest)

/-- Value read at an index outside the vector (never happens in `finalizeFeatures`). -/
def nullFeature : ScoredFeature := ⟨0, 0⟩

/-- The loop `for (int cur = 1; cur < nfeatures; ++cur)` of `finalizeFeatures`, run for the
given number of remaining iterations on the vector `features` with the current `prev` and
`cur`; returns the vector and `prev`. -/
def coalesceLoop : Nat → List ScoredFeature → Nat → Nat → List ScoredFeature × Nat
  | 0, features, prev, _ => (features, prev)
  | n + 1, features, prev, cur =>
    let prevItem := features.getD prev nullFeature
    let curItem := features.getD cur nullFeature
    if prevItem.feature = curItem.feature then
      coalesceLoop n (features.set prev { prevItem with score := prevItem.score + curItem.score })
        prev (cur + 1)
    else
      let prev1 := prev + 1
      if prev1 ≠ cur then
        coalesceLoop n (features.set prev1 curItem) prev1 (cur + 1)
      else
        coalesceLoop n features prev1 (cur + 1)

/-- `PartialTrainer::finalizeFeatures` on the vector `features_`. -/
def finalizeFeatures (mask : Nat) (features : List ScoredFeature) : List ScoredFeature :=
  let masked := features.map (fun f => { f with feature := f.feature &&& mask })
  let sorted := sortFeatures masked
  let nfeatures := sorted.length
  if nfeatures ≤ 1 then sorted
  else
    let r := coalesceLoop (nfeatures - 1) sorted 0 1
    r.1.take (r.2 + 1)

/-- The mask handed to `trainer_.initialize` by `OwningPartialTrainer::initialize`:
`numFeatures = 1u << featureNumberExponent`, then `numFeatures - 1`, in `u32`. -/
def initializeMask (featureNumberExponent : Nat) : Nat :=
  let numFeatures := (1 <<< featureNumberExponent) % 2 ^ 32
  (numFeatures + 2 ^ 32 - 1) % 2 ^ 32

/-- Merging of runs of equal hash, on a list: the value that the in-place loop of
`finalizeFeatures` leaves in `features_[prev ..]` (see `coalesceLoop_take`). -/
def mergeRuns : ScoredFeature → List ScoredFeature → List ScoredFeature
  | p, [] => [p]
  | p, c :: rest =>
    if p.feature = c.feature then mergeRuns { p with score := p.score + c.score } rest
    else p :: mergeRuns c rest

/-- Exact sum of the scores of the entries of `l` whose hash is `h`. -/
def scoreSum (h : Nat) (l : List ScoredFeature) : ℚ :=
  ((l.filter (fun f => f.feature = h)).map (fun f => f.score)).sum

/-! ## `addBadNode` -/

/-- `nfc.calculateNgramFeatures(ref, buffer)`: the buffer has one slot per declared n-gram
template. -/
def calculateNgramFeatures (a : Analyzer) (ref : NgramFeatureRef) : List Nat :=
  (List.range a.numNgram).map (fun i => a.ngramFeature i ref)

/-- The trigram `{t2, t1, t0}` built from a connection `t0`:
`t1 = t0.previous`, `t2 = t1->previous`. -/
def trigramOf (l : Lattice) (t0 : ConnectionPtr) : NgramFeatureRef :=
  let t1 := l.deref t0.previous
  let t2 := l.deref t1.previous
  ⟨t2.latticeNodePtr, t1.latticeNodePtr, t0.latticeNodePtr⟩

/-- `for (auto f : buffer) features_.push_back(ScoredFeature{f, score})`. -/
def pushFeatures (features : List ScoredFeature) (buffer : List Nat) (score : ℚ) :
    List ScoredFeature :=
  features ++ buffer.map (fun f => ⟨f, score⟩)

/-- Body of `for (auto& beamEl : beam)` in `addBadNode`, on `(features_, count)`. -/
def addBadNodeBeamStep (a : Analyzer) (node : ConnectionPtr) (score : ℚ)
    (st : List ScoredFeature × Int) (beamEl : ConnectionBeamElement) : List ScoredFeature × Int :=
  if a.isFake beamEl then st
  else if beamEl.ptr = node then st
  else
    let buffer := calculateNgramFeatures a (trigramOf a.lattice beamEl.ptr)
    (pushFeatures st.1 buffer score, st.2 + 1)

/-- Body of `for (auto& end : endingNodes)` in `addBadNode`, on `(features_, count)`. -/
def addBadNodeEndStep (a : Analyzer) (node : ConnectionPtr) (prevBoundary : Int) (score : ℚ)
    (st : List ScoredFeature × Int) (e : LatticeNodePtr) : List ScoredFeature × Int :=
  if (e.boundary : Int) < prevBoundary then st
  else
    let beam := (a.lattice.boundary e.boundary).starts.beamData e.position
    beam.foldl (addBadNodeBeamStep a node score) st

/-- `PartialTrainer::addBadNode(node, boundary, prevBoundary)` on the vector `features_`. -/
def addBadNode (a : Analyzer) (node : ConnectionPtr) (boundary prevBoundary : Int)
    (features : List ScoredFeature) : List ScoredFeature :=
  let goodBnd := a.lattice.boundary boundary.toNat
  let endingNodes := goodBnd.ends.nodePtrs
  let score : ℚ := 1 / ((endingNodes.length * goodBnd.starts.beamRowSize : Nat) : ℚ)
  let st := endingNodes.foldl (addBadNodeEndStep a node prevBoundary score) (features, 0)
  let negFeature : ℚ := ((-st.2 : Int) : ℚ) * score
  pushFeatures st.1 (calculateNgramFeatures a (trigramOf a.lattice node)) negFeature

/-! ## `addBadNode2` -/

/-- The lambda `checkTags` of `addBadNode2`. -/
def checkTags (bndNodes : LatticeRightBoundary) (tagFilter : List TagConstraint) (pos : Nat) :
    Bool :=
  tagFilter.all (fun tag => bndNodes.entryData pos tag.field == tag.value)

/-- Body of the inner loop of LOOP1 of `addBadNode2`, on `count`. -/
def countBeamStep (a : Analyzer) (node : ConnectionPtr) (count : Int)
    (beamEl : ConnectionBeamElement) : Int :=
  if a.isFake beamEl then count
  else if beamEl.ptr = node then count
  else count + 1

/-- Body of LOOP1 of `addBadNode2`, on `(count, nodes)`. -/
def countStep (a : Analyzer) (bndNodes : LatticeRightBoundary) (node : ConnectionPtr)
    (length : Int) (tagFilter : List TagConstraint) (st : Int × Int) (i : Nat) : Int × Int :=
  if bndNodes.numCodepoints i ≠ length then st
  else if !checkTags bndNodes tagFilter i then st
  else ((bndNodes.beamData i).foldl (countBeamStep a node) st.1, st.2 + 1)

/-- Body of the inner loop of PASS2 of `addBadNode2`, on `features_`. -/
def positiveBeamStep (a : Analyzer) (node : ConnectionPtr) (score : ℚ)
    (features : List ScoredFeature) (beamEl : ConnectionBeamElement) : List ScoredFeature :=
  if a.isFake beamEl then features
  else if beamEl.ptr = node then features
  else pushFeatures features (calculateNgramFeatures a (trigramOf a.lattice beamEl.ptr)) score

/-- Body of PASS2 of `addBadNode2`, on `features_`. -/
def positiveStep (a : Analyzer) (bndNodes : LatticeRightBoundary) (node : ConnectionPtr)
    (length : Int) (tagFilter : List TagConstraint) (score : ℚ)
    (features : List ScoredFeature) (i : Nat) : List ScoredFeature :=
  if bndNodes.numCodepoints i ≠ length then features
  else if !checkTags bndNodes tagFilter i then features
  else (bndNodes.beamData i).foldl (positiveBeamStep a node score) features

/-- `PartialTrainer::addBadNode2(node, boundary, length, tagFilter)`: the returned value
and the vector `features_`. -/
def addBadNode2 (a : Analyzer) (node : ConnectionPtr) (boundary : Int) (length : Int)
    (tagFilter : List TagConstraint) (features : List ScoredFeature) :
    ℚ × List ScoredFeature :=
  let bndNodes := (a.lattice.boundary boundary.toNat).starts
  let cn := (List.range bndNodes.numEntries).foldl
    (countStep a bndNodes node length tagFilter) (0, 0)
  if cn.1 = 0 then (0, features)
  else
    let score : ℚ := 1 / ((cn.1 : Int) : ℚ)
    let features1 := (List.range bndNodes.numEntries).foldl
      (positiveStep a bndNodes node length tagFilter score) features
    let features2 := pushFeatures features1
      (calculateNgramFeatures a (trigramOf a.lattice node)) (-1)
    (((cn.2 : Int) : ℚ) / ((bndNodes.numEntries : Nat) : ℚ), features2)

/-! ## `handleBoundaryConstraints` -/

/-- The `while` loop of `handleBoundaryConstraints`. `bnditer` is the part of the reversed
gold boundaries that the reverse iterator has not passed yet, `onBadNode node boundary
prevBoundary` stands for the two statements `addBadNode(nodeStart, bndary, nextBndary);
loss_ += 1.0f / top1_.totalNodes();`, and the first argument bounds the number of
iterations (`none` when it is used up before the loop condition fails). -/
def boundaryLoop {σ : Type} (l : Lattice) (onBadNode : ConnectionPtr → Int → Int → σ → σ) :
    Nat → ConnectionPtr → ConnectionPtr → List Int → σ → Option σ
  | 0, _, nodeStart, bnditer, st =>
    if nodeStart.boundary > 1 ∧ bnditer ≠ [] then none else some st
  | fuel + 1, nodeEnd, nodeStart, bnditer, st =>
    if ¬ nodeStart.boundary > 1 then some st
    else
      match bnditer with
      | [] => some st
      | bndary :: nextIter =>
        if (nodeStart.boundary : Int) = bndary then
          boundaryLoop l onBadNode fuel nodeStart (l.deref nodeStart.previous) nextIter st
        else if (nodeStart.boundary : Int) < bndary ∧ bndary < (nodeEnd.boundary : Int) then
          let nextBndary : Int := match nextIter with
            | [] => 2
            | b :: _ => b
          boundaryLoop l onBadNode fuel nodeEnd nodeStart nextIter
            (onBadNode nodeStart bndary nextBndary st)
        else if bndary ≥ (nodeEnd.boundary : Int) then
          boundaryLoop l onBadNode fuel nodeEnd nodeStart nextIter st
        else
          boundaryLoop l onBadNode fuel nodeStart (l.deref nodeStart.previous)
            (bndary :: nextIter) st

/-- Beam element read by `.at(0)` from an empty beam (never the case in a built lattice). -/
def nullBeamElement : ConnectionBeamElement := ⟨⟨0, 0, 0, 0, 0⟩, 0⟩

/-- `eos->starts()->beamData().at(0)` for `eos = l->boundary(l->createdBoundaryCount() - 1)`. -/
def top1Element (l : Lattice) : ConnectionBeamElement :=
  ((l.boundary (l.createdBoundaryCount - 1)).starts.beamData 0).headD nullBeamElement

/-- The statements `addBadNode(nodeStart, bndary, nextBndary);
loss_ += 1.0f / top1_.totalNodes();` on the trainer state. -/
def boundaryViolation {W : Type} (t : Trainer W) (node : ConnectionPtr)
    (boundary prevBoundary : Int) (st : TrainerState) : TrainerState :=
  { features := addBadNode t.analyzer_ node boundary prevBoundary st.features,
    loss := st.loss + 1 / (t.top1_.totalNodes : ℚ) }

/-- `PartialTrainer::handleBoundaryConstraints`. -/
def handleBoundaryConstraints {W : Type} (t : Trainer W) (fuel : Nat) (st : TrainerState) :
    Option TrainerState :=
  let l := t.analyzer_.lattice
  let top1 := top1Element l
  let nodeEnd := top1.ptr
  let nodeStart := l.deref nodeEnd.previous
  boundaryLoop l (boundaryViolation t) fuel nodeEnd nodeStart t.example_.boundaries.reverse st

/-- A call `addBadNode(node, boundary, prevBoundary)`. -/
structure BadNodeCall where
  node : ConnectionPtr
  boundary : Int
  prevBoundary : Int
deriving DecidableEq, Repr

/-- The calls of `addBadNode` that `handleBoundaryConstraints` makes, in order: the loop
run with a visitor that records its arguments. -/
def boundaryCalls (l : Lattice) (gold : List Int) (fuel : Nat) : Option (List BadNodeCall) :=
  let nodeEnd := (top1Element l).ptr
  boundaryLoop l (fun node b pb calls => calls ++ [⟨node, b, pb⟩]) fuel nodeEnd
    (l.deref nodeEnd.previous) gold.reverse []

/-! ## `handleTagConstraints` -/

/-- The statement `loss_ += nodeRatio * addBadNode2(&ptr, ptr.boundary,
nodeConstraint.length, nodeConstraint.tags);`. -/
def tagViolation (a : Analyzer) (nodeRatio : ℚ) (nodeConstraint : NodeConstraint)
    (ptr : ConnectionPtr) (st : TrainerState) : TrainerState :=
  let r := addBadNode2 a ptr (ptr.boundary : Int) nodeConstraint.length nodeConstraint.tags
    st.features
  { features := r.2, loss := st.loss + nodeRatio * r.1 }

/-- The loop `for (auto& tag : nodeConstraint.tags)` of `handleTagConstraints`. -/
def tagLoop (a : Analyzer) (nodeRatio : ℚ) (nodeConstraint : NodeConstraint)
    (ptr : ConnectionPtr) (entryData : Nat → Int) : List TagConstraint → TrainerState →
    TrainerState
  | [], st => st
  | tag :: rest, st =>
    if entryData tag.field ≠ tag.value then tagViolation a nodeRatio nodeConstraint ptr st
    else tagLoop a nodeRatio nodeConstraint ptr entryData rest st

/-- Body of `while (top1_.nextNode(&ptr))` in `handleTagConstraints`. -/
def tagNodeStep (a : Analyzer) (nodeRatio : ℚ) (nodeConstraint : NodeConstraint)
    (st : TrainerState) (ptr : ConnectionPtr) : TrainerState :=
  let bnd := a.lattice.boundary ptr.boundary
  if bnd.starts.numCodepoints ptr.right ≠ nodeConstraint.length then
    tagViolation a nodeRatio nodeConstraint ptr st
  else
    tagLoop a nodeRatio nodeConstraint ptr (bnd.starts.entryData ptr.right)
      nodeConstraint.tags st

/-- Body of `for (auto& nodeConstraint : example_.nodes())`, on the walker cursor and the
trainer state. -/
def tagConstraintStep {W : Type} (t : Trainer W) (nodeRatio : ℚ) (st : W × TrainerState)
    (nodeConstraint : NodeConstraint) : W × TrainerState :=
  let m := t.top1_.moveToBoundary st.1 nodeConstraint.boundary
  if !m.1 then (m.2, st.2)
  else
    let ns := t.top1_.nextNodes m.2
    (ns.2, ns.1.foldl (tagNodeStep t.analyzer_ nodeRatio nodeConstraint) st.2)

/-- `PartialTrainer::handleTagConstraints`. -/
def handleTagConstraints {W : Type} (t : Trainer W) (st : TrainerState) : TrainerState :=
  let nodeRatio : ℚ := 1 / (t.top1_.totalNodes : ℚ)
  (t.example_.nodes.foldl (tagConstraintStep t nodeRatio) (t.top1_.afterReset, st)).2

/-! ## `doesNodeMatch` and `markGold` -/

/-- `std::lower_bound(boundaries_.begin(), boundaries_.end(), boundary)` on a sorted
vector: the iterator is the remaining part of the vector, from the first element that is
not less than `boundary`. -/
def lowerBound (boundaries : List Int) (boundary : Int) : List Int :=
  boundaries.dropWhile (fun x => x < boundary)

/-- `PartialExample::doesNodeMatch(lr, boundary, position)`. -/
def doesNodeMatch (ex : PartialExample) (lr : LatticeRightBoundary) (boundary : Int)
    (position : Nat) : Bool :=
  match lowerBound ex.boundaries boundary with
  | [] => false
  | x :: iter =>
    if x ≠ boundary ∧ boundary ≠ 2 then false
    else
      let len := lr.numCodepoints position
      match ex.nodes.find? (fun n => n.boundary == boundary) with
      | none =>
        match iter with
        | y :: _ => decide (len ≤ y - boundary)
        | [] => true
      | some nodeCstrs =>
        if len ≠ nodeCstrs.length then false
        else nodeCstrs.tags.all (fun tag => lr.entryData position tag.field == tag.value)

/-- `PartialTrainer::markGold(callback, l)`: the arguments of the callback, in call order
(the `u16` loop counters are taken not to wrap; `markGoldU16` has them wrap, and
`markGoldU16_eq` relates the two). -/
def markGold (ex : PartialExample) (l : Lattice) : List LatticeNodePtr :=
  (List.range l.createdBoundaryCount).flatMap (fun bnd =>
    let bndRight := (l.boundary bnd).starts
    ((List.range bndRight.numEntries).filter
      (fun pos => doesNodeMatch ex bndRight (bnd : Int) pos)).map
        (fun pos => (⟨bnd, pos⟩ : LatticeNodePtr)))

/-! ## `handleEos` and `compute` -/

/-- The loop `for (auto& t : n.tags)` of `handleEos`, on the flag `invalidNode`. -/
def eosTagLoop (prevFields : Nat → Int) : List TagConstraint → Bool → Bool
  | [], invalidNode => invalidNode
  | t :: rest, invalidNode =>
    if prevFields t.field ≠ t.value then true
    else eosTagLoop prevFields rest invalidNode

/-- The loop `for (auto& n : example_.nodes())` of `handleEos`, on the flag
`invalidNode`. -/
def eosNodeLoop (prevBoundary : Nat) (prevLen : Int) (prevFields : Nat → Int) :
    List NodeConstraint → Bool → Bool
  | [], invalidNode => invalidNode
  | n :: rest, invalidNode =>
    if n.boundary = (prevBoundary : Int) then
      if n.length ≠ prevLen then true
      else eosNodeLoop prevBoundary prevLen prevFields rest
        (eosTagLoop prevFields n.tags invalidNode)
    else eosNodeLoop prevBoundary prevLen prevFields rest invalidNode

/-- The loop `for (auto& beam : starts->beamData().row(prevPtr.position))` that counts
`beams` in `handleEos`. -/
def eosBeamCount (a : Analyzer) : List ConnectionBeamElement → Int → Int
  | [], beams => beams
  | beam :: rest, beams =>
    if a.isFake beam then beams else eosBeamCount a rest (beams + 1)

/-- The first loop over `eos->ends()->nodePtrs()` in `handleEos`, on `(nodes, beams)`;
`none` is the early `return`. -/
def eosCountLoop (a : Analyzer) (ex : PartialExample) (prev : ConnectionPtr) :
    List LatticeNodePtr → Int × Int → Option (Int × Int)
  | [], st => some st
  | prevPtr :: rest, st =>
    let starts := (a.lattice.boundary prevPtr.boundary).starts
    if doesNodeMatch ex starts (prevPtr.boundary : Int) prevPtr.position then
      if prev.latticeNodePtr = prevPtr then none
      else
        eosCountLoop a ex prev rest
          (st.1 + 1, eosBeamCount a (starts.beamData prevPtr.position) st.2)
    else eosCountLoop a ex prev rest st

/-- The loop `for (auto& beam : starts->beamData().row(prevPtr.position))` that appends
the positive features in `handleEos`. -/
def eosBeamFeatures (a : Analyzer) (prev : ConnectionPtr) (eosPtr : LatticeNodePtr)
    (score : ℚ) : List ConnectionBeamElement → List ScoredFeature → List ScoredFeature
  | [], features => features
  | beam :: rest, features =>
    if a.isFake beam then features
    else
      let prev2 := a.lattice.deref beam.ptr.previous
      let ref : NgramFeatureRef := ⟨prev2.latticeNodePtr, prev.latticeNodePtr, eosPtr⟩
      eosBeamFeatures a prev eosPtr score rest
        (pushFeatures features (calculateNgramFeatures a ref) score)

/-- Body of the second loop over `eos->ends()->nodePtrs()` in `handleEos`. -/
def eosPositiveStep (a : Analyzer) (ex : PartialExample) (prev : ConnectionPtr)
    (eosPtr : LatticeNodePtr) (score : ℚ) (features : List ScoredFeature)
    (prevPtr : LatticeNodePtr) : List ScoredFeature :=
  let starts := (a.lattice.boundary prevPtr.boundary).starts
  if doesNodeMatch ex starts (prevPtr.boundary : Int) prevPtr.position then
    eosBeamFeatures a prev eosPtr score (starts.beamData prevPtr.position) features
  else features

/-- `PartialTrainer::handleEos`. -/
def handleEos {W : Type} (t : Trainer W) (st : TrainerState) : TrainerState :=
  let a := t.analyzer_
  let l := a.lattice
  let eos := l.boundary (l.createdBoundaryCount - 1)
  let top1 := top1Element l
  let prev := l.deref top1.ptr.previous
  let prevStarts := (l.boundary prev.boundary).starts
  let prevLen := prevStarts.numCodepoints prev.right
  let prevStart : Int := (prev.boundary : Int)
  let prevEnd : Int := prevStart + prevLen
  let invalid1 := t.example_.boundaries.foldl
    (fun invalidNode b => if prevStart < b ∧ b < prevEnd then true else invalidNode) false
  let prevFields := prevStarts.entryData prev.right
  let invalidNode := eosNodeLoop prev.boundary prevLen prevFields t.example_.nodes invalid1
  if !invalidNode then st
  else
    match eosCountLoop a t.example_ prev eos.ends.nodePtrs (0, 0) with
    | none => st
    | some nb =>
      if nb.1 = 0 then st
      else
        let score : ℚ := 1 / ((nb.2 : Int) : ℚ)
        let loss := st.loss +
          1 * ((nb.1 : Int) : ℚ) / ((eos.ends.nodePtrs.length : Nat) : ℚ) /
            ((l.createdBoundaryCount : Nat) : ℚ)
        let eosPtr : LatticeNodePtr := ⟨(l.createdBoundaryCount - 1) % 2 ^ 16, 0⟩
        let features1 := eos.ends.nodePtrs.foldl
          (eosPositiveStep a t.example_ prev eosPtr score) st.features
        let top1prev := l.deref top1.ptr.previous
        let top1prev2 := l.deref top1prev.previous
        let top1ref : NgramFeatureRef :=
          ⟨top1prev2.latticeNodePtr, top1prev.latticeNodePtr, top1.ptr.latticeNodePtr⟩
        { features := pushFeatures features1 (calculateNgramFeatures a top1ref) (-1),
          loss := loss }

/-- `PartialTrainer::compute` after `computeScores` and `top1_.fillIn` have succeeded;
the argument bounds the iterations of the loop of `handleBoundaryConstraints`. -/
def compute {W : Type} (t : Trainer W) (fuel : Nat) (_st : TrainerState) :
    Option TrainerState :=
  let st0 : TrainerState := { features := [], loss := 0 }
  match handleBoundaryConstraints t fuel st0 with
  | none => none
  | some st1 =>
    let st2 := handleTagConstraints t st1
    let st3 := handleEos t st2
    some { st3 with features := finalizeFeatures t.mask_ st3.features }

/-! ## Vocabulary of the statements about `handleBoundaryConstraints` -/

/-- The content nodes of the top-1 path behind `nodeEnd`, last node first: every node is
the `previous` of the one after it, starts after boundary 1 and strictly before the start
of the one after it (where it ends, the path being contiguous), and the `previous` of the
first content node has boundary at most 1 (BOS). -/
def IsTop1Chain (l : Lattice) : ConnectionPtr → List ConnectionPtr → Prop
  | nodeEnd, [] => (l.deref nodeEnd.previous).boundary ≤ 1
  | nodeEnd, n :: rest =>
    l.deref nodeEnd.previous = n ∧ 1 < n.boundary ∧ n.boundary < nodeEnd.boundary ∧
      IsTop1Chain l n rest

/-- The node of the chain behind `nodeEnd` that has `b` strictly inside
(`start < b < end`), if there is one. -/
def containingNode : ConnectionPtr → List ConnectionPtr → Int → Option ConnectionPtr
  | _, [], _ => none
  | nodeEnd, n :: rest, b =>
    if (n.boundary : Int) < b ∧ b < (nodeEnd.boundary : Int) then some n
    else containingNode n rest b

/-- The calls of `addBadNode` that the claim asks for, for the gold boundaries `bnditer`
in reverse order: one for every boundary strictly inside a node of the chain, with that
node, the boundary, and the next boundary of the reverse iteration or 2. -/
def expectedCalls (nodeEnd : ConnectionPtr) (path : List ConnectionPtr) :
    List Int → List BadNodeCall
  | [] => []
  | b :: rest =>
    match containingNode nodeEnd path b with
    | some n => ⟨n, b, rest.headD 2⟩ :: expectedCalls nodeEnd path rest
    | none => expectedCalls nodeEnd path rest

/-- Whether `b` lies strictly inside some node of the chain behind `nodeEnd`
(`start < b < end`, the end of a node being the start of the one after it). -/
def insideTop1Node : ConnectionPtr → List ConnectionPtr → Int → Bool
  | _, [], _ => false
  | nodeEnd, n :: rest, b =>
    decide ((n.boundary : Int) < b ∧ b < (nodeEnd.boundary : Int)) || insideTop1Node n rest b

/-- A fake beam element and the test for it, as used in the example lattice. -/
def fakeElement : ConnectionBeamElement := ⟨⟨65535, 65535, 65535, 65535, 0⟩, 0⟩

/-- Memory of the example lattice: addresses 0 and 1 hold the two BOS entries, 2 to 10 the
beam entries of the nodes of a five-codepoint sentence (content boundaries 2 to 6, EOS at
boundary 7). -/
def demoDeref : Nat → ConnectionPtr
  | 0 => ⟨0, 0, 0, 0, 0⟩
  | 1 => ⟨1, 0, 0, 0, 0⟩
  | 2 => ⟨2, 0, 0, 0, 1⟩
  | 3 => ⟨2, 0, 1, 0, 1⟩
  | 4 => ⟨4, 0, 0, 0, 3⟩
  | 5 => ⟨4, 0, 1, 0, 3⟩
  | 6 => ⟨5, 0, 0, 0, 2⟩
  | 7 => ⟨5, 1, 0, 0, 5⟩
  | 8 => ⟨6, 0, 0, 0, 4⟩
  | 9 => ⟨7, 0, 0, 0, 6⟩
  | 10 => ⟨7, 1, 0, 0, 8⟩
  | _ => ⟨0, 0, 0, 0, 0⟩

/-- Start side of the boundaries of the example lattice: at boundary 2 nodes of 3 and 2
codepoints, at 4 nodes of 2 and 1, at 5 a node of 2, at 6 a node of 1, at 7 EOS; beams of
width 2; entry rows hold the length in field 0 and a tag in field 1. -/
def demoStarts : Nat → LatticeRightBoundary
  | 2 => ⟨2, fun p => if p = 0 then 3 else 2, fun p f => if f = 0 then (if p = 0 then 3 else 2)
      else (p : Int) + 10, 2,
      fun p => if p = 0 then [⟨demoDeref 2, 0⟩, fakeElement] else [⟨demoDeref 3, 0⟩, fakeElement]⟩
  | 4 => ⟨2, fun p => if p = 0 then 2 else 1, fun p f => if f = 0 then (if p = 0 then 2 else 1)
      else (p : Int) + 20, 2,
      fun p => if p = 0 then [⟨demoDeref 4, 0⟩, fakeElement] else [⟨demoDeref 5, 0⟩, fakeElement]⟩
  | 5 => ⟨1, fun _ => 2, fun _ f => if f = 0 then 2 else 30, 2,
      fun _ => [⟨demoDeref 6, 1⟩, ⟨demoDeref 7, 0⟩]⟩
  | 6 => ⟨1, fun _ => 1, fun _ f => if f = 0 then 1 else 40, 2,
      fun _ => [⟨demoDeref 8, 0⟩, fakeElement]⟩
  | 7 => ⟨1, fun _ => 1, fun _ _ => 0, 2, fun _ => [⟨demoDeref 9, 1⟩, ⟨demoDeref 10, 0⟩]⟩
  | 0 => ⟨1, fun _ => 1, fun _ _ => 0, 2, fun _ => [⟨demoDeref 0, 0⟩, fakeElement]⟩
  | 1 => ⟨1, fun _ => 1, fun _ _ => 0, 2, fun _ => [⟨demoDeref 1, 0⟩, fakeElement]⟩
  | _ => ⟨0, fun _ => 0, fun _ _ => 0, 2, fun _ => []⟩

/-- End side of the boundaries of the example lattice. -/
def demoEnds : Nat → LatticeLeftBoundary
  | 1 => ⟨[⟨0, 0⟩]⟩
  | 2 => ⟨[⟨1, 0⟩]⟩
  | 4 => ⟨[⟨2, 1⟩]⟩
  | 5 => ⟨[⟨2, 0⟩, ⟨4, 1⟩]⟩
  | 6 => ⟨[⟨4, 0⟩]⟩
  | 7 => ⟨[⟨5, 0⟩, ⟨6, 0⟩]⟩
  | _ => ⟨[]⟩

/-- The example lattice; its top-1 path is (2,0) of 3 codepoints, (5,0) of 2, EOS. -/
def demoLattice : Lattice :=
  ⟨8, fun b => ⟨demoStarts b, demoEnds b⟩, demoDeref⟩

/-- The example analyzer: two n-gram templates. -/
def demoAnalyzer : Analyzer :=
  ⟨demoLattice, 2,
    fun i ref => i + 2 * (ref.t0.boundary + 8 * (ref.t0.position + 2 * (ref.t1.boundary +
      8 * (ref.t1.position + 2 * ref.t2.boundary)))),
    fun e => e.ptr.boundary == 65535⟩

/-- The example top-1 walker: two content nodes; the cursor is the boundary moved to, and
`moveToBoundary` finds the nodes at boundaries 2 and 5. -/
def demoPath : AnalysisPath Int :=
  ⟨2, 0, fun _ b => (decide (b = 2 ∨ b = 5), b),
    fun w => (if w = 2 then [demoDeref 2] else if w = 5 then [demoDeref 6] else [], w)⟩

/-- The example trainer: gold cuts at 4 and 6 (chunks of 2, 2 and 1 codepoints), no node
constraints, 4096 hashed features. -/
def demoTrainer : Trainer Int :=
  ⟨demoAnalyzer, ⟨[4, 6], []⟩, demoPath, 4095⟩

/-! ## Vocabulary of the statements about `addBadNode` and `addBadNode2` -/

/-- The score `1.0f / (endingNodes.size() * rowSize)` of `addBadNode`. -/
def addBadNodeScore (a : Analyzer) (boundary : Int) : ℚ :=
  1 / (((a.lattice.boundary boundary.toNat).ends.nodePtrs.length *
    (a.lattice.boundary boundary.toNat).starts.beamRowSize : Nat) : ℚ)

/-- The beam entries of one beam row that count as positive: not fake and different from
the bad node. -/
def positiveEntries (a : Analyzer) (node : ConnectionPtr)
    (beam : List ConnectionBeamElement) : List ConnectionBeamElement :=
  beam.filter (fun beamEl => !a.isFake beamEl && decide (beamEl.ptr ≠ node))

/-- The positive beam entries that `addBadNode` uses: those of the nodes ending at
`boundary` that do not start before `prevBoundary`. -/
def addBadNodePositives (a : Analyzer) (node : ConnectionPtr) (boundary prevBoundary : Int) :
    List ConnectionBeamElement :=
  ((a.lattice.boundary boundary.toNat).ends.nodePtrs.filter
    (fun e => decide (¬ (e.boundary : Int) < prevBoundary))).flatMap
      (fun e => positiveEntries a node
        ((a.lattice.boundary e.boundary).starts.beamData e.position))

/-- The group of features appended for one connection: one per n-gram template, all with
the same score. -/
def featureGroup (a : Analyzer) (score : ℚ) (ptr : ConnectionPtr) : List ScoredFeature :=
  (calculateNgramFeatures a (trigramOf a.lattice ptr)).map (fun f => ⟨f, score⟩)

/-- The start positions at a boundary that have the required length and satisfy all tag
filters. -/
def qualifyingPositions (bndNodes : LatticeRightBoundary) (length : Int)
    (tagFilter : List TagConstraint) : List Nat :=
  (List.range bndNodes.numEntries).filter
    (fun i => decide (bndNodes.numCodepoints i = length) && checkTags bndNodes tagFilter i)

/-- The positive beam entries of `addBadNode2`: those of the qualifying positions. -/
def addBadNode2Positives (a : Analyzer) (node : ConnectionPtr) (boundary length : Int)
    (tagFilter : List TagConstraint) : List ConnectionBeamElement :=
  (qualifyingPositions (a.lattice.boundary boundary.toNat).starts length tagFilter).flatMap
    (fun i => positiveEntries a node ((a.lattice.boundary boundary.toNat).starts.beamData i))

/-! ## Vocabulary of the statements about `doesNodeMatch` and `markGold` -/

/-- The characterisation of `doesNodeMatch(b, p)` in the words of the specification:
(1) some gold boundary `≥ b` exists and the smallest such equals `b`, or `b == 2`; and
(2) either no `NodeConstraint` is registered at `b` and `len ≤ g - b` for the next gold
boundary `g` after `b` (no limit when there is none), or the constraint registered at `b`
has length `len` and each of its tags equals the entry row value at `p`. -/
def doesNodeMatchSpec (ex : PartialExample) (lr : LatticeRightBoundary) (b : Int) (p : Nat) :
    Bool :=
  let len := lr.numCodepoints p
  (match (ex.boundaries.filter (fun x => decide (b ≤ x))).min? with
    | none => false
    | some m => m == b || b == 2) &&
  (match ex.nodes.find? (fun n => n.boundary == b) with
    | none =>
      match (ex.boundaries.filter (fun x => decide (b < x))).min? with
      | none => true
      | some g => decide (len ≤ g - b)
    | some c =>
      len == c.length && c.tags.all (fun tag => lr.entryData p tag.field == tag.value))

/-! ## Vocabulary of the statements about `compute` -/

/-- Features and loss agree: either there is no feature and the loss is zero, or there is
a feature and the loss is positive. -/
def LossMatchesFeatures (st : TrainerState) : Prop :=
  (st.features = [] ∧ st.loss = 0) ∨ (st.features ≠ [] ∧ 0 < st.loss)

/-! ## `markGold` with its `u16` counters -/

/-- The loop `for (u16 pos = 0; pos < bndRight->numEntries(); ++pos)` of `markGold` with its
wrapping counter, on the list of callback arguments. The first argument bounds the number
of checks of the loop condition; a `u16` counter that passes `2 ^ 16` checks never leaves
the loop, and the result is then `none`. -/
def markGoldPosLoop (ex : PartialExample) (bndRight : LatticeRightBoundary) (bnd : Nat) :
    Nat → Nat → List LatticeNodePtr → Option (List LatticeNodePtr)
  | 0, _, _ => none
  | fuel + 1, pos, calls =>
    if pos < bndRight.numEntries then
      markGoldPosLoop ex bndRight bnd fuel ((pos + 1) % 2 ^ 16)
        (if doesNodeMatch ex bndRight (bnd : Int) pos then calls ++ [⟨bnd, pos⟩] else calls)
    else some calls

/-- The loop `for (u16 bnd = 0; bnd < l->createdBoundaryCount(); ++bnd)` of `markGold` with
its wrapping counter; `none` when a loop does not terminate. -/
def markGoldBndLoop (ex : PartialExample) (l : Lattice) :
    Nat → Nat → List LatticeNodePtr → Option (List LatticeNodePtr)
  | 0, _, _ => none
  | fuel + 1, bnd, calls =>
    if bnd < l.createdBoundaryCount then
      match markGoldPosLoop ex (l.boundary bnd).starts bnd (2 ^ 16) 0 calls with
      | none => none
      | some calls1 => markGoldBndLoop ex l fuel ((bnd + 1) % 2 ^ 16) calls1
    else some calls

/-- `PartialTrainer::markGold(callback, l)` with `u16` loop counters: the arguments of the
callback in call order, or `none` when the function does not return. -/
def markGoldU16 (ex : PartialExample) (l : Lattice) : Option (List LatticeNodePtr) :=
  markGoldBndLoop ex l (2 ^ 16) 0 []

/-- Ascending order of `(boundary, position)`. -/
def LatticeNodePtr.lt (a b : LatticeNodePtr) : Prop :=
  a.boundary < b.boundary ∨ (a.boundary = b.boundary ∧ a.position < b.position)

/-! ## `PartialExampleReader::readExample` -/

/-- A line as the CSV reader `csv_` presents it: `field(0)` and the further fields, so
that `numFields()` is at least 1. Strings are lists of characters. -/
structure CsvLine where
  field0 : List Char
  more : List (List Char)
deriving DecidableEq, Repr

/-- `csv_.numFields()`. -/
def CsvLine.numFields (line : CsvLine) : Nat := 1 + line.more.length

/-- An entry of the map `fields_`: the `dicFieldIdx` of the field and its `str2int` map. -/
structure FieldInfo where
  dicFieldIdx : Nat
  str2int : List Char → Option Int

/-- What `readExample` uses of its surroundings: the lookup `fields_.find(name)` built by
`initialize` from the dictionary spec, `chars::preprocessRawData` (the codepoints, or
`none` when it reports an error) and `analysis::hashUnkString`. -/
structure ReaderEnv where
  fields : List Char → Option FieldInfo
  preprocessRawData : List Char → Option (List Nat)
  hashUnkString : List Char → Int

/-- The ways in which `readExample` fails: the three `JPPS_INVALID_PARAMETER` returns and
the error passed on from `chars::preprocessRawData`. -/
inductive ReadError where
  | firstFieldNotEmpty
  | noFieldName
  | unknownFieldName
  | preprocess
deriving DecidableEq, Repr

/-- Whether the error is one of the `JPPS_INVALID_PARAMETER` returns of `readExample`. -/
def ReadError.isInvalidParameter : ReadError → Bool
  | .preprocess => false
  | _ => true

/-- The members of `PartialExample` that `readExample` fills (`file_` and `line_` are
diagnostics and left out; a `NodeConstraint` is kept without its surface string). -/
structure ReadState where
  comment : List Char
  surface : List Char
  boundaries : List Int
  nodes : List NodeConstraint
deriving DecidableEq, Repr

/-- What a successful `readExample` leaves: the example, `*eof`, and the lines that the
CSV reader has not consumed. -/
structure ReadOutcome where
  state : ReadState
  eof : Bool
  rest : List CsvLine
deriving DecidableEq, Repr

/-- The loop `for (int idx = 2; idx < csv_.numFields(); ++idx)` of `readExample` over the
tag fields, on `nc.tags`. -/
def parseTags (env : ReaderEnv) : List (List Char) → List TagConstraint →
    Except ReadError (List TagConstraint)
  | [], tags => .ok tags
  | fldData :: rest, tags =>
    if ':' ∉ fldData then .error .noFieldName
    else
      let fldName := fldData.takeWhile (fun c => c != ':')
      let fldValue := (fldData.dropWhile (fun c => c != ':')).drop 1
      match env.preprocessRawData fldValue with
      | none => .error .preprocess
      | some _ =>
        match env.fields fldName with
        | none => .error .unknownFieldName
        | some info =>
          match info.str2int fldValue with
          | none =>
            parseTags env rest (tags ++ [⟨info.dicFieldIdx, env.hashUnkString fldValue⟩])
          | some idValue => parseTags env rest (tags ++ [⟨info.dicFieldIdx, idValue⟩])

/-- The test for a comment line: one field `fld` with
`fld.size() > 2 && fld[0] == '#' && fld[1] == ' '`. -/
def isCommentLine (line : CsvLine) : Bool :=
  line.numFields == 1 && decide (line.field0.length > 2) && line.field0.head? == some '#' &&
    (line.field0.drop 1).head? == some ' '

/-- The loop `while (csv_.nextLine())` of `readExample` with the locals `firstLine` and
`boundary`. -/
def readLoop (env : ReaderEnv) : Bool → Int → ReadState → List CsvLine →
    Except ReadError ReadOutcome
  | _, _, st, [] => .ok ⟨st, true, []⟩
  | firstLine, boundary, st, line :: rest =>
    if firstLine && isCommentLine line then
      readLoop env false boundary { st with comment := line.field0.drop 2 } rest
    else if line.numFields = 1 then
      let data := line.field0
      if data.isEmpty then
        .ok ⟨{ st with boundaries := st.boundaries.dropLast }, false, rest⟩
      else
        match env.preprocessRawData data with
        | none => .error .preprocess
        | some codepts =>
          let boundary1 := boundary + (codepts.length : Int)
          readLoop env false boundary1
            { st with surface := st.surface ++ data,
                      boundaries := st.boundaries ++ [boundary1] } rest
    else if !line.field0.isEmpty then .error .firstFieldNotEmpty
    else
      let surface := line.more.headD []
      match env.preprocessRawData surface with
      | none => .error .preprocess
      | some codepts =>
        let ncLength : Int := (codepts.length : Int)
        let ncBoundary := boundary
        let boundary1 := boundary + ncLength
        match parseTags env (line.more.drop 1) [] with
        | .error e => .error e
        | .ok tags =>
          readLoop env false boundary1
            { st with surface := st.surface ++ surface,
                      boundaries := st.boundaries ++ [boundary1],
                      nodes := st.nodes ++ [⟨ncBoundary, ncLength, tags⟩] } rest

/-- `PartialExampleReader::readExample(result, eof)` on the lines that the CSV reader still
holds; `comment` is the `comment_` that `result` held before (the function does not clear
it). -/
def readExample (env : ReaderEnv) (comment : List Char) (lines : List CsvLine) :
    Except ReadError ReadOutcome :=
  readLoop env true 2 ⟨comment, [], [], []⟩ lines

/-- Whether the line ends the record: a single empty field. -/
def CsvLine.isTerminator (line : CsvLine) : Bool :=
  line.numFields == 1 && line.field0.isEmpty

/-- The surface of a chunk line: the only field of a plain chunk, `field(1)` of a
constrained one. -/
def CsvLine.chunkSurface (line : CsvLine) : List Char :=
  if line.numFields = 1 then line.field0 else line.more.headD []

/-- The number of codepoints of the surface of a chunk line. -/
def chunkCodepoints (env : ReaderEnv) (line : CsvLine) : Nat :=
  ((env.preprocessRawData line.chunkSurface).map List.length).getD 0

/-- The chunk lines of the record at the head of `lines`: the lines before the first
terminator. -/
def recordChunks (lines : List CsvLine) : List CsvLine :=
  lines.takeWhile (fun line => !line.isTerminator)

/-- The chunk lines of the record that `readExample` reads: a comment in the first line is
not a chunk. -/
def chunkLines (lines : List CsvLine) : List CsvLine :=
  match lines with
  | [] => []
  | line :: rest => if isCommentLine line then recordChunks rest else recordChunks (line :: rest)

/-- Whether the input holds a terminator for the record that `readExample` reads. -/
def hasTerminator (lines : List CsvLine) : Bool :=
  lines.any (fun line => line.isTerminator)

/-- The boundaries pushed for chunk lines with the given codepoint counts, from the running
position `boundary`. -/
def runningBoundaries (boundary : Int) : List Nat → List Int
  | [] => []
  | n :: rest => (boundary + (n : Int)) :: runningBoundaries (boundary + (n : Int)) rest

/-- The example reader environment: ASCII text (one codepoint per character), the
dictionary field `pos` with index 1 and the value `N`. -/
def demoReaderEnv : ReaderEnv :=
  ⟨fun name => if name = ['p', 'o', 's'] then
      some ⟨1, fun v => if v = ['N'] then some 0 else none⟩ else none,
    fun s => some (s.map Char.toNat),
    fun s => (s.length : Int) + 1000⟩
/-- The `(boundary, length)` pairs of the node constraints produced for the constrained
lines among the given chunk lines, the running position being `boundary` before the first
of them. -/
def expectedNodes (env : ReaderEnv) (boundary : Int) : List CsvLine → List (Int × Int)
  | [] => []
  | line :: rest =>
    (if line.numFields = 1 then [] else [(boundary, (chunkCodepoints env line : Int))]) ++
      expectedNodes env (boundary + (chunkCodepoints env line : Int)) rest

/-- The lines that `readExample` treats as lines of the record: all but a comment in the
first line. -/
def afterComment (lines : List CsvLine) : List CsvLine :=
  match lines with
  | [] => []
  | line :: rest => if isCommentLine line then rest else line :: rest

/-- Whether a tag field is malformed: it contains no `':'`, or the name before the first
`':'` is not a field of the dictionary spec. -/
def malformedTag (env : ReaderEnv) (fldData : List Char) : Bool :=
  decide (':' ∉ fldData) || (env.fields (fldData.takeWhile (fun c => c != ':'))).isNone

/-- Whether a line is malformed: it has two or more fields and a non-empty first field or
a malformed tag field (index 2 or above). -/
def malformedLine (env : ReaderEnv) (line : CsvLine) : Bool :=
  decide (2 ≤ line.numFields) &&
    (!line.field0.isEmpty || (line.more.drop 1).any (malformedTag env))

/-! ## Vocabulary of the statements about `handleEos` -/

/-- The last content node of the top-1 path: `top1.ptr.previous`. -/
def top1Prev (l : Lattice) : ConnectionPtr := l.deref (top1Element l).ptr.previous

/-- The EOS boundary `l->boundary(l->createdBoundaryCount() - 1)`. -/
def eosBoundary (l : Lattice) : LatticeBoundary := l.boundary (l.createdBoundaryCount - 1)

/-- The last content node of the top-1 path is invalid: a gold boundary lies strictly
inside it, or a `NodeConstraint` at its boundary disagrees on the length or on a tag. -/
def lastNodeInvalid (ex : PartialExample) (l : Lattice) : Bool :=
  ex.boundaries.any (fun b =>
      decide (((top1Prev l).boundary : Int) < b ∧
        b < ((top1Prev l).boundary : Int) +
          (l.boundary (top1Prev l).boundary).starts.numCodepoints (top1Prev l).right)) ||
    ex.nodes.any (fun n =>
      decide (n.boundary = ((top1Prev l).boundary : Int)) &&
        (decide (n.length ≠
            (l.boundary (top1Prev l).boundary).starts.numCodepoints (top1Prev l).right) ||
          n.tags.any (fun tag =>
            decide ((l.boundary (top1Prev l).boundary).starts.entryData (top1Prev l).right
              tag.field ≠ tag.value))))

/-- The predecessors of EOS that `doesNodeMatch` accepts. -/
def eosAccepted (ex : PartialExample) (l : Lattice) : List LatticeNodePtr :=
  (eosBoundary l).ends.nodePtrs.filter
    (fun p => doesNodeMatch ex (l.boundary p.boundary).starts (p.boundary : Int) p.position)

/-- The beam entries of a row before the first fake one. -/
def liveBeam (a : Analyzer) (beam : List ConnectionBeamElement) : List ConnectionBeamElement :=
  beam.takeWhile (fun e => !a.isFake e)

/-- The beam entries that `handleEos` counts in `beams`: the live entries of the accepted
predecessors of EOS. -/
def eosBeamEntries (a : Analyzer) (ex : PartialExample) : List ConnectionBeamElement :=
  (eosAccepted ex a.lattice).flatMap
    (fun p => liveBeam a ((a.lattice.boundary p.boundary).starts.beamData p.position))

/-- `eosPtr`, the node of EOS. -/
def eosNodePtr (l : Lattice) : LatticeNodePtr := ⟨(l.createdBoundaryCount - 1) % 2 ^ 16, 0⟩

/-- The trigram that `handleEos` builds for a beam entry: the predecessor of the entry, the
last content node of the top-1 path, EOS. -/
def eosPositiveRef (l : Lattice) (beam : ConnectionBeamElement) : NgramFeatureRef :=
  ⟨(l.deref beam.ptr.previous).latticeNodePtr, (top1Prev l).latticeNodePtr, eosNodePtr l⟩

/-- The trigram that the claim on the positive features of `handleEos` names for a beam
entry of the accepted candidate `p`: the predecessor of the entry, the candidate, EOS. -/
def eosCandidateRef (l : Lattice) (p : LatticeNodePtr) (beam : ConnectionBeamElement) :
    NgramFeatureRef :=
  ⟨(l.deref beam.ptr.previous).latticeNodePtr, p, eosNodePtr l⟩

/-! ## `HashedFeaturePerceptron::compute` -/

/-- Modelled from the spec: `impl::computeUnrolled4Perceptron(weights, row, mask)`, declared
in a header that is not among the sources; the specification gives the score of a row as
the sum of `W[h & mask]` over the hashes `h` of the row. Weights are exact rationals. -/
def computeUnrolled4Perceptron (weights : List ℚ) (row : List Nat) (mask : Nat) : ℚ :=
  (row.map (fun h => weights.getD (h &&& mask) 0)).sum

/-- The mask `static_cast<u32>(features_.size() - 1)` of `HashedFeaturePerceptron::compute`
(`size_t` subtraction, then truncation to `u32`). -/
def perceptronMask (size : Nat) : Nat :=
  ((size + 2 ^ 64 - 1) % 2 ^ 64) % 2 ^ 32

/-- `HashedFeaturePerceptron::compute(result, lattice, focus, connection)` on the slice
`result`: `weights` is `features_`, `ngrams` holds the rows of
`connection->ngramFeatures()`. -/
def perceptronCompute (weights : List ℚ) (ngrams : List (List Nat)) (result : List ℚ) :
    List ℚ :=
  let mask := perceptronMask weights.length
  (List.range ngrams.length).foldl
    (fun res i => res.set i (computeUnrolled4Perceptron weights (ngrams.getD i []) mask)) result

/-! ## Vocabulary of the statements about `handleTagConstraints` -/

/-- The pairs of a `NodeConstraint` and a top-1 connection that the loops of
`handleTagConstraints` visit, from the walker cursor `w`: for every constraint in order
the connections that the walker yields at the boundary of the constraint, none when
`moveToBoundary` fails. -/
def tagVisitsFrom {W : Type} (top1 : AnalysisPath W) :
    W → List NodeConstraint → List (NodeConstraint × ConnectionPtr)
  | _, [] => []
  | w, c :: rest =>
    if !(top1.moveToBoundary w c.boundary).1 then
      tagVisitsFrom top1 (top1.moveToBoundary w c.boundary).2 rest
    else
      (top1.nextNodes (top1.moveToBoundary w c.boundary).2).1.map (fun ptr => (c, ptr)) ++
        tagVisitsFrom top1 (top1.nextNodes (top1.moveToBoundary w c.boundary).2).2 rest

/-- The visits of `handleTagConstraints` after `top1_.reset()`. -/
def tagVisits {W : Type} (t : Trainer W) : List (NodeConstraint × ConnectionPtr) :=
  tagVisitsFrom t.top1_ t.top1_.afterReset t.example_.nodes

/-- The top-1 node of the connection violates the constraint: its codepoint length differs
from the length of the constraint, or at least one tag of the constraint differs from its
entry row. -/
def violatesConstraint (l : Lattice) (c : NodeConstraint) (ptr : ConnectionPtr) : Bool :=
  decide ((l.boundary ptr.boundary).starts.numCodepoints ptr.right ≠ c.length) ||
    c.tags.any (fun tag =>
      decide ((l.boundary ptr.boundary).starts.entryData ptr.right tag.field ≠ tag.value))

/-! ## Vocabulary of the statements about an agreeing top-1 path -/

/-- An example trainer whose top-1 path agrees with the gold annotation: the gold cut 5 is
the start of the top-1 node (5, 0), and the two node constraints are met by the top-1
nodes (2, 0) and (5, 0) in length and tag. -/
def agreeingTrainer : Trainer Int :=
  ⟨demoAnalyzer, ⟨[5], [⟨2, 3, [⟨1, 10⟩]⟩, ⟨5, 2, [⟨0, 2⟩, ⟨1, 30⟩]⟩]⟩, demoPath, 4095⟩

/-! ## Vocabulary of the statement about the termination of the boundary loop -/

/-- Following the `previous` links from `p` reaches a pointer with boundary at most 1
within `k` steps. -/
def reachesBosWithin (l : Lattice) : Nat → ConnectionPtr → Bool
  | 0, p => decide (p.boundary ≤ 1)
  | k + 1, p => decide (p.boundary ≤ 1) || reachesBosWithin l k (l.deref p.previous)

/-- The state of the loop of `handleBoundaryConstraints` between two iterations: the two
node pointers and the remaining gold boundaries of the reverse iteration. -/
structure LoopCursor where
  nodeEnd : ConnectionPtr
  nodeStart : ConnectionPtr
  bnditer : List Int

/-- One iteration of the loop of `handleBoundaryConstraints` on the cursor, `none` when the
loop condition `nodeStart->boundary > 1 && bnditer != rend` fails. -/
def loopAdvance (l : Lattice) (c : LoopCursor) : Option LoopCursor :=
  if ¬ c.nodeStart.boundary > 1 then none
  else
    match c.bnditer with
    | [] => none
    | bndary :: nextIter =>
      if (c.nodeStart.boundary : Int) = bndary then
        some ⟨c.nodeStart, l.deref c.nodeStart.previous, nextIter⟩
      else if (c.nodeStart.boundary : Int) < bndary ∧ bndary < (c.nodeEnd.boundary : Int) then
        some ⟨c.nodeEnd, c.nodeStart, nextIter⟩
      else if bndary ≥ (c.nodeEnd.boundary : Int) then
        some ⟨c.nodeEnd, c.nodeStart, nextIter⟩
      else
        some ⟨c.nodeStart, l.deref c.nodeStart.previous, bndary :: nextIter⟩

/-! ## `FeatureSet::binning` -/

/-- `FeatureSet::binning(double x)` of `feature.h`: the label of the class of `x`. The
`double` is taken as an exact rational and the constants as the decimal numbers written in
the source; the chain of comparisons is kept branch for branch, the repeated test
`x <= 0.7` included. -/
def FeatureSet.binning (x : ℚ) : String :=
  if x = 0 then "0"
  else if x ≤ -1 then "-1.0"
  else if x ≤ -9 / 10 then "-0.9"
  else if x ≤ -8 / 10 then "-0.8"
  else if x ≤ -7 / 10 then "-0.7"
  else if x ≤ -6 / 10 then "-0.6"
  else if x ≤ -5 / 10 then "-0.5"
  else if x ≤ -4 / 10 then "-0.4"
  else if x ≤ -3 / 10 then "-0.3"
  else if x ≤ -2 / 10 then "-0.2"
  else if x ≤ -1 / 10 then "-0.1"
  else if x ≤ -5 / 100 then "-0.05"
  else if x ≤ -1 / 100 then "-0.01"
  else if x ≤ 1 / 100 then "0.01"
  else if x ≤ 5 / 100 then "0.05"
  else if x ≤ 1 / 10 then "0.1"
  else if x ≤ 2 / 10 then "0.2"
  else if x ≤ 3 / 10 then "0.3"
  else if x ≤ 4 / 10 then "0.4"
  else if x ≤ 5 / 10 then "0.5"
  else if x ≤ 6 / 10 then "0.6"
  else if x ≤ 7 / 10 then "0.7"
  else if x ≤ 7 / 10 then "0.7"
  else if x ≤ 8 / 10 then "0.8"
  else if x ≤ 9 / 10 then "0.9"
  else "1.0"

/-! ## Theorems: `finalizeFeatures` -/

theorem take_set_of_le_index (l : List ScoredFeature) (a : ScoredFeature) {n m : Nat}
    (h : n ≤ m) : (l.set m a).take n = l.take n := by
  apply List.ext_getElem?
  intro i
  rw [List.getElem?_take, List.getElem?_take]
  split
  · rw [List.getElem?_set_ne (by omega)]
  · rfl

theorem take_succ_getD (l : List ScoredFeature) {n : Nat} (h : n < l.length) :
    l.take (n + 1) = l.take n ++ [l.getD n nullFeature] := by
  rw [List.take_succ, List.getD_eq_getElem _ _ h, List.getElem?_eq_getElem h]
  rfl

theorem coalesceLoop_take (n : Nat) : ∀ (fs : List ScoredFeature) (prev cur : Nat),
    prev < cur → cur + n = fs.length →
    (coalesceLoop n fs prev cur).1.take ((coalesceLoop n fs prev cur).2 + 1)
      = fs.take prev ++ mergeRuns (fs.getD prev nullFeature) (fs.drop cur) := by
  induction n with
  | zero =>
    intro fs prev cur hlt hlen
    have hd : fs.drop cur = [] := List.drop_eq_nil_of_le (by omega)
    simp only [coalesceLoop, hd, mergeRuns]
    exact take_succ_getD fs (by omega)
  | succ n ih =>
    intro fs prev cur hlt hlen
    have hcur : cur < fs.length := by omega
    have hprev : prev < fs.length := by omega
    have hd : fs.drop cur = fs.getD cur nullFeature :: fs.drop (cur + 1) := by
      rw [List.getD_eq_getElem _ _ hcur]; exact List.drop_eq_getElem_cons hcur
    rw [hd]
    simp only [coalesceLoop, mergeRuns]
    by_cases heq : (fs.getD prev nullFeature).feature = (fs.getD cur nullFeature).feature
    · rw [if_pos heq, if_pos heq]
      rw [ih _ prev (cur + 1) (by omega) (by rw [List.length_set]; omega)]
      rw [take_set_of_le_index _ _ (le_refl prev), List.drop_set_of_lt _ _ (by omega)]
      congr 2
      rw [List.getD_eq_getElem _ _ (by rw [List.length_set]; exact hprev)]
      simp
    · rw [if_neg heq, if_neg heq]
      by_cases hpc : prev + 1 ≠ cur
      · rw [if_pos hpc]
        rw [ih _ (prev + 1) (cur + 1) (by omega) (by rw [List.length_set]; omega)]
        rw [take_set_of_le_index _ _ (le_refl (prev + 1)), List.drop_set_of_lt _ _ (by omega)]
        rw [take_succ_getD fs hprev]
        have hget : (fs.set (prev + 1) (fs.getD cur nullFeature)).getD (prev + 1) nullFeature
            = fs.getD cur nullFeature := by
          rw [List.getD_eq_getElem _ _ (by rw [List.length_set]; omega)]
          simp
        rw [hget]
        simp
      · rw [if_neg hpc]
        have hpc2 : prev + 1 = cur := by omega
        rw [ih _ (prev + 1) (cur + 1) (by omega) (by omega)]
        rw [take_succ_getD fs hprev, hpc2]
        simp


theorem orderedInsertFeature_perm (f : ScoredFeature) (l : List ScoredFeature) :
    (orderedInsertFeature f l).Perm (f :: l) := by
  induction l with
  | nil => exact List.Perm.refl _
  | cons g rest ih =>
    unfold orderedInsertFeature
    split
    · exact List.Perm.refl _
    · exact (List.Perm.cons g ih).trans (List.Perm.swap f g rest)

theorem sortFeatures_perm (l : List ScoredFeature) : (sortFeatures l).Perm l := by
  induction l with
  | nil => exact List.Perm.refl _
  | cons f rest ih =>
    exact (orderedInsertFeature_perm f _).trans (List.Perm.cons f ih)

theorem orderedInsertFeature_sorted (f : ScoredFeature) (l : List ScoredFeature)
    (h : l.Pairwise (fun a b => a.feature ≤ b.feature)) :
    (orderedInsertFeature f l).Pairwise (fun a b => a.feature ≤ b.feature) := by
  induction l with
  | nil => simp [orderedInsertFeature]
  | cons g rest ih =>
    rw [List.pairwise_cons] at h
    unfold orderedInsertFeature
    split
    · rename_i hlt
      refine List.Pairwise.cons ?_ (List.Pairwise.cons h.1 h.2)
      intro x hx
      rcases List.mem_cons.mp hx with rfl | hx
      · omega
      · have := h.1 x hx; omega
    · rename_i hge
      refine List.Pairwise.cons ?_ (ih h.2)
      intro x hx
      rcases List.mem_cons.mp ((orderedInsertFeature_perm f rest).mem_iff.mp hx) with rfl | hx
      · omega
      · exact h.1 x hx

theorem sortFeatures_sorted (l : List ScoredFeature) :
    (sortFeatures l).Pairwise (fun a b => a.feature ≤ b.feature) := by
  induction l with
  | nil => exact List.Pairwise.nil
  | cons f rest ih => exact orderedInsertFeature_sorted f _ ih

theorem coalesce_sorted_eq (s : List ScoredFeature) :
    (if s.length ≤ 1 then s
      else (coalesceLoop (s.length - 1) s 0 1).1.take ((coalesceLoop (s.length - 1) s 0 1).2 + 1))
    = match s with
      | [] => []
      | p :: rest => mergeRuns p rest := by
  match s with
  | [] => simp
  | [p] => simp [mergeRuns]
  | p :: c :: rest =>
    have h := coalesceLoop_take (rest.length + 1) (p :: c :: rest) 0 1 (by omega) (by simp; omega)
    simp only [List.length_cons, Nat.add_sub_cancel] at h ⊢
    rw [if_neg (by omega)]
    simpa using h

/-- The in-place loop of `finalizeFeatures` computes the run-merging of the sorted list. -/
theorem finalizeFeatures_eq (mask : Nat) (features : List ScoredFeature) :
    finalizeFeatures mask features =
      match sortFeatures (features.map (fun f => { f with feature := f.feature &&& mask })) with
      | [] => []
      | p :: rest => mergeRuns p rest := by
  unfold finalizeFeatures
  exact coalesce_sorted_eq _

theorem mergeRuns_features (p : ScoredFeature) (l : List ScoredFeature) :
    ∀ x ∈ mergeRuns p l, x.feature = p.feature ∨ ∃ y ∈ l, x.feature = y.feature := by
  induction l generalizing p with
  | nil => intro x hx; simp [mergeRuns] at hx; left; rw [hx]
  | cons c rest ih =>
    intro x hx
    unfold mergeRuns at hx
    split at hx
    · rcases ih _ x hx with h | ⟨y, hy, hxy⟩
      · left; exact h
      · right; exact ⟨y, List.mem_cons_of_mem _ hy, hxy⟩
    · rcases List.mem_cons.mp hx with rfl | hx
      · left; rfl
      · rcases ih _ x hx with h | ⟨y, hy, hxy⟩
        · right; exact ⟨c, List.mem_cons_self _ _, h⟩
        · right; exact ⟨y, List.mem_cons_of_mem _ hy, hxy⟩

theorem mergeRuns_strict (p : ScoredFeature) (l : List ScoredFeature)
    (h : (p :: l).Pairwise (fun a b => a.feature ≤ b.feature)) :
    (mergeRuns p l).Pairwise (fun a b => a.feature < b.feature) ∧
      ∀ x ∈ mergeRuns p l, p.feature ≤ x.feature := by
  induction l generalizing p with
  | nil => simp [mergeRuns]
  | cons c rest ih =>
    rw [List.pairwise_cons] at h
    obtain ⟨hp, hcr⟩ := h
    unfold mergeRuns
    split
    · rename_i heq
      have hs : (({ p with score := p.score + c.score } : ScoredFeature) :: rest).Pairwise
          (fun a b => a.feature ≤ b.feature) := by
        rw [List.pairwise_cons] at hcr ⊢
        refine ⟨fun x hx => ?_, hcr.2⟩
        have := hcr.1 x hx
        simp only; omega
      exact ih _ hs
    · rename_i hne
      have hpc : p.feature < c.feature := by
        have := hp c (List.mem_cons_self _ _); omega
      obtain ⟨ih1, ih2⟩ := ih c hcr
      refine ⟨List.Pairwise.cons (fun x hx => ?_) ih1, fun x hx => ?_⟩
      · have := ih2 x hx; omega
      · rcases List.mem_cons.mp hx with rfl | hx
        · exact le_refl _
        · have := ih2 x hx; omega


theorem mergeRuns_filter (p : ScoredFeature) (l : List ScoredFeature)
    (hs : (p :: l).Pairwise (fun a b => a.feature ≤ b.feature)) (h : Nat) :
    (mergeRuns p l).filter (fun f => f.feature = h) =
      if h ∈ (p :: l).map (fun f => f.feature) then [⟨h, scoreSum h (p :: l)⟩] else [] := by
  induction l generalizing p with
  | nil =>
    by_cases hp : p.feature = h
    · subst hp; simp [mergeRuns, scoreSum]
    · have hp2 : ¬ h = p.feature := fun e => hp e.symm
      simp [mergeRuns, scoreSum, hp, hp2]
  | cons c rest ih =>
    rw [List.pairwise_cons] at hs
    obtain ⟨hp, hcr⟩ := hs
    unfold mergeRuns
    split
    · rename_i heq
      have hs2 : (({ p with score := p.score + c.score } : ScoredFeature) :: rest).Pairwise
          (fun a b => a.feature ≤ b.feature) := by
        rw [List.pairwise_cons] at hcr ⊢
        refine ⟨fun x hx => ?_, hcr.2⟩
        have := hcr.1 x hx
        simp only; omega
      rw [ih _ hs2]
      by_cases hph : p.feature = h
      · have hch : c.feature = h := by omega
        simp [scoreSum, hph, hch, List.filter_cons, add_assoc]
      · have hch : ¬ c.feature = h := by omega
        have hph2 : ¬ h = p.feature := fun e => hph e.symm
        have hch2 : ¬ h = c.feature := fun e => hch e.symm
        simp [scoreSum, hph, hch, hph2, hch2, List.filter_cons]
    · rename_i hne
      have hpc : p.feature < c.feature := by
        have := hp c (List.mem_cons_self _ _); omega
      rw [List.filter_cons, ih c hcr]
      by_cases hph : p.feature = h
      · have hnot : h ∉ (c :: rest).map (fun f => f.feature) := by
          intro hmem
          rcases List.mem_map.mp hmem with ⟨y, hy, hyh⟩
          rcases List.mem_cons.mp hy with rfl | hy
          · omega
          · have := (List.pairwise_cons.mp hcr).1 y hy; omega
        have hfil : (c :: rest).filter (fun f => decide (f.feature = h)) = [] := by
          rw [List.filter_eq_nil_iff]
          intro y hy hyh
          exact hnot (List.mem_map.mpr ⟨y, hy, by simpa using hyh⟩)
        rw [if_neg hnot]
        simp only [hph, decide_True, if_true]
        have hmem : h ∈ (p :: c :: rest).map (fun f => f.feature) := by simp [hph]
        rw [if_pos hmem]
        have hsum : scoreSum h (p :: c :: rest) = p.score := by
          unfold scoreSum
          rw [List.filter_cons, if_pos (by simpa using hph), hfil]
          simp
        rw [hsum, ← hph]
      · have hph2 : ¬ h = p.feature := fun e => hph e.symm
        simp [scoreSum, hph, hph2, List.filter_cons]


/-- The feature hashes that `finalizeFeatures` leaves are strictly increasing. -/
theorem finalizeFeatures_pairwise_lt (mask : Nat) (features : List ScoredFeature) :
    (finalizeFeatures mask features).Pairwise (fun a b => a.feature < b.feature) := by
  rw [finalizeFeatures_eq]
  have hs := sortFeatures_sorted (features.map (fun f => { f with feature := f.feature &&& mask }))
  revert hs
  generalize sortFeatures (features.map (fun f => { f with feature := f.feature &&& mask })) = s
  intro hs
  match s, hs with
  | [], _ => exact List.Pairwise.nil
  | p :: rest, hs => exact (mergeRuns_strict p rest hs).1

/-- C1: after `finalizeFeatures` the feature hashes are strictly increasing, so no hash
occurs twice. -/
theorem finalizeFeatures_strictly_increasing (mask : Nat) (features : List ScoredFeature) :
    (finalizeFeatures mask features).Pairwise (fun a b => a.feature < b.feature) :=
  finalizeFeatures_pairwise_lt mask features

theorem finalizeFeatures_mem_masked (mask : Nat) (features : List ScoredFeature) :
    ∀ x ∈ finalizeFeatures mask features, ∃ y ∈ features, x.feature = y.feature &&& mask := by
  intro x hx
  rw [finalizeFeatures_eq] at hx
  have hp := sortFeatures_perm (features.map (fun f => { f with feature := f.feature &&& mask }))
  revert hx hp
  generalize sortFeatures (features.map (fun f => { f with feature := f.feature &&& mask })) = s
  intro hx hp
  match s, hx, hp with
  | [], hx, _ => simp at hx
  | p :: rest, hx, hp =>
    have hmem : ∃ z ∈ p :: rest, x.feature = z.feature := by
      rcases mergeRuns_features p rest x hx with h | ⟨y, hy, hxy⟩
      · exact ⟨p, List.mem_cons_self _ _, h⟩
      · exact ⟨y, List.mem_cons_of_mem _ hy, hxy⟩
    obtain ⟨z, hz, hxz⟩ := hmem
    have hz2 := hp.mem_iff.mp hz
    rcases List.mem_map.mp hz2 with ⟨y, hy, rfl⟩
    exact ⟨y, hy, hxz⟩

theorem initializeMask_eq (k : Nat) (hk : k ≤ 31) : initializeMask k = 2 ^ k - 1 := by
  unfold initializeMask
  have h1 : (1 : Nat) <<< k = 2 ^ k := by rw [Nat.shiftLeft_eq, one_mul]
  have h2 : 2 ^ k < 2 ^ 32 := Nat.pow_lt_pow_right (by omega) (by omega)
  have h3 : 0 < 2 ^ k := Nat.pow_pos (by omega)
  simp only [h1]
  rw [Nat.mod_eq_of_lt h2]
  have : 2 ^ k + 2 ^ 32 - 1 = (2 ^ k - 1) + 2 ^ 32 := by omega
  rw [this, Nat.add_mod_right, Nat.mod_eq_of_lt (by omega)]

/-- C2: with `mask = 2^k - 1` as set up by `OwningPartialTrainer::initialize`
(`0 ≤ k ≤ 31`), every hash left by `finalizeFeatures` is below `2^k`. -/
theorem finalizeFeatures_hash_lt (k : Nat) (hk : k ≤ 31) (features : List ScoredFeature) :
    ∀ f ∈ finalizeFeatures (initializeMask k) features, f.feature < 2 ^ k := by
  intro f hf
  obtain ⟨y, _, hy⟩ := finalizeFeatures_mem_masked _ _ f hf
  rw [hy, initializeMask_eq k hk, Nat.and_pow_two_sub_one_eq_mod]
  exact Nat.mod_lt _ (Nat.pow_pos (by omega))

/-- Instance of `finalizeFeatures_hash_lt` for 4096 hashed features. -/
theorem finalizeFeatures_hash_lt_witness :
    (12 ≤ 31) ∧ ∀ f ∈ finalizeFeatures (initializeMask 12) [⟨5000, 1⟩, ⟨904, -1⟩, ⟨7, 2⟩],
      f.feature < 2 ^ 12 :=
  ⟨by decide, finalizeFeatures_hash_lt 12 (by decide) _⟩

/-- The entries of hash `h` that `finalizeFeatures` leaves. -/
theorem finalizeFeatures_filter_eq (mask : Nat) (features : List ScoredFeature) (h : Nat) :
    (finalizeFeatures mask features).filter (fun f => f.feature = h) =
      if h ∈ features.map (fun f => f.feature &&& mask) then
        [⟨h, ((features.filter (fun f => f.feature &&& mask = h)).map (fun f => f.score)).sum⟩]
      else [] := by
  rw [finalizeFeatures_eq]
  have hs := sortFeatures_sorted (features.map (fun f => { f with feature := f.feature &&& mask }))
  have hp := sortFeatures_perm (features.map (fun f => { f with feature := f.feature &&& mask }))
  have hmap : (features.map (fun f => ({ f with feature := f.feature &&& mask } : ScoredFeature))).map
      (fun f => f.feature) = features.map (fun f => f.feature &&& mask) := by
    rw [List.map_map]; rfl
  have hsum : scoreSum h (features.map (fun f => ({ f with feature := f.feature &&& mask } : ScoredFeature)))
      = ((features.filter (fun f => f.feature &&& mask = h)).map (fun f => f.score)).sum := by
    unfold scoreSum
    rw [List.filter_map, List.map_map]
    rfl
  revert hs hp
  generalize sortFeatures (features.map (fun f => { f with feature := f.feature &&& mask })) = s
  intro hs hp
  have hmem : (h ∈ s.map (fun f => f.feature)) ↔ h ∈ features.map (fun f => f.feature &&& mask) := by
    rw [← hmap]; exact (hp.map _).mem_iff
  have hsc : scoreSum h s = ((features.filter (fun f => f.feature &&& mask = h)).map
      (fun f => f.score)).sum := by
    rw [← hsum]
    unfold scoreSum
    exact ((hp.filter _).map _).sum_eq
  match s, hs, hmem, hsc with
  | [], _, hmem, _ =>
    have : h ∉ features.map (fun f => f.feature &&& mask) := by
      intro hh; have := hmem.mpr hh; simp at this
    rw [if_neg this]; rfl
  | p :: rest, hs, hmem, hsc =>
    show (mergeRuns p rest).filter (fun f => f.feature = h) = _
    rw [mergeRuns_filter p rest hs h, hsc]
    by_cases hh : h ∈ features.map (fun f => f.feature &&& mask)
    · rw [if_pos hh, if_pos (hmem.mpr hh)]
    · rw [if_neg hh, if_neg (fun x => hh (hmem.mp x))]

/-- C3: the output of `finalizeFeatures` holds exactly one entry for every value of
`feature & mask` that occurs in the input and none for any other value, and the score of
that entry is the exact sum of the scores of all input entries with this masked hash. -/
theorem finalizeFeatures_entries (mask : Nat) (features : List ScoredFeature) (h : Nat) :
    (finalizeFeatures mask features).filter (fun f => f.feature = h) =
      if h ∈ features.map (fun f => f.feature &&& mask) then
        [⟨h, ((features.filter (fun f => f.feature &&& mask = h)).map (fun f => f.score)).sum⟩]
      else [] :=
  finalizeFeatures_filter_eq mask features h


/-! ## Theorems: `handleBoundaryConstraints` -/

theorem containingNode_none_of_ge (l : Lattice) (path : List ConnectionPtr) :
    ∀ (nodeEnd : ConnectionPtr) (b : Int), IsTop1Chain l nodeEnd path →
      (nodeEnd.boundary : Int) ≤ b → containingNode nodeEnd path b = none := by
  induction path with
  | nil => intro nodeEnd b _ _; rfl
  | cons n rest ih =>
    intro nodeEnd b hc hb
    obtain ⟨_, _, hlt, hrest⟩ := hc
    unfold containingNode
    rw [if_neg (by omega)]
    exact ih n b hrest (by omega)

theorem containingNode_skip (nodeEnd n : ConnectionPtr) (rest : List ConnectionPtr) (b : Int)
    (hb : b ≤ (n.boundary : Int)) :
    containingNode nodeEnd (n :: rest) b = containingNode n rest b := by
  rw [containingNode, if_neg (by omega)]

theorem expectedCalls_nil_path (nodeEnd : ConnectionPtr) (bs : List Int) :
    expectedCalls nodeEnd [] bs = [] := by
  induction bs with
  | nil => rfl
  | cons b rest ih => simp [expectedCalls, containingNode, ih]

theorem expectedCalls_skip (nodeEnd n : ConnectionPtr) (rest : List ConnectionPtr)
    (bs : List Int) (hbs : ∀ b ∈ bs, b ≤ (n.boundary : Int)) :
    expectedCalls nodeEnd (n :: rest) bs = expectedCalls n rest bs := by
  induction bs with
  | nil => rfl
  | cons b tl ih =>
    have hb := hbs b (List.mem_cons_self _ _)
    have htl := ih (fun x hx => hbs x (List.mem_cons_of_mem _ hx))
    simp only [expectedCalls]
    rw [containingNode_skip nodeEnd n rest b hb, htl]

theorem boundaryLoop_succ {σ : Type} (l : Lattice)
    (onBadNode : ConnectionPtr → Int → Int → σ → σ) (fuel : Nat)
    (nodeEnd nodeStart : ConnectionPtr) (bnditer : List Int) (st : σ) :
    boundaryLoop l onBadNode (fuel + 1) nodeEnd nodeStart bnditer st =
      if ¬ nodeStart.boundary > 1 then some st
      else
        match bnditer with
        | [] => some st
        | bndary :: nextIter =>
          if (nodeStart.boundary : Int) = bndary then
            boundaryLoop l onBadNode fuel nodeStart (l.deref nodeStart.previous) nextIter st
          else if (nodeStart.boundary : Int) < bndary ∧ bndary < (nodeEnd.boundary : Int) then
            boundaryLoop l onBadNode fuel nodeEnd nodeStart nextIter
              (onBadNode nodeStart bndary (nextIter.headD 2) st)
          else if bndary ≥ (nodeEnd.boundary : Int) then
            boundaryLoop l onBadNode fuel nodeEnd nodeStart nextIter st
          else
            boundaryLoop l onBadNode fuel nodeStart (l.deref nodeStart.previous)
              (bndary :: nextIter) st := by
  cases bnditer with
  | nil => rfl
  | cons b rest => cases rest <;> rfl

/-- The loop of `handleBoundaryConstraints`, run with the recording visitor on a top-1
chain and strictly decreasing boundaries, returns and makes exactly the expected calls. -/
theorem boundaryLoop_calls (l : Lattice) (fuel : Nat) :
    ∀ (nodeEnd : ConnectionPtr) (path : List ConnectionPtr) (bnditer : List Int)
      (acc : List BadNodeCall),
      IsTop1Chain l nodeEnd path → bnditer.Pairwise (fun a b => b < a) →
      path.length + bnditer.length ≤ fuel →
      boundaryLoop l (fun node b pb calls => calls ++ [⟨node, b, pb⟩]) fuel nodeEnd
        (l.deref nodeEnd.previous) bnditer acc
        = some (acc ++ expectedCalls nodeEnd path bnditer) := by
  induction fuel with
  | zero =>
    intro nodeEnd path bnditer acc hc hb hf
    have h1 : bnditer = [] := List.length_eq_zero.mp (by omega)
    subst h1
    simp [boundaryLoop, expectedCalls]
  | succ fuel ih =>
    intro nodeEnd path bnditer acc hc hb hf
    match path, hc, hf with
    | [], hc, _ =>
      have hle : (l.deref nodeEnd.previous).boundary ≤ 1 := hc
      rw [boundaryLoop_succ, if_pos (by omega), expectedCalls_nil_path]
      simp
    | n :: prest, hc, hf =>
      obtain ⟨hn, h1, hlt, hchain⟩ := hc
      rw [hn, boundaryLoop_succ, if_neg (by omega)]
      simp only [List.length_cons] at hf
      match bnditer, hb, hf with
      | [], _, _ => simp [expectedCalls]
      | b :: rest, hb, hf =>
        rw [List.pairwise_cons] at hb
        obtain ⟨hbrest, hrest⟩ := hb
        simp only [List.length_cons] at hf
        show (if (n.boundary : Int) = b then _ else _) = _
        by_cases heq : (n.boundary : Int) = b
        · rw [if_pos heq]
          rw [ih n prest rest acc hchain hrest (by omega)]
          have hnone : containingNode nodeEnd (n :: prest) b = none := by
            rw [containingNode_skip _ _ _ _ (by omega)]
            exact containingNode_none_of_ge l prest n b hchain (by omega)
          simp only [expectedCalls, hnone]
          rw [expectedCalls_skip nodeEnd n prest rest
            (fun x hx => by have := hbrest x hx; omega)]
        · rw [if_neg heq]
          by_cases hin : (n.boundary : Int) < b ∧ b < (nodeEnd.boundary : Int)
          · rw [if_pos hin]
            have hcall := ih nodeEnd (n :: prest) rest
              (acc ++ [⟨n, b, rest.headD 2⟩]) ⟨hn, h1, hlt, hchain⟩ hrest
              (by simp only [List.length_cons]; omega)
            rw [hn] at hcall
            rw [hcall]
            simp only [expectedCalls, containingNode, if_pos hin]
            simp
          · rw [if_neg hin]
            by_cases hge : b ≥ (nodeEnd.boundary : Int)
            · rw [if_pos hge]
              have hskip := ih nodeEnd (n :: prest) rest acc ⟨hn, h1, hlt, hchain⟩ hrest
                (by simp only [List.length_cons]; omega)
              rw [hn] at hskip
              rw [hskip]
              have hnone : containingNode nodeEnd (n :: prest) b = none :=
                containingNode_none_of_ge l (n :: prest) nodeEnd b ⟨hn, h1, hlt, hchain⟩
                  (by omega)
              simp only [expectedCalls, hnone]
            · rw [if_neg hge]
              have hbn : b < (n.boundary : Int) := by omega
              rw [ih n prest (b :: rest) acc hchain (List.pairwise_cons.mpr ⟨hbrest, hrest⟩)
                (by simp only [List.length_cons]; omega)]
              rw [expectedCalls_skip nodeEnd n prest (b :: rest)
                (fun x hx => by
                  rcases List.mem_cons.mp hx with rfl | hx
                  · omega
                  · have := hbrest x hx; omega)]

theorem boundaryLoop_fold {σ : Type} (l : Lattice)
    (f : ConnectionPtr → Int → Int → σ → σ) (st0 : σ) (fuel : Nat) :
    ∀ (nodeEnd nodeStart : ConnectionPtr) (bnditer : List Int) (acc : List BadNodeCall),
      boundaryLoop l f fuel nodeEnd nodeStart bnditer
          (acc.foldl (fun st c => f c.node c.boundary c.prevBoundary st) st0)
        = (boundaryLoop l (fun node b pb calls => calls ++ [⟨node, b, pb⟩]) fuel nodeEnd
            nodeStart bnditer acc).map
            (fun calls => calls.foldl (fun st c => f c.node c.boundary c.prevBoundary st) st0) := by
  induction fuel with
  | zero =>
    intro nodeEnd nodeStart bnditer acc
    simp only [boundaryLoop]
    split <;> rfl
  | succ fuel ih =>
    intro nodeEnd nodeStart bnditer acc
    rw [boundaryLoop_succ, boundaryLoop_succ]
    split
    · rfl
    · cases bnditer with
      | nil => rfl
      | cons b rest =>
        simp only
        split
        · exact ih _ _ _ _
        · split
          · rw [← ih]
            simp
          · split
            · exact ih _ _ _ _
            · exact ih _ _ _ _

theorem expectedCalls_boundaries (nodeEnd : ConnectionPtr) (path : List ConnectionPtr)
    (bs : List Int) :
    (expectedCalls nodeEnd path bs).map (fun c => c.boundary)
      = bs.filter (fun b => insideTop1Node nodeEnd path b) := by
  have hsome : ∀ (p : List ConnectionPtr) (e : ConnectionPtr) (b : Int),
      (containingNode e p b).isSome = insideTop1Node e p b := by
    intro p
    induction p with
    | nil => intro e b; rfl
    | cons n rest ih =>
      intro e b
      unfold containingNode insideTop1Node
      by_cases h : (n.boundary : Int) < b ∧ b < (e.boundary : Int)
      · simp [h]
      · simp [h, ih]
  induction bs with
  | nil => rfl
  | cons b rest ih =>
    have hb := hsome path nodeEnd b
    unfold expectedCalls
    rw [List.filter_cons]
    cases hc : containingNode nodeEnd path b with
    | none =>
      rw [hc] at hb
      simp only [Option.isSome_none] at hb
      rw [← hb]
      simpa using ih
    | some n =>
      rw [hc] at hb
      simp only [Option.isSome_some] at hb
      rw [← hb]
      simpa using ih

/-- C5: on a top-1 path that is contiguous back to BOS and strictly increasing gold
boundaries, `handleBoundaryConstraints` returns, calls `addBadNode` exactly for the gold
boundaries that lie strictly inside a top-1 node (once each, in reverse order) and adds
`v / totalNodes()` to the loss, `v` being the number of these boundaries. -/
theorem handleBoundaryConstraints_violations {W : Type} (t : Trainer W)
    (path : List ConnectionPtr) (fuel : Nat) (st : TrainerState)
    (hchain : IsTop1Chain t.analyzer_.lattice (top1Element t.analyzer_.lattice).ptr path)
    (hgold : t.example_.boundaries.Pairwise (fun a b => a < b))
    (hfuel : path.length + t.example_.boundaries.length ≤ fuel) :
    ∃ calls st',
      boundaryCalls t.analyzer_.lattice t.example_.boundaries fuel = some calls ∧
      calls.map (fun c => c.boundary) = t.example_.boundaries.reverse.filter
        (fun b => insideTop1Node (top1Element t.analyzer_.lattice).ptr path b) ∧
      handleBoundaryConstraints t fuel st = some st' ∧
      st'.features = calls.foldl
        (fun fs c => addBadNode t.analyzer_ c.node c.boundary c.prevBoundary fs) st.features ∧
      st'.loss = st.loss +
        ((t.example_.boundaries.filter
          (fun b => insideTop1Node (top1Element t.analyzer_.lattice).ptr path b)).length : ℚ)
          / (t.top1_.totalNodes : ℚ) := by
  have hrev : t.example_.boundaries.reverse.Pairwise (fun a b => b < a) :=
    List.pairwise_reverse.mpr hgold
  have hcalls := boundaryLoop_calls t.analyzer_.lattice fuel
    (top1Element t.analyzer_.lattice).ptr path t.example_.boundaries.reverse [] hchain hrev
    (by rw [List.length_reverse]; exact hfuel)
  rw [List.nil_append] at hcalls
  have hfold := boundaryLoop_fold t.analyzer_.lattice (boundaryViolation t) st fuel
    (top1Element t.analyzer_.lattice).ptr
    (t.analyzer_.lattice.deref (top1Element t.analyzer_.lattice).ptr.previous)
    t.example_.boundaries.reverse []
  rw [hcalls] at hfold
  simp only [List.foldl_nil, Option.map_some] at hfold
  have hstate : ∀ (calls : List BadNodeCall) (s : TrainerState),
      (calls.foldl (fun st c => boundaryViolation t c.node c.boundary c.prevBoundary st) s).features
          = calls.foldl
            (fun fs c => addBadNode t.analyzer_ c.node c.boundary c.prevBoundary fs) s.features ∧
      (calls.foldl (fun st c => boundaryViolation t c.node c.boundary c.prevBoundary st) s).loss
          = s.loss + (calls.length : ℚ) / (t.top1_.totalNodes : ℚ) := by
    intro calls
    induction calls with
    | nil => intro s; simp
    | cons c rest ih =>
      intro s
      simp only [List.foldl_cons, List.length_cons]
      obtain ⟨h1, h2⟩ := ih (boundaryViolation t c.node c.boundary c.prevBoundary s)
      refine ⟨h1, ?_⟩
      rw [h2]
      simp only [boundaryViolation]
      push_cast
      ring
  have hlen : (expectedCalls (top1Element t.analyzer_.lattice).ptr path
      t.example_.boundaries.reverse).length = (t.example_.boundaries.filter
        (fun b => insideTop1Node (top1Element t.analyzer_.lattice).ptr path b)).length := by
    rw [← List.length_map _ (fun c : BadNodeCall => c.boundary), expectedCalls_boundaries,
      List.filter_reverse, List.length_reverse]
  refine ⟨_, _, hcalls, expectedCalls_boundaries _ _ _, hfold, (hstate _ st).1, ?_⟩
  rw [(hstate _ st).2, hlen]

/-- Instance of `handleBoundaryConstraints_violations` on the example trainer. -/
theorem handleBoundaryConstraints_violations_witness :
    IsTop1Chain demoTrainer.analyzer_.lattice (top1Element demoTrainer.analyzer_.lattice).ptr
        [demoDeref 6, demoDeref 2] ∧
      demoTrainer.example_.boundaries.Pairwise (fun a b => a < b) ∧
      [demoDeref 6, demoDeref 2].length + demoTrainer.example_.boundaries.length ≤ 4 ∧
      ∃ calls st',
        boundaryCalls demoTrainer.analyzer_.lattice demoTrainer.example_.boundaries 4
          = some calls ∧
        calls.map (fun c => c.boundary) = demoTrainer.example_.boundaries.reverse.filter
          (fun b => insideTop1Node (top1Element demoTrainer.analyzer_.lattice).ptr
            [demoDeref 6, demoDeref 2] b) ∧
        handleBoundaryConstraints demoTrainer 4 ⟨[], 0⟩ = some st' ∧
        st'.features = calls.foldl
          (fun fs c => addBadNode demoTrainer.analyzer_ c.node c.boundary c.prevBoundary fs) [] ∧
        st'.loss = (0 : ℚ) +
          ((demoTrainer.example_.boundaries.filter
            (fun b => insideTop1Node (top1Element demoTrainer.analyzer_.lattice).ptr
              [demoDeref 6, demoDeref 2] b)).length : ℚ)
            / (demoTrainer.top1_.totalNodes : ℚ) :=
  have hchain : IsTop1Chain demoTrainer.analyzer_.lattice
      (top1Element demoTrainer.analyzer_.lattice).ptr [demoDeref 6, demoDeref 2] :=
    ⟨rfl, by decide, by decide, rfl, by decide, by decide,
      show (demoDeref 1).boundary ≤ 1 by decide⟩
  have hgold : demoTrainer.example_.boundaries.Pairwise (fun a b => a < b) := by decide
  have hfuel : [demoDeref 6, demoDeref 2].length + demoTrainer.example_.boundaries.length ≤ 4 := by
    decide
  ⟨hchain, hgold, hfuel,
    handleBoundaryConstraints_violations demoTrainer [demoDeref 6, demoDeref 2] 4 ⟨[], 0⟩
      hchain hgold hfuel⟩

/-- C6 (as amended): when the current gold boundary `b` satisfies
`nodeStart.boundary < b < nodeEnd.boundary`, the loop of `handleBoundaryConstraints` calls
`addBadNode` with `node = nodeStart` (the top-1 node that `b` cuts), `boundary = b` and
`prevBoundary` the next gold boundary of the reverse iteration, which is the largest gold
boundary below `b`, or 2 when `b` is the smallest gold boundary; it then goes on with the
same two nodes and the remaining boundaries. -/
theorem boundaryLoop_violation_call {σ : Type} (l : Lattice)
    (f : ConnectionPtr → Int → Int → σ → σ) (fuel : Nat) (nodeEnd nodeStart : ConnectionPtr)
    (b : Int) (rest : List Int) (st : σ)
    (h1 : 1 < nodeStart.boundary)
    (hin : (nodeStart.boundary : Int) < b ∧ b < (nodeEnd.boundary : Int))
    (hs : (b :: rest).Pairwise (fun x y => y < x)) :
    ∃ pb, boundaryLoop l f (fuel + 1) nodeEnd nodeStart (b :: rest) st
          = boundaryLoop l f fuel nodeEnd nodeStart rest (f nodeStart b pb st) ∧
      ((rest = [] ∧ pb = 2) ∨ (pb ∈ rest ∧ pb < b ∧ ∀ g ∈ rest, g ≤ pb)) := by
  refine ⟨rest.headD 2, ?_, ?_⟩
  · rw [boundaryLoop_succ, if_neg (by omega)]
    show (if (nodeStart.boundary : Int) = b then _ else _) = _
    rw [if_neg (by omega), if_pos hin]
  · cases rest with
    | nil => left; exact ⟨rfl, rfl⟩
    | cons g tl =>
      right
      rw [List.pairwise_cons, List.pairwise_cons] at hs
      refine ⟨List.mem_cons_self _ _, hs.1 g (List.mem_cons_self _ _), ?_⟩
      intro x hx
      rcases List.mem_cons.mp hx with rfl | hx
      · exact le_refl _
      · exact le_of_lt (hs.2.1 x hx)

/-- Instance of `boundaryLoop_violation_call` at the first violation of the example. -/
theorem boundaryLoop_violation_call_witness :
    1 < (demoDeref 6).boundary ∧
      (((demoDeref 6).boundary : Int) < 6 ∧ (6 : Int) < ((demoDeref 9).boundary : Int)) ∧
      ([6, 4] : List Int).Pairwise (fun x y => y < x) ∧
      ∃ pb, boundaryLoop demoLattice (fun node b pb calls => calls ++ [(⟨node, b, pb⟩ : BadNodeCall)])
            (3 + 1) (demoDeref 9) (demoDeref 6) [6, 4] []
          = boundaryLoop demoLattice (fun node b pb calls => calls ++ [(⟨node, b, pb⟩ : BadNodeCall)])
            3 (demoDeref 9) (demoDeref 6) [4] ([] ++ [⟨demoDeref 6, 6, pb⟩]) ∧
        ((([4] : List Int) = [] ∧ pb = 2) ∨ (pb ∈ ([4] : List Int) ∧ pb < 6 ∧ ∀ g ∈ ([4] : List Int), g ≤ pb)) :=
  ⟨by decide, by decide, by decide,
    boundaryLoop_violation_call demoLattice
      (fun node b pb calls => calls ++ [(⟨node, b, pb⟩ : BadNodeCall)]) 3 (demoDeref 9)
      (demoDeref 6) 6 [4] [] (by decide) (by decide) (by decide)⟩

/-- C6 (as stated) fails: in the example lattice with gold cuts 4 and 6 the cut 6 lies
strictly inside the last top-1 node (`nodeStart`, from 5 to 7) while `nodeEnd` is the EOS
connection; the loop does not continue as if `addBadNode` had been called with
`node = nodeEnd`, the recorded calls carry `nodeStart`. -/
theorem boundaryLoop_violation_call_counterexample :
    (1 < (demoDeref 6).boundary ∧ ((demoDeref 6).boundary : Int) < 6 ∧
        (6 : Int) < ((top1Element demoLattice).ptr.boundary : Int)) ∧
      demoLattice.deref (top1Element demoLattice).ptr.previous = demoDeref 6 ∧
      boundaryLoop demoLattice (fun node b pb calls => calls ++ [(⟨node, b, pb⟩ : BadNodeCall)])
          4 (top1Element demoLattice).ptr (demoDeref 6) [6, 4] []
        ≠ boundaryLoop demoLattice (fun node b pb calls => calls ++ [(⟨node, b, pb⟩ : BadNodeCall)])
          3 (top1Element demoLattice).ptr (demoDeref 6) [4]
          [⟨(top1Element demoLattice).ptr, 6, 4⟩] ∧
      boundaryCalls demoLattice [4, 6] 4
        = some [⟨demoDeref 6, 6, 4⟩, ⟨demoDeref 2, 4, 2⟩] := by
  decide

/-! ## Theorems: `addBadNode` -/

theorem calculateNgramFeatures_length (a : Analyzer) (ref : NgramFeatureRef) :
    (calculateNgramFeatures a ref).length = a.numNgram := by
  simp [calculateNgramFeatures]

theorem featureGroup_length (a : Analyzer) (score : ℚ) (ptr : ConnectionPtr) :
    (featureGroup a score ptr).length = a.numNgram := by
  simp [featureGroup, calculateNgramFeatures_length]

theorem featureGroup_sum (a : Analyzer) (score : ℚ) (ptr : ConnectionPtr) :
    ((featureGroup a score ptr).map (fun f => f.score)).sum = (a.numNgram : ℚ) * score := by
  unfold featureGroup
  rw [List.map_map]
  have h : ∀ (l : List Nat),
      (l.map ((fun f : ScoredFeature => f.score) ∘ fun f => (⟨f, score⟩ : ScoredFeature))).sum
        = (l.length : ℚ) * score := by
    intro l
    induction l with
    | nil => simp
    | cons x rest ih =>
      simp only [List.map_cons, List.sum_cons, List.length_cons, Function.comp_apply, ih]
      push_cast
      ring
  rw [h, calculateNgramFeatures_length]

theorem featureGroups_sum (a : Analyzer) (score : ℚ) (els : List ConnectionBeamElement) :
    ((els.flatMap (fun el => featureGroup a score el.ptr)).map (fun f => f.score)).sum
      = (els.length : ℚ) * ((a.numNgram : ℚ) * score) := by
  induction els with
  | nil => simp
  | cons el rest ih =>
    rw [List.flatMap_cons, List.map_append, List.sum_append, ih, featureGroup_sum]
    simp only [List.length_cons]
    push_cast
    ring

theorem addBadNode_beam_fold (a : Analyzer) (node : ConnectionPtr) (score : ℚ)
    (beam : List ConnectionBeamElement) :
    ∀ (st : List ScoredFeature × Int),
      beam.foldl (addBadNodeBeamStep a node score) st
        = (st.1 ++ (positiveEntries a node beam).flatMap (fun el => featureGroup a score el.ptr),
            st.2 + ((positiveEntries a node beam).length : Int)) := by
  induction beam with
  | nil => intro st; simp [positiveEntries]
  | cons el rest ih =>
    intro st
    rw [List.foldl_cons, ih]
    unfold addBadNodeBeamStep positiveEntries
    by_cases hf : a.isFake el = true
    · simp [hf, List.filter_cons]
    · by_cases hn : el.ptr = node
      · simp [hf, hn, List.filter_cons]
      · simp [hf, hn, List.filter_cons, pushFeatures, featureGroup]
        omega

theorem addBadNode_end_fold (a : Analyzer) (node : ConnectionPtr) (prevBoundary : Int)
    (score : ℚ) (ends : List LatticeNodePtr) :
    ∀ (st : List ScoredFeature × Int),
      ends.foldl (addBadNodeEndStep a node prevBoundary score) st
        = (st.1 ++ ((ends.filter (fun e => decide (¬ (e.boundary : Int) < prevBoundary))).flatMap
              (fun e => positiveEntries a node
                ((a.lattice.boundary e.boundary).starts.beamData e.position))).flatMap
              (fun el => featureGroup a score el.ptr),
            st.2 + (((ends.filter (fun e => decide (¬ (e.boundary : Int) < prevBoundary))).flatMap
              (fun e => positiveEntries a node
                ((a.lattice.boundary e.boundary).starts.beamData e.position))).length : Int)) := by
  induction ends with
  | nil => intro st; simp
  | cons e rest ih =>
    intro st
    rw [List.foldl_cons, ih]
    unfold addBadNodeEndStep
    by_cases hb : (e.boundary : Int) < prevBoundary
    · simp [hb, List.filter_cons]
    · rw [if_neg hb, addBadNode_beam_fold]
      simp only [List.filter_cons, hb, not_false_eq_true, decide_True, if_true,
        List.flatMap_cons, List.flatMap_append, List.append_assoc, List.length_append]
      push_cast
      rw [add_assoc]

/-- What `addBadNode` appends: one group per positive beam entry with the positive score,
then the group of the bad node with minus count times that score. -/
theorem addBadNode_eq (a : Analyzer) (node : ConnectionPtr) (boundary prevBoundary : Int)
    (features : List ScoredFeature) :
    addBadNode a node boundary prevBoundary features
      = features ++
        ((addBadNodePositives a node boundary prevBoundary).flatMap
            (fun el => featureGroup a (addBadNodeScore a boundary) el.ptr) ++
          featureGroup a
            (-((addBadNodePositives a node boundary prevBoundary).length : ℚ) *
              addBadNodeScore a boundary) node) := by
  unfold addBadNode
  simp only
  rw [addBadNode_end_fold]
  simp only [pushFeatures, featureGroup, addBadNodePositives, addBadNodeScore, zero_add,
    List.append_assoc]
  push_cast
  rfl

/-- C7: the scores of all features that `addBadNode` appends sum to zero in exact
arithmetic: it appends `count` groups of `T` features with score `+posScore`, one group per
positive beam entry used, and one group of `T` features with score `-count * posScore`,
`T` being the number of n-gram templates. -/
theorem addBadNode_scores_sum_zero (a : Analyzer) (node : ConnectionPtr)
    (boundary prevBoundary : Int) (features : List ScoredFeature) :
    addBadNode a node boundary prevBoundary features
        = features ++
          ((addBadNodePositives a node boundary prevBoundary).flatMap
              (fun el => featureGroup a (addBadNodeScore a boundary) el.ptr) ++
            featureGroup a
              (-((addBadNodePositives a node boundary prevBoundary).length : ℚ) *
                addBadNodeScore a boundary) node) ∧
      (∀ (score : ℚ) (ptr : ConnectionPtr), (featureGroup a score ptr).length = a.numNgram) ∧
      (∀ (score : ℚ) (ptr : ConnectionPtr), ∀ f ∈ featureGroup a score ptr, f.score = score) ∧
      (((addBadNode a node boundary prevBoundary features).drop features.length).map
        (fun f => f.score)).sum = 0 := by
  refine ⟨addBadNode_eq a node boundary prevBoundary features, featureGroup_length a, ?_, ?_⟩
  · intro score ptr f hf
    unfold featureGroup at hf
    rcases List.mem_map.mp hf with ⟨x, _, rfl⟩
    rfl
  · rw [addBadNode_eq, List.drop_left, List.map_append, List.sum_append, featureGroups_sum,
      featureGroup_sum]
    ring

/-! ## Theorems: `addBadNode2` -/

theorem countBeam_fold (a : Analyzer) (node : ConnectionPtr)
    (beam : List ConnectionBeamElement) :
    ∀ (count : Int), beam.foldl (countBeamStep a node) count
      = count + ((positiveEntries a node beam).length : Int) := by
  induction beam with
  | nil => intro count; simp [positiveEntries]
  | cons el rest ih =>
    intro count
    rw [List.foldl_cons, ih]
    unfold countBeamStep positiveEntries
    by_cases hf : a.isFake el = true
    · simp [hf, List.filter_cons]
    · by_cases hn : el.ptr = node
      · simp [hf, hn, List.filter_cons]
      · simp [hf, hn, List.filter_cons]
        omega

theorem count_fold (a : Analyzer) (bndNodes : LatticeRightBoundary) (node : ConnectionPtr)
    (length : Int) (tagFilter : List TagConstraint) (positions : List Nat) :
    ∀ (st : Int × Int),
      positions.foldl (countStep a bndNodes node length tagFilter) st
        = (st.1 + (((positions.filter (fun i => decide (bndNodes.numCodepoints i = length) &&
              checkTags bndNodes tagFilter i)).flatMap
              (fun i => positiveEntries a node (bndNodes.beamData i))).length : Int),
            st.2 + ((positions.filter (fun i => decide (bndNodes.numCodepoints i = length) &&
              checkTags bndNodes tagFilter i)).length : Int)) := by
  induction positions with
  | nil => intro st; simp
  | cons i rest ih =>
    intro st
    rw [List.foldl_cons, ih]
    unfold countStep
    by_cases hl : bndNodes.numCodepoints i = length
    · by_cases ht : checkTags bndNodes tagFilter i = true
      · simp only [hl, ne_eq, not_true_eq_false, if_false, ht, Bool.not_true, Bool.false_eq_true,
          List.filter_cons, decide_True, Bool.and_self, if_true, List.flatMap_cons,
          List.length_append, List.length_cons, countBeam_fold]
        push_cast
        refine Prod.ext ?_ ?_ <;> simp only <;> omega
      · simp [hl, ht, List.filter_cons]
    · simp [hl, List.filter_cons]

/-- The counters `count` and `nodes` of `addBadNode2` after LOOP1. -/
theorem addBadNode2_counters (a : Analyzer) (node : ConnectionPtr) (boundary length : Int)
    (tagFilter : List TagConstraint) :
    (List.range (a.lattice.boundary boundary.toNat).starts.numEntries).foldl
        (countStep a (a.lattice.boundary boundary.toNat).starts node length tagFilter) (0, 0)
      = (((addBadNode2Positives a node boundary length tagFilter).length : Int),
          ((qualifyingPositions (a.lattice.boundary boundary.toNat).starts length
            tagFilter).length : Int)) := by
  rw [count_fold]
  simp [addBadNode2Positives, qualifyingPositions]

theorem qualifyingPositions_length_le (bndNodes : LatticeRightBoundary) (length : Int)
    (tagFilter : List TagConstraint) :
    (qualifyingPositions bndNodes length tagFilter).length ≤ bndNodes.numEntries := by
  unfold qualifyingPositions
  calc _ ≤ (List.range bndNodes.numEntries).length := List.length_filter_le _ _
    _ = bndNodes.numEntries := List.length_range _

/-- The value returned by `addBadNode2`. -/
theorem addBadNode2_fst (a : Analyzer) (node : ConnectionPtr) (boundary length : Int)
    (tagFilter : List TagConstraint) (features : List ScoredFeature) :
    (addBadNode2 a node boundary length tagFilter features).1
      = if (addBadNode2Positives a node boundary length tagFilter).length = 0 then 0
        else ((qualifyingPositions (a.lattice.boundary boundary.toNat).starts length
            tagFilter).length : ℚ) /
          ((a.lattice.boundary boundary.toNat).starts.numEntries : ℚ) := by
  unfold addBadNode2
  simp only [addBadNode2_counters]
  by_cases h : (addBadNode2Positives a node boundary length tagFilter).length = 0
  · simp [h]
  · have h2 : ¬ ((addBadNode2Positives a node boundary length tagFilter).length : Int) = 0 := by
      omega
    rw [if_neg h2, if_neg h]
    simp

/-- C8: the value returned by `addBadNode2` lies in `[0, 1]`: it is 0 when there is no
positive beam entry and otherwise the number of qualifying positions divided by the number
of start positions at the boundary. -/
theorem addBadNode2_result_range (a : Analyzer) (node : ConnectionPtr) (boundary length : Int)
    (tagFilter : List TagConstraint) (features : List ScoredFeature) :
    0 ≤ (addBadNode2 a node boundary length tagFilter features).1 ∧
      (addBadNode2 a node boundary length tagFilter features).1 ≤ 1 ∧
      (addBadNode2 a node boundary length tagFilter features).1
        = if (addBadNode2Positives a node boundary length tagFilter).length = 0 then 0
          else ((qualifyingPositions (a.lattice.boundary boundary.toNat).starts length
              tagFilter).length : ℚ) /
            ((a.lattice.boundary boundary.toNat).starts.numEntries : ℚ) := by
  refine ⟨?_, ?_, addBadNode2_fst a node boundary length tagFilter features⟩
  · rw [addBadNode2_fst]
    split
    · exact le_refl _
    · exact div_nonneg (Nat.cast_nonneg _) (Nat.cast_nonneg _)
  · rw [addBadNode2_fst]
    split
    · exact zero_le_one
    · apply div_le_one_of_le₀
      · exact_mod_cast qualifyingPositions_length_le _ _ _
      · exact Nat.cast_nonneg _

/-! ## Theorems: `doesNodeMatch` and `markGold` -/

/-- C9 (defect in the code): with gold cuts 4 and 6 and no node constraint, the node of
3 codepoints at boundary 2 is accepted by `doesNodeMatch`, although the next gold boundary
after 2 is 4 and `3 ≤ 4 - 2` fails: for `boundary == 2` the iterator already stands on the
next gold boundary and `++iter` skips it, so the length is compared with `6 - 2`. -/
theorem doesNodeMatch_first_chunk_defect :
    ([4, 6] : List Int).Pairwise (fun a b => a < b) ∧
      (demoStarts 2).numCodepoints 0 = 3 ∧
      doesNodeMatch ⟨[4, 6], []⟩ (demoStarts 2) 2 0 = true ∧
      doesNodeMatchSpec ⟨[4, 6], []⟩ (demoStarts 2) 2 0 = false := by
  decide

/-- C10 (defect in the code): with gold cuts 4 and 6 and no node constraint, `markGold`
emits the node (2, 0) of the example lattice, which spans boundaries 2 to 5 and so has the
gold boundary 4 strictly inside. -/
theorem markGold_emits_node_across_gold_boundary :
    demoTrainer.example_.boundaries.Pairwise (fun a b => a < b) ∧
      demoTrainer.example_.nodes = [] ∧
      (⟨2, 0⟩ : LatticeNodePtr) ∈ markGold demoTrainer.example_ demoLattice ∧
      (4 : Int) ∈ demoTrainer.example_.boundaries ∧
      (2 : Int) < 4 ∧ (4 : Int) < 2 + (demoLattice.boundary 2).starts.numCodepoints 0 := by
  decide

/-! ## Theorems: `compute` -/

theorem lossMatchesFeatures_grow (st st' : TrainerState) (h : LossMatchesFeatures st)
    (hf : st'.features ≠ []) (hl : st.loss < st'.loss) : LossMatchesFeatures st' := by
  right
  refine ⟨hf, ?_⟩
  rcases h with ⟨_, h0⟩ | ⟨_, hpos⟩
  · rw [h0] at hl; exact hl
  · exact lt_trans hpos hl

theorem pushFeatures_ne_nil (a : Analyzer) (hT : 0 < a.numNgram) (features : List ScoredFeature)
    (ref : NgramFeatureRef) (score : ℚ) :
    pushFeatures features (calculateNgramFeatures a ref) score ≠ [] := by
  intro h
  have hlen := congrArg List.length h
  simp only [pushFeatures, List.length_append, List.length_map, calculateNgramFeatures_length,
    List.length_nil] at hlen
  omega

theorem boundaryViolation_matches {W : Type} (t : Trainer W) (hT : 0 < t.analyzer_.numNgram)
    (hN : 0 < t.top1_.totalNodes) (node : ConnectionPtr) (boundary prevBoundary : Int)
    (st : TrainerState) (h : LossMatchesFeatures st) :
    LossMatchesFeatures (boundaryViolation t node boundary prevBoundary st) := by
  apply lossMatchesFeatures_grow st _ h
  · exact pushFeatures_ne_nil t.analyzer_ hT _ _ _
  · have hpos : (0 : ℚ) < 1 / (t.top1_.totalNodes : ℚ) :=
      one_div_pos.mpr (by exact_mod_cast hN)
    simp only [boundaryViolation]
    linarith

theorem boundaryLoop_invariant {σ : Type} (l : Lattice)
    (f : ConnectionPtr → Int → Int → σ → σ) (P : σ → Prop)
    (hf : ∀ node b pb st, P st → P (f node b pb st)) (fuel : Nat) :
    ∀ (nodeEnd nodeStart : ConnectionPtr) (bnditer : List Int) (st st' : σ),
      boundaryLoop l f fuel nodeEnd nodeStart bnditer st = some st' → P st → P st' := by
  induction fuel with
  | zero =>
    intro nodeEnd nodeStart bnditer st st' h hp
    simp only [boundaryLoop] at h
    split at h
    · exact absurd h (by simp)
    · cases h; exact hp
  | succ fuel ih =>
    intro nodeEnd nodeStart bnditer st st' h hp
    rw [boundaryLoop_succ] at h
    split at h
    · cases h; exact hp
    · cases bnditer with
      | nil => cases h; exact hp
      | cons b rest =>
        simp only at h
        split at h
        · exact ih _ _ _ _ _ h hp
        · split at h
          · exact ih _ _ _ _ _ h (hf _ _ _ _ hp)
          · split at h
            · exact ih _ _ _ _ _ h hp
            · exact ih _ _ _ _ _ h hp

theorem addBadNode2_snd_of_none (a : Analyzer) (node : ConnectionPtr) (boundary length : Int)
    (tagFilter : List TagConstraint) (features : List ScoredFeature)
    (h : (addBadNode2Positives a node boundary length tagFilter).length = 0) :
    addBadNode2 a node boundary length tagFilter features = (0, features) := by
  unfold addBadNode2
  simp only [addBadNode2_counters]
  rw [if_pos (by omega)]

theorem addBadNode2_snd_of_some (a : Analyzer) (hT : 0 < a.numNgram) (node : ConnectionPtr)
    (boundary length : Int) (tagFilter : List TagConstraint) (features : List ScoredFeature)
    (h : (addBadNode2Positives a node boundary length tagFilter).length ≠ 0) :
    (addBadNode2 a node boundary length tagFilter features).2 ≠ [] ∧
      0 < (addBadNode2 a node boundary length tagFilter features).1 := by
  constructor
  · unfold addBadNode2
    simp only [addBadNode2_counters]
    rw [if_neg (by omega)]
    exact pushFeatures_ne_nil a hT _ _ _
  · rw [addBadNode2_fst, if_neg h]
    have hq : (qualifyingPositions (a.lattice.boundary boundary.toNat).starts length
        tagFilter) ≠ [] := by
      intro hnil
      apply h
      unfold addBadNode2Positives
      rw [hnil]
      rfl
    have hqpos : 0 < (qualifyingPositions (a.lattice.boundary boundary.toNat).starts length
        tagFilter).length := List.length_pos.mpr hq
    have hle := qualifyingPositions_length_le (a.lattice.boundary boundary.toNat).starts length
      tagFilter
    apply div_pos
    · exact_mod_cast hqpos
    · exact_mod_cast (lt_of_lt_of_le hqpos hle)

theorem tagViolation_matches (a : Analyzer) (hT : 0 < a.numNgram) (nodeRatio : ℚ)
    (hr : 0 < nodeRatio) (nodeConstraint : NodeConstraint) (ptr : ConnectionPtr)
    (st : TrainerState) (h : LossMatchesFeatures st) :
    LossMatchesFeatures (tagViolation a nodeRatio nodeConstraint ptr st) := by
  by_cases hc : (addBadNode2Positives a ptr (ptr.boundary : Int) nodeConstraint.length
      nodeConstraint.tags).length = 0
  · have heq : tagViolation a nodeRatio nodeConstraint ptr st = st := by
      unfold tagViolation
      simp only [addBadNode2_snd_of_none a ptr _ _ _ st.features hc, mul_zero, add_zero]
    rw [heq]; exact h
  · obtain ⟨h1, h2⟩ := addBadNode2_snd_of_some a hT ptr (ptr.boundary : Int)
      nodeConstraint.length nodeConstraint.tags st.features hc
    apply lossMatchesFeatures_grow st _ h
    · exact h1
    · simp only [tagViolation]
      have := mul_pos hr h2
      linarith

theorem tagLoop_matches (a : Analyzer) (hT : 0 < a.numNgram) (nodeRatio : ℚ)
    (hr : 0 < nodeRatio) (nodeConstraint : NodeConstraint) (ptr : ConnectionPtr)
    (entryData : Nat → Int) (tags : List TagConstraint) (st : TrainerState)
    (h : LossMatchesFeatures st) :
    LossMatchesFeatures (tagLoop a nodeRatio nodeConstraint ptr entryData tags st) := by
  induction tags with
  | nil => exact h
  | cons tag rest ih =>
    unfold tagLoop
    split
    · exact tagViolation_matches a hT nodeRatio hr nodeConstraint ptr st h
    · exact ih

theorem tagNodeStep_matches (a : Analyzer) (hT : 0 < a.numNgram) (nodeRatio : ℚ)
    (hr : 0 < nodeRatio) (nodeConstraint : NodeConstraint) (st : TrainerState)
    (ptr : ConnectionPtr) (h : LossMatchesFeatures st) :
    LossMatchesFeatures (tagNodeStep a nodeRatio nodeConstraint st ptr) := by
  unfold tagNodeStep
  simp only
  split
  · exact tagViolation_matches a hT nodeRatio hr nodeConstraint ptr st h
  · exact tagLoop_matches a hT nodeRatio hr nodeConstraint ptr _ _ st h

theorem foldl_invariant {α β : Type} (P : α → Prop) (f : α → β → α)
    (hf : ∀ s x, P s → P (f s x)) (l : List β) : ∀ s, P s → P (l.foldl f s) := by
  induction l with
  | nil => intro s hs; exact hs
  | cons x rest ih => intro s hs; exact ih _ (hf s x hs)

theorem handleTagConstraints_matches {W : Type} (t : Trainer W)
    (hT : 0 < t.analyzer_.numNgram) (hN : 0 < t.top1_.totalNodes) (st : TrainerState)
    (h : LossMatchesFeatures st) : LossMatchesFeatures (handleTagConstraints t st) := by
  have hr : (0 : ℚ) < 1 / (t.top1_.totalNodes : ℚ) := one_div_pos.mpr (by exact_mod_cast hN)
  unfold handleTagConstraints
  apply foldl_invariant (fun s : W × TrainerState => LossMatchesFeatures s.2)
  · intro s c hs
    unfold tagConstraintStep
    simp only
    split
    · exact hs
    · exact foldl_invariant LossMatchesFeatures _
        (fun s' p hs' => tagNodeStep_matches t.analyzer_ hT _ hr c s' p hs') _ _ hs
  · exact h

theorem eosCountLoop_bounds (a : Analyzer) (ex : PartialExample) (prev : ConnectionPtr)
    (ptrs : List LatticeNodePtr) :
    ∀ (st st' : Int × Int), eosCountLoop a ex prev ptrs st = some st' →
      st.1 ≤ st'.1 ∧ st'.1 ≤ st.1 + (ptrs.length : Int) := by
  induction ptrs with
  | nil =>
    intro st st' h
    simp only [eosCountLoop, Option.some.injEq] at h
    subst h
    simp
  | cons p rest ih =>
    intro st st' h
    unfold eosCountLoop at h
    simp only at h
    split at h
    · split at h
      · exact absurd h (by simp)
      · have := ih _ _ h
        simp only [List.length_cons] at this ⊢
        push_cast
        omega
    · have := ih _ _ h
      simp only [List.length_cons]
      push_cast
      omega

theorem handleEos_matches {W : Type} (t : Trainer W) (hT : 0 < t.analyzer_.numNgram)
    (hB : 0 < t.analyzer_.lattice.createdBoundaryCount) (st : TrainerState)
    (h : LossMatchesFeatures st) : LossMatchesFeatures (handleEos t st) := by
  unfold handleEos
  simp only
  split
  · exact h
  · split
    · exact h
    · rename_i nb hnb
      split
      · exact h
      · rename_i hne
        have hb := eosCountLoop_bounds _ _ _ _ _ _ hnb
        simp only at hb
        have hpos : 0 < nb.1 := by omega
        have hlen : 0 < (t.analyzer_.lattice.boundary
            (t.analyzer_.lattice.createdBoundaryCount - 1)).ends.nodePtrs.length := by omega
        apply lossMatchesFeatures_grow st _ h
        · exact pushFeatures_ne_nil t.analyzer_ hT _ _ _
        · simp only
          have h1 : (0 : ℚ) < ((nb.1 : Int) : ℚ) := by exact_mod_cast hpos
          have h2 : (0 : ℚ) < ((t.analyzer_.lattice.boundary
            (t.analyzer_.lattice.createdBoundaryCount - 1)).ends.nodePtrs.length : ℚ) := by
            exact_mod_cast hlen
          have h3 : (0 : ℚ) < (t.analyzer_.lattice.createdBoundaryCount : ℚ) := by
            exact_mod_cast hB
          have : (0 : ℚ) < 1 * ((nb.1 : Int) : ℚ) / ((t.analyzer_.lattice.boundary
            (t.analyzer_.lattice.createdBoundaryCount - 1)).ends.nodePtrs.length : ℚ) /
              (t.analyzer_.lattice.createdBoundaryCount : ℚ) := by positivity
          linarith

theorem mergeRuns_ne_nil (l : List ScoredFeature) :
    ∀ (q : ScoredFeature), mergeRuns q l ≠ [] := by
  induction l with
  | nil => intro q; simp [mergeRuns]
  | cons x xs ih =>
    intro q
    unfold mergeRuns
    split
    · exact ih _
    · simp

theorem finalizeFeatures_eq_nil_iff (mask : Nat) (features : List ScoredFeature) :
    finalizeFeatures mask features = [] ↔ features = [] := by
  rw [finalizeFeatures_eq]
  have hp := (sortFeatures_perm
    (features.map (fun f => { f with feature := f.feature &&& mask }))).length_eq
  rw [List.length_map] at hp
  revert hp
  generalize sortFeatures (features.map (fun f => { f with feature := f.feature &&& mask })) = s
  intro hp
  match s, hp with
  | [], hp =>
    simp only [List.length_nil] at hp
    simp [List.length_eq_zero.mp hp.symm]
  | p :: rest, hp =>
    simp only [List.length_cons] at hp
    have h1 : mergeRuns p rest ≠ [] := mergeRuns_ne_nil rest p
    have h2 : features ≠ [] := by
      intro hnil; rw [hnil] at hp; simp at hp
    simp [h1, h2]

/-- C4: after a successful `compute` (with at least one n-gram template, a non-empty top-1
path and a lattice with boundaries) the feature diff is empty if and only if the loss is
zero. -/
theorem compute_featureDiff_empty_iff {W : Type} (t : Trainer W) (fuel : Nat)
    (st st' : TrainerState) (hT : 0 < t.analyzer_.numNgram) (hN : 0 < t.top1_.totalNodes)
    (hB : 0 < t.analyzer_.lattice.createdBoundaryCount)
    (h : compute t fuel st = some st') : st'.features = [] ↔ st'.loss = 0 := by
  unfold compute at h
  simp only at h
  split at h
  · exact absurd h (by simp)
  · rename_i st1 h1
    have hm0 : LossMatchesFeatures ({ features := [], loss := 0 } : TrainerState) :=
      Or.inl ⟨rfl, rfl⟩
    have hm1 : LossMatchesFeatures st1 :=
      boundaryLoop_invariant t.analyzer_.lattice (boundaryViolation t) LossMatchesFeatures
        (fun node b pb s hs => boundaryViolation_matches t hT hN node b pb s hs) fuel _ _ _ _ _
        h1 hm0
    have hm3 := handleEos_matches t hT hB _ (handleTagConstraints_matches t hT hN st1 hm1)
    simp only [Option.some.injEq] at h
    subst h
    simp only
    rw [finalizeFeatures_eq_nil_iff]
    rcases hm3 with ⟨hf, hl⟩ | ⟨hf, hl⟩
    · simp [hf, hl]
    · constructor
      · intro hnil; exact absurd hnil hf
      · intro h0; rw [h0] at hl; exact absurd hl (lt_irrefl _)

theorem demoTrainer_compute_isSome : (compute demoTrainer 4 ⟨[], 0⟩).isSome = true := by
  decide

/-- Instance of `compute_featureDiff_empty_iff` on the example trainer, where `compute`
returns a non-empty feature diff. -/
theorem compute_featureDiff_empty_iff_witness :
    0 < demoTrainer.analyzer_.numNgram ∧ 0 < demoTrainer.top1_.totalNodes ∧
      0 < demoTrainer.analyzer_.lattice.createdBoundaryCount ∧
      ∃ st', compute demoTrainer 4 ⟨[], 0⟩ = some st' ∧ st'.features ≠ [] ∧
        (st'.features = [] ↔ st'.loss = 0) :=
  ⟨by decide, by decide, by decide,
    (compute demoTrainer 4 ⟨[], 0⟩).get demoTrainer_compute_isSome,
    (Option.some_get demoTrainer_compute_isSome).symm, by decide,
    compute_featureDiff_empty_iff demoTrainer 4 ⟨[], 0⟩ _ (by decide) (by decide) (by decide)
      (Option.some_get demoTrainer_compute_isSome).symm⟩

theorem lowerBound_head_ge (L : List Int) (b x : Int) (iter : List Int)
    (h : lowerBound L b = x :: iter) : b ≤ x := by
  induction L with
  | nil => simp [lowerBound] at h
  | cons y rest ih =>
    unfold lowerBound at h ih
    rw [List.dropWhile_cons] at h
    split at h
    · exact ih h
    · rename_i hy
      cases h
      simpa using hy

theorem lowerBound_sorted (L : List Int) (b : Int) (hs : L.Pairwise (fun a b => a < b)) :
    (lowerBound L b).Pairwise (fun a b => a < b) :=
  hs.sublist (List.dropWhile_sublist _)

theorem filter_ge_eq_lowerBound (L : List Int) (b : Int) (hs : L.Pairwise (fun a b => a < b)) :
    L.filter (fun x => decide (b ≤ x)) = lowerBound L b := by
  induction L with
  | nil => rfl
  | cons y rest ih =>
    rw [List.pairwise_cons] at hs
    unfold lowerBound at ih ⊢
    by_cases hy : y < b
    · rw [List.dropWhile_cons_of_pos (by simpa using hy),
        List.filter_cons_of_neg (by simp; omega)]
      exact ih hs.2
    · rw [List.dropWhile_cons_of_neg (by simpa using hy),
        List.filter_cons_of_pos (by simp; omega)]
      congr 1
      rw [List.filter_eq_self]
      intro a ha
      have := hs.1 a ha
      simp; omega

theorem filter_gt_of_lowerBound (L : List Int) (b : Int) (iter : List Int)
    (hs : L.Pairwise (fun a b => a < b)) (h : lowerBound L b = b :: iter) :
    L.filter (fun x => decide (b < x)) = iter := by
  induction L with
  | nil => simp [lowerBound] at h
  | cons y rest ih =>
    rw [List.pairwise_cons] at hs
    unfold lowerBound at ih h
    by_cases hy : y < b
    · rw [List.dropWhile_cons_of_pos (by simpa using hy)] at h
      rw [List.filter_cons_of_neg (by simp; omega)]
      exact ih hs.2 h
    · rw [List.dropWhile_cons_of_neg (by simpa using hy)] at h
      cases h
      rw [List.filter_cons_of_neg (by simp)]
      rw [List.filter_eq_self]
      intro a ha
      have := hs.1 a ha
      simpa using this

theorem lowerBound_head_of_mem (L : List Int) (b x : Int) (iter : List Int)
    (hs : L.Pairwise (fun a b => a < b)) (hb : b ∈ L) (h : lowerBound L b = x :: iter) :
    x = b := by
  have hge := lowerBound_head_ge L b x iter h
  have hmem : b ∈ lowerBound L b := by
    rw [← filter_ge_eq_lowerBound L b hs, List.mem_filter]
    exact ⟨hb, by simp⟩
  rw [h] at hmem
  rcases List.mem_cons.mp hmem with heq | hin
  · exact heq.symm
  · have hsorted := lowerBound_sorted L b hs
    rw [h, List.pairwise_cons] at hsorted
    have := hsorted.1 b hin
    omega

theorem foldl_min_of_le (l : List Int) (x : Int) (h : ∀ y ∈ l, x ≤ y) :
    l.foldl min x = x := by
  induction l with
  | nil => rfl
  | cons y rest ih =>
    rw [List.foldl_cons, min_eq_left (h y (List.mem_cons_self _ _))]
    exact ih (fun z hz => h z (List.mem_cons_of_mem _ hz))

theorem min?_of_sorted_cons (x : Int) (l : List Int)
    (h : (x :: l).Pairwise (fun a b => a < b)) : (x :: l).min? = some x := by
  show some (l.foldl min x) = some x
  rw [foldl_min_of_le l x (fun y hy => le_of_lt ((List.pairwise_cons.mp h).1 y hy))]

/-- Where the defect of C9 does not reach: for strictly increasing gold boundaries and a
boundary that is a gold boundary or is not 2, `doesNodeMatch` is exactly the specified
predicate. -/
theorem doesNodeMatch_eq_spec_of_gold (ex : PartialExample) (lr : LatticeRightBoundary)
    (b : Int) (p : Nat) (hs : ex.boundaries.Pairwise (fun a b => a < b))
    (hb : b ≠ 2 ∨ b ∈ ex.boundaries) :
    doesNodeMatch ex lr b p = doesNodeMatchSpec ex lr b p := by
  unfold doesNodeMatch doesNodeMatchSpec
  rw [filter_ge_eq_lowerBound _ _ hs]
  have hsorted := lowerBound_sorted ex.boundaries b hs
  cases hlb : lowerBound ex.boundaries b with
  | nil => simp
  | cons x iter =>
    rw [hlb] at hsorted
    rw [min?_of_sorted_cons x iter hsorted]
    simp only
    by_cases hx : x = b
    · subst hx
      rw [if_neg (by simp)]
      rw [filter_gt_of_lowerBound _ _ _ hs hlb]
      simp only [beq_self_eq_true, Bool.true_or, Bool.true_and]
      cases ex.nodes.find? (fun n => n.boundary == x) with
      | none =>
        cases iter with
        | nil => rfl
        | cons y tl =>
          simp only
          rw [min?_of_sorted_cons y tl (List.pairwise_cons.mp hsorted).2]
      | some c =>
        simp only
        by_cases hl : lr.numCodepoints p = c.length
        · simp [hl]
        · simp [hl]
    · have hb2 : b ≠ 2 := by
        rcases hb with h | h
        · exact h
        · exact absurd (lowerBound_head_of_mem _ _ _ _ hs h hlb) hx
      rw [if_pos ⟨hx, hb2⟩]
      simp [hx, hb2]

/-- Instance of `doesNodeMatch_eq_spec_of_gold` at the gold boundary 4 of the example. -/
theorem doesNodeMatch_eq_spec_of_gold_witness :
    ([4, 6] : List Int).Pairwise (fun a b => a < b) ∧
      ((4 : Int) ≠ 2 ∨ (4 : Int) ∈ ([4, 6] : List Int)) ∧
      doesNodeMatch ⟨[4, 6], []⟩ (demoStarts 4) 4 0
        = doesNodeMatchSpec ⟨[4, 6], []⟩ (demoStarts 4) 4 0 :=
  ⟨by decide, by decide,
    doesNodeMatch_eq_spec_of_gold ⟨[4, 6], []⟩ (demoStarts 4) 4 0 (by decide) (by decide)⟩

theorem doesNodeMatch_compatible (ex : PartialExample) (lr : LatticeRightBoundary)
    (b : Int) (p : Nat) (hs : ex.boundaries.Pairwise (fun a b => a < b))
    (hc : ∀ c ∈ ex.nodes, ∀ g ∈ ex.boundaries,
      ¬ (c.boundary < g ∧ g < c.boundary + c.length))
    (hb : b ≠ 2 ∨ b ∈ ex.boundaries) (hm : doesNodeMatch ex lr b p = true) :
    ∀ g ∈ ex.boundaries, ¬ (b < g ∧ g < b + lr.numCodepoints p) := by
  intro g hg ⟨hbg, hgl⟩
  unfold doesNodeMatch at hm
  have hsorted := lowerBound_sorted ex.boundaries b hs
  cases hlb : lowerBound ex.boundaries b with
  | nil => rw [hlb] at hm; simp at hm
  | cons x iter =>
    rw [hlb] at hm hsorted
    simp only at hm
    split at hm
    · simp at hm
    · rename_i hnot
      have hx : x = b := by
        by_cases hx : x = b
        · exact hx
        · rcases hb with h | h
          · exact absurd ⟨hx, h⟩ hnot
          · exact lowerBound_head_of_mem _ _ _ _ hs h hlb
      subst hx
      have hfilter := filter_gt_of_lowerBound _ _ _ hs hlb
      have hgmem : g ∈ iter := by
        rw [← hfilter, List.mem_filter]
        exact ⟨hg, by simpa using hbg⟩
      cases hfind : ex.nodes.find? (fun n => n.boundary == x) with
      | none =>
        rw [hfind] at hm
        cases iter with
        | nil => simp at hgmem
        | cons y tl =>
          simp only [decide_eq_true_eq] at hm
          have hyg : y ≤ g := by
            rcases List.mem_cons.mp hgmem with rfl | hin
            · exact le_refl _
            · have h2 := (List.pairwise_cons.mp hsorted).2
              exact le_of_lt ((List.pairwise_cons.mp h2).1 g hin)
          omega
      | some c =>
        rw [hfind] at hm
        simp only at hm
        split at hm
        · simp at hm
        · rename_i hlen
          have hcmem : c ∈ ex.nodes := List.mem_of_find?_eq_some hfind
          have hcb : c.boundary = x := by
            have := List.find?_some hfind
            simpa using this
          have hlen2 : lr.numCodepoints p = c.length := by
            by_contra hne; exact hlen hne
          apply hc c hcmem g hg
          rw [hcb, ← hlen2]
          exact ⟨hbg, hgl⟩

/-- Where the defect of C10 does not reach: for strictly increasing gold boundaries, none
of them strictly inside the span of a `NodeConstraint`, every node that `markGold` emits at
a boundary other than 2 (or at 2 when 2 is a gold boundary) has no gold boundary strictly
inside. -/
theorem markGold_compatible_of_gold_start (ex : PartialExample) (l : Lattice)
    (hs : ex.boundaries.Pairwise (fun a b => a < b))
    (hc : ∀ c ∈ ex.nodes, ∀ g ∈ ex.boundaries,
      ¬ (c.boundary < g ∧ g < c.boundary + c.length))
    (n : LatticeNodePtr) (hn : n ∈ markGold ex l)
    (hb : (n.boundary : Int) ≠ 2 ∨ (n.boundary : Int) ∈ ex.boundaries) :
    ∀ g ∈ ex.boundaries, ¬ ((n.boundary : Int) < g ∧
      g < (n.boundary : Int) + (l.boundary n.boundary).starts.numCodepoints n.position) := by
  unfold markGold at hn
  rw [List.mem_flatMap] at hn
  obtain ⟨bnd, _, hmem⟩ := hn
  rw [List.mem_map] at hmem
  obtain ⟨pos, hpos, rfl⟩ := hmem
  rw [List.mem_filter] at hpos
  exact doesNodeMatch_compatible ex (l.boundary bnd).starts (bnd : Int) pos hs hc hb hpos.2

/-- Instance of `markGold_compatible_of_gold_start` at the node (4, 0) of the example. -/
theorem markGold_compatible_of_gold_start_witness :
    demoTrainer.example_.boundaries.Pairwise (fun a b => a < b) ∧
      (∀ c ∈ demoTrainer.example_.nodes, ∀ g ∈ demoTrainer.example_.boundaries,
        ¬ (c.boundary < g ∧ g < c.boundary + c.length)) ∧
      (⟨4, 0⟩ : LatticeNodePtr) ∈ markGold demoTrainer.example_ demoLattice ∧
      ((((⟨4, 0⟩ : LatticeNodePtr).boundary : Int) ≠ 2) ∨
        (((⟨4, 0⟩ : LatticeNodePtr).boundary : Int) ∈ demoTrainer.example_.boundaries)) ∧
      ∀ g ∈ demoTrainer.example_.boundaries,
        ¬ ((((⟨4, 0⟩ : LatticeNodePtr).boundary : Int) < g) ∧
          g < (((⟨4, 0⟩ : LatticeNodePtr).boundary : Int)) +
            (demoLattice.boundary (⟨4, 0⟩ : LatticeNodePtr).boundary).starts.numCodepoints
              (⟨4, 0⟩ : LatticeNodePtr).position) :=
  ⟨by decide, by decide, by decide, by decide,
    markGold_compatible_of_gold_start demoTrainer.example_ demoLattice (by decide) (by decide)
      ⟨4, 0⟩ (by decide) (by decide)⟩

theorem scoreSum_perm (h : Nat) (l1 l2 : List ScoredFeature) (hp : l1.Perm l2) :
    scoreSum h l1 = scoreSum h l2 := by
  unfold scoreSum
  exact ((hp.filter _).map _).sum_eq

theorem strictly_increasing_ext (l1 l2 : List ScoredFeature)
    (h1 : l1.Pairwise (fun a b => a.feature < b.feature))
    (h2 : l2.Pairwise (fun a b => a.feature < b.feature))
    (hf : ∀ h, l1.filter (fun f => f.feature = h) = l2.filter (fun f => f.feature = h)) :
    l1 = l2 := by
  have hmem : ∀ x, x ∈ l1 ↔ x ∈ l2 := by
    intro x
    have e1 : x ∈ l1 ↔ x ∈ l1.filter (fun f => f.feature = x.feature) := by
      rw [List.mem_filter]; simp
    have e2 : x ∈ l2 ↔ x ∈ l2.filter (fun f => f.feature = x.feature) := by
      rw [List.mem_filter]; simp
    rw [e1, e2, hf]
  have hn1 : l1.Nodup := h1.imp (fun hab heq => by rw [heq] at hab; exact lt_irrefl _ hab)
  have hn2 : l2.Nodup := h2.imp (fun hab heq => by rw [heq] at hab; exact lt_irrefl _ hab)
  have hperm : l1.Perm l2 := (List.perm_ext_iff_of_nodup hn1 hn2).mpr hmem
  haveI : IsAntisymm ScoredFeature (fun a b => a.feature < b.feature) :=
    ⟨fun a b hab hba => absurd hab (not_lt.mpr (le_of_lt hba))⟩
  exact List.eq_of_perm_of_sorted hperm h1 h2

/-- The result of `finalizeFeatures` does not depend on the order that the sort leaves
among entries of equal hash: merging any sorted permutation of the masked list gives the
same list. -/
theorem finalizeFeatures_sort_independent (mask : Nat) (features s : List ScoredFeature)
    (hp : s.Perm (features.map (fun f => { f with feature := f.feature &&& mask })))
    (hs : s.Pairwise (fun a b => a.feature ≤ b.feature)) :
    (match s with
      | [] => []
      | p :: rest => mergeRuns p rest) = finalizeFeatures mask features := by
  have hlen := hp.length_eq
  rw [List.length_map] at hlen
  match s, hp, hs, hlen with
  | [], _, _, hlen =>
    have : features = [] := List.length_eq_zero.mp hlen.symm
    subst this
    rfl
  | p :: rest, hp, hs, _ =>
    apply strictly_increasing_ext _ _ (mergeRuns_strict p rest hs).1
      (finalizeFeatures_pairwise_lt mask features)
    intro h
    rw [mergeRuns_filter p rest hs h, finalizeFeatures_filter_eq]
    have hmem : (h ∈ (p :: rest).map (fun f => f.feature)) ↔
        h ∈ features.map (fun f => f.feature &&& mask) := by
      rw [(hp.map _).mem_iff, List.map_map]
      rfl
    have hsum : scoreSum h (p :: rest)
        = ((features.filter (fun f => f.feature &&& mask = h)).map (fun f => f.score)).sum := by
      rw [scoreSum_perm h _ _ hp]
      unfold scoreSum
      rw [List.filter_map, List.map_map]
      rfl
    rw [hsum]
    by_cases hh : h ∈ features.map (fun f => f.feature &&& mask)
    · rw [if_pos hh, if_pos (hmem.mpr hh)]
    · rw [if_neg hh, if_neg (fun x => hh (hmem.mp x))]

/-! ## Theorems: `markGold` -/

theorem markGoldPosLoop_eq (ex : PartialExample) (bndRight : LatticeRightBoundary) (bnd : Nat)
    (hn : bndRight.numEntries < 2 ^ 16) (fuel : Nat) :
    ∀ (pos : Nat) (calls : List LatticeNodePtr), pos ≤ bndRight.numEntries →
      bndRight.numEntries - pos < fuel →
      markGoldPosLoop ex bndRight bnd fuel pos calls
        = some (calls ++ ((List.range' pos (bndRight.numEntries - pos)).filter
            (fun p => doesNodeMatch ex bndRight (bnd : Int) p)).map
              (fun p => (⟨bnd, p⟩ : LatticeNodePtr))) := by
  induction fuel with
  | zero => intro pos calls _ hf; omega
  | succ fuel ih =>
    intro pos calls hle hf
    unfold markGoldPosLoop
    by_cases hlt : pos < bndRight.numEntries
    · rw [if_pos hlt]
      have hmod : (pos + 1) % 2 ^ 16 = pos + 1 := Nat.mod_eq_of_lt (by omega)
      rw [hmod, ih (pos + 1) _ (by omega) (by omega)]
      have hr : bndRight.numEntries - pos = (bndRight.numEntries - (pos + 1)) + 1 := by omega
      rw [hr, List.range'_succ, List.filter_cons]
      by_cases hm : doesNodeMatch ex bndRight (bnd : Int) pos = true
      · simp [hm]
      · simp [hm]
    · rw [if_neg hlt]
      have h0 : bndRight.numEntries - pos = 0 := by omega
      rw [h0]
      simp

theorem markGoldBndLoop_eq (ex : PartialExample) (l : Lattice)
    (hB : l.createdBoundaryCount < 2 ^ 16)
    (hE : ∀ b, b < l.createdBoundaryCount → (l.boundary b).starts.numEntries < 2 ^ 16)
    (fuel : Nat) :
    ∀ (bnd : Nat) (calls : List LatticeNodePtr), bnd ≤ l.createdBoundaryCount →
      l.createdBoundaryCount - bnd < fuel →
      markGoldBndLoop ex l fuel bnd calls
        = some (calls ++ (List.range' bnd (l.createdBoundaryCount - bnd)).flatMap (fun b =>
            ((List.range (l.boundary b).starts.numEntries).filter
              (fun p => doesNodeMatch ex (l.boundary b).starts (b : Int) p)).map
                (fun p => (⟨b, p⟩ : LatticeNodePtr)))) := by
  induction fuel with
  | zero => intro bnd calls _ hf; omega
  | succ fuel ih =>
    intro bnd calls hle hf
    unfold markGoldBndLoop
    by_cases hlt : bnd < l.createdBoundaryCount
    · rw [if_pos hlt]
      have hpos := markGoldPosLoop_eq ex (l.boundary bnd).starts bnd (hE bnd hlt) (2 ^ 16) 0
        calls (Nat.zero_le _) (by have := hE bnd hlt; omega)
      rw [hpos]
      simp only
      have hmod : (bnd + 1) % 2 ^ 16 = bnd + 1 := Nat.mod_eq_of_lt (by omega)
      rw [hmod, ih (bnd + 1) _ (by omega) (by omega)]
      have hr : l.createdBoundaryCount - bnd = (l.createdBoundaryCount - (bnd + 1)) + 1 := by
        omega
      rw [hr, List.range'_succ, List.flatMap_cons, Nat.sub_zero, ← List.range_eq_range',
        List.append_assoc]
    · rw [if_neg hlt]
      have h0 : l.createdBoundaryCount - bnd = 0 := by omega
      rw [h0]
      simp

/-- With fewer than `2 ^ 16` boundaries and entries per boundary the `u16` counters of
`markGold` do not wrap: the function returns and makes the calls listed by `markGold`. -/
theorem markGoldU16_eq (ex : PartialExample) (l : Lattice)
    (hB : l.createdBoundaryCount < 2 ^ 16)
    (hE : ∀ b, b < l.createdBoundaryCount → (l.boundary b).starts.numEntries < 2 ^ 16) :
    markGoldU16 ex l = some (markGold ex l) := by
  unfold markGoldU16 markGold
  rw [markGoldBndLoop_eq ex l hB hE (2 ^ 16) 0 [] (Nat.zero_le _) (by omega)]
  rw [Nat.sub_zero, ← List.range_eq_range', List.nil_append]

theorem mem_markGold (ex : PartialExample) (l : Lattice) (n : LatticeNodePtr) :
    n ∈ markGold ex l ↔
      (n.boundary < l.createdBoundaryCount ∧
        n.position < (l.boundary n.boundary).starts.numEntries ∧
        doesNodeMatch ex (l.boundary n.boundary).starts (n.boundary : Int) n.position = true) := by
  unfold markGold
  simp only [List.mem_flatMap, List.mem_map, List.mem_filter, List.mem_range]
  constructor
  · rintro ⟨b, hb, p, ⟨hp, hm⟩, rfl⟩
    exact ⟨hb, hp, hm⟩
  · rintro ⟨hb, hp, hm⟩
    exact ⟨n.boundary, hb, n.position, ⟨hp, hm⟩, rfl⟩

theorem markGold_ascending (ex : PartialExample) (l : Lattice) :
    (markGold ex l).Pairwise LatticeNodePtr.lt := by
  unfold markGold
  rw [List.pairwise_flatMap]
  constructor
  · intro b _
    rw [List.pairwise_map]
    apply List.Pairwise.filter
    exact (List.pairwise_lt_range _).imp (fun h => Or.inr ⟨rfl, h⟩)
  · apply (List.pairwise_lt_range _).imp
    intro a b hab x hx y hy
    rcases List.mem_map.mp hx with ⟨p, _, rfl⟩
    rcases List.mem_map.mp hy with ⟨q, _, rfl⟩
    exact Or.inl hab

/-- C11: on a lattice whose boundary count and entry counts fit the `u16` loop counters,
`markGold` returns and invokes the callback exactly once for every pair `(b, p)` with
`b < createdBoundaryCount`, `p < numEntries(b)` and `doesNodeMatch(b, p)`, for no other
pair, in ascending order of `(b, p)`. -/
theorem markGold_callbacks (ex : PartialExample) (l : Lattice)
    (hB : l.createdBoundaryCount < 2 ^ 16)
    (hE : ∀ b, b < l.createdBoundaryCount → (l.boundary b).starts.numEntries < 2 ^ 16) :
    ∃ calls, markGoldU16 ex l = some calls ∧ calls.Pairwise LatticeNodePtr.lt ∧ calls.Nodup ∧
      ∀ n, n ∈ calls ↔
        (n.boundary < l.createdBoundaryCount ∧
          n.position < (l.boundary n.boundary).starts.numEntries ∧
          doesNodeMatch ex (l.boundary n.boundary).starts (n.boundary : Int) n.position
            = true) := by
  refine ⟨markGold ex l, markGoldU16_eq ex l hB hE, markGold_ascending ex l, ?_,
    mem_markGold ex l⟩
  apply (markGold_ascending ex l).imp
  intro a b hab heq
  subst heq
  rcases hab with h | ⟨_, h⟩ <;> exact lt_irrefl _ h

/-- Instance of `markGold_callbacks` on the example lattice. -/
theorem markGold_callbacks_witness :
    demoLattice.createdBoundaryCount < 2 ^ 16 ∧
      (∀ b, b < demoLattice.createdBoundaryCount →
        (demoLattice.boundary b).starts.numEntries < 2 ^ 16) ∧
      ∃ calls, markGoldU16 demoTrainer.example_ demoLattice = some calls ∧
        calls.Pairwise LatticeNodePtr.lt ∧ calls.Nodup ∧
        ∀ n, n ∈ calls ↔
          (n.boundary < demoLattice.createdBoundaryCount ∧
            n.position < (demoLattice.boundary n.boundary).starts.numEntries ∧
            doesNodeMatch demoTrainer.example_ (demoLattice.boundary n.boundary).starts
              (n.boundary : Int) n.position = true) :=
  have hB : demoLattice.createdBoundaryCount < 2 ^ 16 := by decide
  have hE : ∀ b, b < demoLattice.createdBoundaryCount →
      (demoLattice.boundary b).starts.numEntries < 2 ^ 16 := by
    intro b hb
    have h8 : b < 8 := hb
    interval_cases b <;> decide
  ⟨hB, hE, markGold_callbacks demoTrainer.example_ demoLattice hB hE⟩

/-! ## Theorems: `readExample` -/

theorem readLoop_cons_false (env : ReaderEnv) (boundary : Int) (st : ReadState)
    (line : CsvLine) (rest : List CsvLine) :
    readLoop env false boundary st (line :: rest) =
      if line.numFields = 1 then
        if line.field0.isEmpty then
          .ok ⟨{ st with boundaries := st.boundaries.dropLast }, false, rest⟩
        else
          match env.preprocessRawData line.field0 with
          | none => .error .preprocess
          | some codepts =>
            readLoop env false (boundary + (codepts.length : Int))
              { st with surface := st.surface ++ line.field0,
                        boundaries := st.boundaries ++ [boundary + (codepts.length : Int)] } rest
      else if !line.field0.isEmpty then .error .firstFieldNotEmpty
      else
        match env.preprocessRawData (line.more.headD []) with
        | none => .error .preprocess
        | some codepts =>
          match parseTags env (line.more.drop 1) [] with
          | .error e => .error e
          | .ok tags =>
            readLoop env false (boundary + (codepts.length : Int))
              { st with surface := st.surface ++ line.more.headD [],
                        boundaries := st.boundaries ++ [boundary + (codepts.length : Int)],
                        nodes := st.nodes ++ [⟨boundary, (codepts.length : Int), tags⟩] } rest := by
  rw [readLoop]
  simp only [Bool.false_and, Bool.false_eq_true, if_false]

theorem readLoop_true (env : ReaderEnv) (boundary : Int) (st : ReadState)
    (lines : List CsvLine) :
    readLoop env true boundary st lines =
      match lines with
      | [] => .ok ⟨st, true, []⟩
      | line :: rest =>
        if isCommentLine line then
          readLoop env false boundary { st with comment := line.field0.drop 2 } rest
        else readLoop env false boundary st (line :: rest) := by
  cases lines with
  | nil => rw [readLoop]
  | cons line rest =>
    simp only
    by_cases hc : isCommentLine line = true
    · rw [if_pos hc, readLoop]
      simp only [hc, Bool.and_self, if_true]
    · rw [if_neg hc, readLoop, readLoop]
      simp only [hc, Bool.and_false, Bool.false_eq_true, if_false, Bool.false_and]

theorem readLoop_nil (env : ReaderEnv) (firstLine : Bool) (boundary : Int) (st : ReadState) :
    readLoop env firstLine boundary st [] = .ok ⟨st, true, []⟩ := by
  rw [readLoop]

theorem recordChunks_cons_of_not_terminator (line : CsvLine) (rest : List CsvLine)
    (h : line.isTerminator = false) :
    recordChunks (line :: rest) = line :: recordChunks rest := by
  unfold recordChunks
  rw [List.takeWhile_cons_of_pos (by simp [h])]

theorem recordChunks_cons_of_terminator (line : CsvLine) (rest : List CsvLine)
    (h : line.isTerminator = true) : recordChunks (line :: rest) = [] := by
  unfold recordChunks
  rw [List.takeWhile_cons_of_neg (by simp [h])]

/-- What the loop of `readExample` leaves when it returns Ok, from any running position
and state, in terms of the chunk lines before the first terminator. -/
theorem readLoop_ok (env : ReaderEnv) (lines : List CsvLine) :
    ∀ (boundary : Int) (st : ReadState) (out : ReadOutcome),
      readLoop env false boundary st lines = .ok out →
      (∀ line ∈ recordChunks lines, ∃ cps, env.preprocessRawData line.chunkSurface = some cps) ∧
      out.eof = !hasTerminator lines ∧
      out.state.boundaries =
        (if out.eof then
          st.boundaries ++ runningBoundaries boundary
            ((recordChunks lines).map (chunkCodepoints env))
        else
          (st.boundaries ++ runningBoundaries boundary
            ((recordChunks lines).map (chunkCodepoints env))).dropLast) ∧
      out.state.nodes.map (fun n => (n.boundary, n.length)) =
        st.nodes.map (fun n => (n.boundary, n.length)) ++
          expectedNodes env boundary (recordChunks lines) := by
  induction lines with
  | nil =>
    intro boundary st out h
    rw [readLoop_nil] at h
    cases h
    simp [recordChunks, hasTerminator, runningBoundaries, expectedNodes]
  | cons line rest ih =>
    intro boundary st out h
    rw [readLoop_cons_false] at h
    by_cases h1 : line.numFields = 1
    · rw [if_pos h1] at h
      by_cases he : line.field0.isEmpty = true
      · rw [if_pos he] at h
        cases h
        have hterm : line.isTerminator = true := by simp [CsvLine.isTerminator, h1, he]
        simp [recordChunks_cons_of_terminator line rest hterm, hasTerminator, hterm,
          runningBoundaries, expectedNodes]
      · rw [if_neg he] at h
        have hterm : line.isTerminator = false := by simp [CsvLine.isTerminator, he]
        cases hp : env.preprocessRawData line.field0 with
        | none => rw [hp] at h; cases h
        | some cps =>
          rw [hp] at h
          simp only at h
          obtain ⟨ih1, ih2, ih3, ih4⟩ := ih _ _ _ h
          have hsurf : line.chunkSurface = line.field0 := by simp [CsvLine.chunkSurface, h1]
          have hcp : chunkCodepoints env line = cps.length := by
            unfold chunkCodepoints; rw [hsurf, hp]; rfl
          rw [recordChunks_cons_of_not_terminator line rest hterm]
          refine ⟨?_, ?_, ?_, ?_⟩
          · intro l hl
            rcases List.mem_cons.mp hl with rfl | hl
            · exact ⟨cps, by rw [hsurf]; exact hp⟩
            · exact ih1 l hl
          · rw [ih2]; simp [hasTerminator, hterm]
          · rw [ih3]
            simp only [List.map_cons, runningBoundaries, hcp, List.append_assoc,
              List.singleton_append]
          · rw [ih4]
            simp only [expectedNodes, h1, if_true, List.nil_append, hcp]
    · rw [if_neg h1] at h
      have hterm : line.isTerminator = false := by simp [CsvLine.isTerminator, h1]
      by_cases he : (!line.field0.isEmpty) = true
      · rw [if_pos he] at h; cases h
      · rw [if_neg he] at h
        cases hp : env.preprocessRawData (line.more.headD []) with
        | none => rw [hp] at h; cases h
        | some cps =>
          rw [hp] at h
          simp only at h
          cases ht : parseTags env (line.more.drop 1) [] with
          | error e => rw [ht] at h; cases h
          | ok tags =>
            rw [ht] at h
            simp only at h
            obtain ⟨ih1, ih2, ih3, ih4⟩ := ih _ _ _ h
            have hsurf : line.chunkSurface = line.more.headD [] := by
              simp [CsvLine.chunkSurface, h1]
            have hcp : chunkCodepoints env line = cps.length := by
              unfold chunkCodepoints; rw [hsurf, hp]; rfl
            rw [recordChunks_cons_of_not_terminator line rest hterm]
            refine ⟨?_, ?_, ?_, ?_⟩
            · intro l hl
              rcases List.mem_cons.mp hl with rfl | hl
              · exact ⟨cps, by rw [hsurf]; exact hp⟩
              · exact ih1 l hl
            · rw [ih2]; simp [hasTerminator, hterm]
            · rw [ih3]
              simp only [List.map_cons, runningBoundaries, hcp, List.append_assoc,
                List.singleton_append]
            · rw [ih4]
              simp only [expectedNodes, h1, if_false, hcp, List.map_append, List.map_cons,
                List.map_nil, List.append_assoc, List.singleton_append]

theorem readExample_eq (env : ReaderEnv) (comment : List Char) (lines : List CsvLine) :
    ∃ st : ReadState, st.boundaries = [] ∧ st.nodes = [] ∧
      readExample env comment lines = readLoop env false 2 st (afterComment lines) := by
  unfold readExample
  rw [readLoop_true]
  cases lines with
  | nil => exact ⟨⟨comment, [], [], []⟩, rfl, rfl, by simp [afterComment, readLoop_nil]⟩
  | cons line rest =>
    by_cases hc : isCommentLine line = true
    · exact ⟨⟨line.field0.drop 2, [], [], []⟩, rfl, rfl, by simp [afterComment, hc]⟩
    · exact ⟨⟨comment, [], [], []⟩, rfl, rfl, by simp [afterComment, hc]⟩

theorem chunkLines_eq (lines : List CsvLine) :
    chunkLines lines = recordChunks (afterComment lines) := by
  cases lines with
  | nil => rfl
  | cons line rest =>
    unfold chunkLines afterComment
    by_cases hc : isCommentLine line = true
    · show (if isCommentLine line = true then _ else _) = recordChunks (if _ then _ else _)
      rw [if_pos hc, if_pos hc]
    · show (if isCommentLine line = true then _ else _) = recordChunks (if _ then _ else _)
      rw [if_neg hc, if_neg hc]

/-- What a successful `readExample` returns, in terms of the chunk lines of the record. -/
theorem readExample_ok (env : ReaderEnv) (comment : List Char) (lines : List CsvLine)
    (out : ReadOutcome) (h : readExample env comment lines = .ok out) :
    (∀ line ∈ chunkLines lines, ∃ cps, env.preprocessRawData line.chunkSurface = some cps) ∧
      out.eof = !hasTerminator (afterComment lines) ∧
      out.state.boundaries =
        (if out.eof then
          runningBoundaries 2 ((chunkLines lines).map (chunkCodepoints env))
        else
          (runningBoundaries 2 ((chunkLines lines).map (chunkCodepoints env))).dropLast) ∧
      out.state.nodes.map (fun n => (n.boundary, n.length)) =
        expectedNodes env 2 (chunkLines lines) := by
  obtain ⟨st, hb, hn, heq⟩ := readExample_eq env comment lines
  rw [heq] at h
  obtain ⟨h1, h2, h3, h4⟩ := readLoop_ok env (afterComment lines) 2 st out h
  rw [chunkLines_eq]
  rw [hb, List.nil_append] at h3
  rw [hn, List.map_nil, List.nil_append] at h4
  exact ⟨h1, h2, h3, h4⟩

theorem runningBoundaries_length (lens : List Nat) :
    ∀ (b : Int), (runningBoundaries b lens).length = lens.length := by
  induction lens with
  | nil => intro b; rfl
  | cons n rest ih => intro b; simp [runningBoundaries, ih]

theorem runningBoundaries_bounds (lens : List Nat) :
    ∀ (b : Int), ∀ x ∈ runningBoundaries b lens,
      b ≤ x ∧ x ≤ b + ((lens.sum : Nat) : Int) := by
  induction lens with
  | nil => intro b x hx; simp [runningBoundaries] at hx
  | cons n rest ih =>
    intro b x hx
    simp only [runningBoundaries, List.mem_cons] at hx
    simp only [List.sum_cons, Nat.cast_add]
    rcases hx with rfl | hx
    · constructor <;> omega
    · have := ih _ x hx
      constructor <;> omega

theorem runningBoundaries_sorted (lens : List Nat) :
    ∀ (b : Int), (runningBoundaries b lens).Pairwise (fun x y => x ≤ y) := by
  induction lens with
  | nil => intro b; exact List.Pairwise.nil
  | cons n rest ih =>
    intro b
    simp only [runningBoundaries, List.pairwise_cons]
    exact ⟨fun x hx => (runningBoundaries_bounds rest _ x hx).1, ih _⟩

theorem runningBoundaries_gt (lens : List Nat) (hpos : ∀ n ∈ lens, 0 < n) :
    ∀ (b : Int), ∀ x ∈ runningBoundaries b lens, b < x := by
  induction lens with
  | nil => intro b x hx; simp [runningBoundaries] at hx
  | cons n rest ih =>
    intro b x hx
    have hn := hpos n (List.mem_cons_self _ _)
    simp only [runningBoundaries, List.mem_cons] at hx
    rcases hx with rfl | hx
    · omega
    · have := ih (fun m hm => hpos m (List.mem_cons_of_mem _ hm)) _ x hx
      omega

theorem runningBoundaries_strict (lens : List Nat) (hpos : ∀ n ∈ lens, 0 < n) :
    ∀ (b : Int), (runningBoundaries b lens).Pairwise (fun x y => x < y) := by
  induction lens with
  | nil => intro b; exact List.Pairwise.nil
  | cons n rest ih =>
    intro b
    have hrest : ∀ m ∈ rest, 0 < m := fun m hm => hpos m (List.mem_cons_of_mem _ hm)
    simp only [runningBoundaries, List.pairwise_cons]
    exact ⟨fun x hx => runningBoundaries_gt rest hrest _ x hx, ih hrest _⟩

theorem runningBoundaries_getElem? (lens : List Nat) :
    ∀ (b : Int) (i : Nat), i < lens.length →
      (runningBoundaries b lens)[i]? = some (b + (((lens.take (i + 1)).sum : Nat) : Int)) := by
  induction lens with
  | nil => intro b i hi; simp at hi
  | cons n rest ih =>
    intro b i hi
    cases i with
    | zero => simp [runningBoundaries]
    | succ j =>
      simp only [List.length_cons] at hi
      simp only [runningBoundaries, List.getElem?_cons_succ, List.take_succ_cons, List.sum_cons]
      rw [ih _ j (by omega), Nat.cast_add]
      congr 1
      omega

/-- C12 (as amended): the boundaries that a successful `readExample` returns are
non-decreasing and at least 2; they are strictly increasing when every chunk line of the
record has at least one codepoint. -/
theorem readExample_boundaries_order (env : ReaderEnv) (comment : List Char)
    (lines : List CsvLine) (out : ReadOutcome) (h : readExample env comment lines = .ok out) :
    out.state.boundaries.Pairwise (fun x y => x ≤ y) ∧
      (∀ b ∈ out.state.boundaries, 2 ≤ b) ∧
      ((∀ line ∈ chunkLines lines, 0 < chunkCodepoints env line) →
        out.state.boundaries.Pairwise (fun x y => x < y)) := by
  obtain ⟨_, _, hb, _⟩ := readExample_ok env comment lines out h
  have hsub : out.state.boundaries.Sublist
      (runningBoundaries 2 ((chunkLines lines).map (chunkCodepoints env))) := by
    rw [hb]
    split
    · exact List.Sublist.refl _
    · exact List.dropLast_sublist _
  refine ⟨(runningBoundaries_sorted _ 2).sublist hsub, ?_, ?_⟩
  · intro b hmem
    exact (runningBoundaries_bounds _ 2 b (hsub.subset hmem)).1
  · intro hpos
    apply (runningBoundaries_strict _ ?_ 2).sublist hsub
    intro n hn
    rcases List.mem_map.mp hn with ⟨line, hl, rfl⟩
    exact hpos line hl

/-- Instance of `readExample_boundaries_order` on a record of three plain chunks. -/
theorem readExample_boundaries_order_witness :
    readExample demoReaderEnv []
        [⟨['a', 'b'], []⟩, ⟨['c'], []⟩, ⟨['d'], []⟩, ⟨[], []⟩]
      = .ok ⟨⟨[], ['a', 'b', 'c', 'd'], [4, 5], []⟩, false, []⟩ ∧
    (([4, 5] : List Int).Pairwise (fun x y => x ≤ y) ∧
      (∀ b ∈ ([4, 5] : List Int), 2 ≤ b) ∧
      ((∀ line ∈ chunkLines [⟨['a', 'b'], []⟩, ⟨['c'], []⟩, ⟨['d'], []⟩, ⟨[], []⟩],
          0 < chunkCodepoints demoReaderEnv line) →
        ([4, 5] : List Int).Pairwise (fun x y => x < y))) :=
  ⟨rfl, readExample_boundaries_order demoReaderEnv []
    [⟨['a', 'b'], []⟩, ⟨['c'], []⟩, ⟨['d'], []⟩, ⟨[], []⟩]
    ⟨⟨[], ['a', 'b', 'c', 'd'], [4, 5], []⟩, false, []⟩ rfl⟩

/-- C12 (as stated) fails: a constrained line with an empty surface repeats the running
position, and the record `a`, `,,pos:N`, `b`, blank line is read with Ok and the boundaries
3, 3, which are not strictly increasing. -/
theorem readExample_boundaries_order_counterexample :
    readExample demoReaderEnv []
        [⟨['a'], []⟩, ⟨[], [[], ['p', 'o', 's', ':', 'N']]⟩, ⟨['b'], []⟩, ⟨[], []⟩]
      = .ok ⟨⟨[], ['a', 'b'], [3, 3], [⟨3, 0, [⟨1, 0⟩]⟩]⟩, false, []⟩ ∧
    ¬ ([3, 3] : List Int).Pairwise (fun x y => x < y) :=
  ⟨rfl, by decide⟩

theorem expectedNodes_boundary (env : ReaderEnv) (chunks : List CsvLine) :
    ∀ (b : Int), ∀ p ∈ expectedNodes env b chunks,
      p.1 = b ∨ p.1 ∈ (runningBoundaries b (chunks.map (chunkCodepoints env))).dropLast := by
  induction chunks with
  | nil => intro b p hp; simp [expectedNodes] at hp
  | cons line rest ih =>
    intro b p hp
    simp only [expectedNodes, List.mem_append] at hp
    rcases hp with hp | hp
    · left
      split at hp
      · simp at hp
      · simp only [List.mem_singleton] at hp
        rw [hp]
    · right
      cases rest with
      | nil => simp [expectedNodes] at hp
      | cons line2 rest2 =>
        have hne : runningBoundaries (b + (chunkCodepoints env line : Int))
            ((line2 :: rest2).map (chunkCodepoints env)) ≠ [] := by
          simp [runningBoundaries]
        simp only [List.map_cons, runningBoundaries] at hne ⊢
        rw [List.dropLast_cons_of_ne_nil hne]
        rcases ih _ p hp with h | h
        · rw [h]; exact List.mem_cons_self _ _
        · exact List.mem_cons_of_mem _ (by simpa [runningBoundaries] using h)

/-- C13 (as amended): after a successful `readExample` the boundary of every
`NodeConstraint` is 2 (the constraint of the first chunk line) or an element of the
boundaries list. -/
theorem readExample_node_boundaries (env : ReaderEnv) (comment : List Char)
    (lines : List CsvLine) (out : ReadOutcome) (h : readExample env comment lines = .ok out) :
    ∀ c ∈ out.state.nodes, c.boundary = 2 ∨ c.boundary ∈ out.state.boundaries := by
  obtain ⟨_, _, hb, hn⟩ := readExample_ok env comment lines out h
  intro c hc
  have hmem : (c.boundary, c.length) ∈ expectedNodes env 2 (chunkLines lines) := by
    rw [← hn]
    exact List.mem_map_of_mem (fun n : NodeConstraint => (n.boundary, n.length)) hc
  rcases expectedNodes_boundary env _ 2 _ hmem with h2 | hin
  · left; exact h2
  · right
    rw [hb]
    split
    · exact List.mem_of_mem_dropLast hin
    · exact hin

/-- Instance of `readExample_node_boundaries` on a record with a constrained second
chunk. -/
theorem readExample_node_boundaries_witness :
    readExample demoReaderEnv []
        [⟨['a'], []⟩, ⟨[], [['b', 'c'], ['p', 'o', 's', ':', 'N']]⟩, ⟨['d'], []⟩, ⟨[], []⟩]
      = .ok ⟨⟨[], ['a', 'b', 'c', 'd'], [3, 5], [⟨3, 2, [⟨1, 0⟩]⟩]⟩, false, []⟩ ∧
    ∀ c ∈ ([⟨3, 2, [⟨1, 0⟩]⟩] : List NodeConstraint),
      c.boundary = 2 ∨ c.boundary ∈ ([3, 5] : List Int) :=
  ⟨rfl, readExample_node_boundaries demoReaderEnv []
    [⟨['a'], []⟩, ⟨[], [['b', 'c'], ['p', 'o', 's', ':', 'N']]⟩, ⟨['d'], []⟩, ⟨[], []⟩]
    ⟨⟨[], ['a', 'b', 'c', 'd'], [3, 5], [⟨3, 2, [⟨1, 0⟩]⟩]⟩, false, []⟩ rfl⟩

/-- C13 (as stated) fails: the record `,ab,pos:N`, `c`, blank line is read with Ok, its
only `NodeConstraint` has boundary 2 and the boundaries list is `[4]`. -/
theorem readExample_node_boundaries_counterexample :
    readExample demoReaderEnv []
        [⟨[], [['a', 'b'], ['p', 'o', 's', ':', 'N']]⟩, ⟨['c'], []⟩, ⟨[], []⟩]
      = .ok ⟨⟨[], ['a', 'b', 'c'], [4], [⟨2, 2, [⟨1, 0⟩]⟩]⟩, false, []⟩ ∧
    (⟨2, 2, [⟨1, 0⟩]⟩ : NodeConstraint).boundary ∉ ([4] : List Int) :=
  ⟨rfl, by decide⟩

theorem runningBoundaries_dropLast (lens : List Nat) :
    ∀ (b : Int), (runningBoundaries b lens).dropLast = runningBoundaries b lens.dropLast := by
  induction lens with
  | nil => intro b; rfl
  | cons n rest ih =>
    intro b
    cases rest with
    | nil => rfl
    | cons m rest2 =>
      have hne : runningBoundaries (b + (n : Int)) (m :: rest2) ≠ [] := by
        simp [runningBoundaries]
      rw [List.dropLast_cons_of_ne_nil (by simp)]
      simp only [runningBoundaries] at hne ⊢
      rw [List.dropLast_cons_of_ne_nil hne]
      have := ih (b + (n : Int))
      simp only [runningBoundaries] at this
      rw [this]

theorem runningBoundaries_total_mem (lens : List Nat) (hne : lens ≠ []) :
    ∀ (b : Int), b + ((lens.sum : Nat) : Int) ∈ runningBoundaries b lens := by
  induction lens with
  | nil => exact absurd rfl hne
  | cons n rest ih =>
    intro b
    simp only [runningBoundaries, List.sum_cons, Nat.cast_add]
    cases rest with
    | nil => simp
    | cons m rest2 =>
      right
      have := ih (by simp) (b + (n : Int))
      simp only [List.sum_cons, Nat.cast_add] at this ⊢
      rw [← add_assoc]
      exact this

/-- C14 (as amended): for a record with at least one chunk line on which `readExample`
returns Ok, `*eof` is false exactly when a blank line ends the record. In that case the
list holds one boundary for each chunk line except the last, and the position after the
last chunk (EOS) is not in it provided the last chunk line has at least one codepoint. When
the end of the input ends the record, the boundary of the last chunk line is kept. -/
theorem readExample_trailing_boundary (env : ReaderEnv) (comment : List Char)
    (lines : List CsvLine) (out : ReadOutcome) (h : readExample env comment lines = .ok out)
    (hne : chunkLines lines ≠ []) :
    (out.eof = false ↔ hasTerminator (afterComment lines) = true) ∧
      (out.eof = false →
        out.state.boundaries
            = (runningBoundaries 2 ((chunkLines lines).map (chunkCodepoints env))).dropLast ∧
          out.state.boundaries.length + 1 = (chunkLines lines).length ∧
          ((∀ line ∈ (chunkLines lines).getLast?, 0 < chunkCodepoints env line) →
            (2 : Int) + ((((chunkLines lines).map (chunkCodepoints env)).sum : Nat) : Int)
              ∉ out.state.boundaries)) ∧
      (out.eof = true →
        out.state.boundaries
            = runningBoundaries 2 ((chunkLines lines).map (chunkCodepoints env)) ∧
          out.state.boundaries.length = (chunkLines lines).length ∧
          (2 : Int) + ((((chunkLines lines).map (chunkCodepoints env)).sum : Nat) : Int)
            ∈ out.state.boundaries) := by
  obtain ⟨_, he, hb, _⟩ := readExample_ok env comment lines out h
  have hlen : 0 < (chunkLines lines).length := List.length_pos.mpr hne
  refine ⟨?_, ?_, ?_⟩
  · rw [he]; cases hasTerminator (afterComment lines) <;> simp
  · intro hf
    rw [hf] at hb
    simp only [Bool.false_eq_true, if_false] at hb
    refine ⟨hb, ?_, ?_⟩
    · rw [hb, List.length_dropLast, runningBoundaries_length, List.length_map]
      omega
    · intro hlast hmem
      rw [hb, runningBoundaries_dropLast] at hmem
      have hbound := (runningBoundaries_bounds _ 2 _ hmem).2
      obtain ⟨pre, line, hsplit⟩ : ∃ pre line, chunkLines lines = pre ++ [line] :=
        ⟨(chunkLines lines).dropLast, (chunkLines lines).getLast hne,
          (List.dropLast_append_getLast hne).symm⟩
      have hpos : 0 < chunkCodepoints env line := by
        apply hlast
        rw [hsplit]; simp
      rw [hsplit] at hbound
      simp only [List.map_append, List.map_cons, List.map_nil, List.dropLast_concat,
        List.sum_append, List.sum_cons, List.sum_nil, Nat.cast_add] at hbound
      omega
  · intro ht
    rw [ht] at hb
    simp only [if_true] at hb
    refine ⟨hb, ?_, ?_⟩
    · rw [hb, runningBoundaries_length, List.length_map]
    · rw [hb]
      exact runningBoundaries_total_mem _ (by simpa using hne) 2

/-- Instance of `readExample_trailing_boundary` on a record of three plain chunks ended by
a blank line. -/
theorem readExample_trailing_boundary_witness :
    readExample demoReaderEnv []
        [⟨['a', 'b'], []⟩, ⟨['c'], []⟩, ⟨['d'], []⟩, ⟨[], []⟩]
      = .ok ⟨⟨[], ['a', 'b', 'c', 'd'], [4, 5], []⟩, false, []⟩ ∧
    chunkLines [⟨['a', 'b'], []⟩, ⟨['c'], []⟩, ⟨['d'], []⟩, ⟨[], []⟩] ≠ [] ∧
    (((false = false) ↔
        hasTerminator (afterComment [⟨['a', 'b'], []⟩, ⟨['c'], []⟩, ⟨['d'], []⟩, ⟨[], []⟩])
          = true) ∧
      (false = false →
        ([4, 5] : List Int)
            = (runningBoundaries 2
                ((chunkLines [⟨['a', 'b'], []⟩, ⟨['c'], []⟩, ⟨['d'], []⟩, ⟨[], []⟩]).map
                  (chunkCodepoints demoReaderEnv))).dropLast ∧
          ([4, 5] : List Int).length + 1
            = (chunkLines [⟨['a', 'b'], []⟩, ⟨['c'], []⟩, ⟨['d'], []⟩, ⟨[], []⟩]).length ∧
          ((∀ line ∈ (chunkLines
                [⟨['a', 'b'], []⟩, ⟨['c'], []⟩, ⟨['d'], []⟩, ⟨[], []⟩]).getLast?,
              0 < chunkCodepoints demoReaderEnv line) →
            (2 : Int) + ((((chunkLines
                [⟨['a', 'b'], []⟩, ⟨['c'], []⟩, ⟨['d'], []⟩, ⟨[], []⟩]).map
                  (chunkCodepoints demoReaderEnv)).sum : Nat) : Int) ∉ ([4, 5] : List Int))) ∧
      (false = true →
        ([4, 5] : List Int)
            = runningBoundaries 2
                ((chunkLines [⟨['a', 'b'], []⟩, ⟨['c'], []⟩, ⟨['d'], []⟩, ⟨[], []⟩]).map
                  (chunkCodepoints demoReaderEnv)) ∧
          ([4, 5] : List Int).length
            = (chunkLines [⟨['a', 'b'], []⟩, ⟨['c'], []⟩, ⟨['d'], []⟩, ⟨[], []⟩]).length ∧
          (2 : Int) + ((((chunkLines
              [⟨['a', 'b'], []⟩, ⟨['c'], []⟩, ⟨['d'], []⟩, ⟨[], []⟩]).map
                (chunkCodepoints demoReaderEnv)).sum : Nat) : Int) ∈ ([4, 5] : List Int))) :=
  ⟨rfl, by decide,
    readExample_trailing_boundary demoReaderEnv []
      [⟨['a', 'b'], []⟩, ⟨['c'], []⟩, ⟨['d'], []⟩, ⟨[], []⟩]
      ⟨⟨[], ['a', 'b', 'c', 'd'], [4, 5], []⟩, false, []⟩ rfl (by decide)⟩

/-- C14 (as stated) fails: the record `a`, `b` ended by the end of the input is read with
Ok and `*eof = true`, and the returned boundaries 3, 4 hold one boundary for each of the
two chunk lines, the last being the position after the last chunk (EOS). -/
theorem readExample_trailing_boundary_counterexample :
    readExample demoReaderEnv [] [⟨['a'], []⟩, ⟨['b'], []⟩]
      = .ok ⟨⟨[], ['a', 'b'], [3, 4], []⟩, true, []⟩ ∧
    (chunkLines [⟨['a'], []⟩, ⟨['b'], []⟩]).length = 2 ∧
    ([3, 4] : List Int).length = 2 ∧
    (2 : Int) + ((((chunkLines [⟨['a'], []⟩, ⟨['b'], []⟩]).map
      (chunkCodepoints demoReaderEnv)).sum : Nat) : Int) ∈ ([3, 4] : List Int) :=
  ⟨rfl, by decide, by decide, by decide⟩

theorem expectedNodes_append (env : ReaderEnv) (pre rest : List CsvLine) :
    ∀ (b : Int), expectedNodes env b (pre ++ rest)
      = expectedNodes env b pre ++
        expectedNodes env (b + (((pre.map (chunkCodepoints env)).sum : Nat) : Int)) rest := by
  induction pre with
  | nil => intro b; simp [expectedNodes]
  | cons line tl ih =>
    intro b
    show (if line.numFields = 1 then [] else [(b, (chunkCodepoints env line : Int))]) ++
      expectedNodes env (b + (chunkCodepoints env line : Int)) (tl ++ rest) = _
    rw [ih]
    simp only [expectedNodes, List.map_cons, List.sum_cons, Nat.cast_add, List.append_assoc,
      add_assoc]

/-- C15: for a record that `readExample` reads with Ok and each of its chunk lines (plain
or constrained), the codepoints of the surface were obtained, the boundary pushed for the
line is 2 plus the codepoint count of the chunk lines up to and including it (the returned
list holds the pushed boundaries, without the last one when a blank line ends the record),
and the node constraints are those of the constrained lines in order, each with the
codepoint count of its surface as length and 2 plus the codepoint count of the chunk lines
before it as boundary. -/
theorem readExample_positions (env : ReaderEnv) (comment : List Char) (lines : List CsvLine)
    (out : ReadOutcome) (h : readExample env comment lines = .ok out)
    (pre : List CsvLine) (line : CsvLine) (post : List CsvLine)
    (hsplit : chunkLines lines = pre ++ line :: post) :
    (∃ cps, env.preprocessRawData line.chunkSurface = some cps ∧
        chunkCodepoints env line = cps.length) ∧
      (∃ pushed : List Int, pushed.length = (chunkLines lines).length ∧
        out.state.boundaries = (if out.eof then pushed else pushed.dropLast) ∧
        pushed[pre.length]? = some ((2 : Int) +
          ((((pre ++ [line]).map (chunkCodepoints env)).sum : Nat) : Int))) ∧
      out.state.nodes.map (fun n => (n.boundary, n.length)) =
        expectedNodes env 2 pre ++
          (if line.numFields = 1 then []
            else [((2 : Int) + (((pre.map (chunkCodepoints env)).sum : Nat) : Int),
              (chunkCodepoints env line : Int))]) ++
          expectedNodes env ((2 : Int) + (((pre.map (chunkCodepoints env)).sum : Nat) : Int) +
            (chunkCodepoints env line : Int)) post := by
  obtain ⟨hp, _, hb, hn⟩ := readExample_ok env comment lines out h
  refine ⟨?_, ?_, ?_⟩
  · obtain ⟨cps, hcps⟩ := hp line (by rw [hsplit]; simp)
    refine ⟨cps, hcps, ?_⟩
    unfold chunkCodepoints
    rw [hcps]; rfl
  · refine ⟨runningBoundaries 2 ((chunkLines lines).map (chunkCodepoints env)), ?_, hb, ?_⟩
    · rw [runningBoundaries_length, List.length_map]
    · rw [runningBoundaries_getElem? _ 2 pre.length
        (by rw [List.length_map, hsplit, List.length_append, List.length_cons]; omega)]
      rw [hsplit]
      have htake : ((pre ++ line :: post).map (chunkCodepoints env)).take (pre.length + 1)
          = (pre ++ [line]).map (chunkCodepoints env) := by
        rw [← List.map_take]
        congr 1
        have : pre ++ line :: post = (pre ++ [line]) ++ post := by simp
        rw [this, List.take_left' (by simp)]
      rw [htake]
  · rw [hn, hsplit, expectedNodes_append]
    simp only [expectedNodes, List.append_assoc]

/-- Instance of `readExample_positions` at the constrained second chunk line of a
record. -/
theorem readExample_positions_witness :
    readExample demoReaderEnv []
        [⟨['a'], []⟩, ⟨[], [['b', 'c'], ['p', 'o', 's', ':', 'N']]⟩, ⟨['d'], []⟩, ⟨[], []⟩]
      = .ok ⟨⟨[], ['a', 'b', 'c', 'd'], [3, 5], [⟨3, 2, [⟨1, 0⟩]⟩]⟩, false, []⟩ ∧
    chunkLines
        [⟨['a'], []⟩, ⟨[], [['b', 'c'], ['p', 'o', 's', ':', 'N']]⟩, ⟨['d'], []⟩, ⟨[], []⟩]
      = ([⟨['a'], []⟩] : List CsvLine) ++
        (⟨[], [['b', 'c'], ['p', 'o', 's', ':', 'N']]⟩ : CsvLine) :: [⟨['d'], []⟩] ∧
    ((∃ cps, demoReaderEnv.preprocessRawData
          (⟨[], [['b', 'c'], ['p', 'o', 's', ':', 'N']]⟩ : CsvLine).chunkSurface = some cps ∧
        chunkCodepoints demoReaderEnv ⟨[], [['b', 'c'], ['p', 'o', 's', ':', 'N']]⟩
          = cps.length) ∧
      (∃ pushed : List Int, pushed.length = (chunkLines
          [⟨['a'], []⟩, ⟨[], [['b', 'c'], ['p', 'o', 's', ':', 'N']]⟩, ⟨['d'], []⟩,
            ⟨[], []⟩]).length ∧
        ([3, 5] : List Int) = (if false then pushed else pushed.dropLast) ∧
        pushed[([⟨['a'], []⟩] : List CsvLine).length]? = some ((2 : Int) +
          ((((([⟨['a'], []⟩] : List CsvLine) ++
              [(⟨[], [['b', 'c'], ['p', 'o', 's', ':', 'N']]⟩ : CsvLine)]).map
            (chunkCodepoints demoReaderEnv)).sum : Nat) : Int))) ∧
      ([⟨3, 2, [⟨1, 0⟩]⟩] : List NodeConstraint).map (fun n => (n.boundary, n.length)) =
        expectedNodes demoReaderEnv 2 [⟨['a'], []⟩] ++
          (if (⟨[], [['b', 'c'], ['p', 'o', 's', ':', 'N']]⟩ : CsvLine).numFields = 1 then []
            else [((2 : Int) + (((([⟨['a'], []⟩] : List CsvLine).map
                (chunkCodepoints demoReaderEnv)).sum : Nat) : Int),
              (chunkCodepoints demoReaderEnv
                ⟨[], [['b', 'c'], ['p', 'o', 's', ':', 'N']]⟩ : Int))]) ++
          expectedNodes demoReaderEnv ((2 : Int) + (((([⟨['a'], []⟩] : List CsvLine).map
              (chunkCodepoints demoReaderEnv)).sum : Nat) : Int) +
            (chunkCodepoints demoReaderEnv
              ⟨[], [['b', 'c'], ['p', 'o', 's', ':', 'N']]⟩ : Int)) [⟨['d'], []⟩]) :=
  ⟨rfl, rfl,
    readExample_positions demoReaderEnv []
      [⟨['a'], []⟩, ⟨[], [['b', 'c'], ['p', 'o', 's', ':', 'N']]⟩, ⟨['d'], []⟩, ⟨[], []⟩]
      ⟨⟨[], ['a', 'b', 'c', 'd'], [3, 5], [⟨3, 2, [⟨1, 0⟩]⟩]⟩, false, []⟩ rfl
      [⟨['a'], []⟩] ⟨[], [['b', 'c'], ['p', 'o', 's', ':', 'N']]⟩ [⟨['d'], []⟩] rfl⟩

theorem parseTags_result (env : ReaderEnv)
    (hpre : ∀ s, (env.preprocessRawData s).isSome = true) (flds : List (List Char)) :
    ∀ (tags : List TagConstraint),
      (flds.any (malformedTag env) = true ∧
          ∃ e, parseTags env flds tags = .error e ∧ e.isInvalidParameter = true) ∨
        (flds.any (malformedTag env) = false ∧ ∃ t, parseTags env flds tags = .ok t) := by
  induction flds with
  | nil => intro tags; right; exact ⟨rfl, tags, rfl⟩
  | cons fld rest ih =>
    intro tags
    unfold parseTags
    by_cases hc : ':' ∉ fld
    · left
      rw [if_pos hc]
      exact ⟨by simp [malformedTag, hc], _, rfl, rfl⟩
    · rw [if_neg hc]
      simp only
      obtain ⟨cps, hcps⟩ := Option.isSome_iff_exists.mp
        (hpre ((fld.dropWhile (fun c => c != ':')).drop 1))
      rw [hcps]
      simp only
      cases hf : env.fields (fld.takeWhile (fun c => c != ':')) with
      | none =>
        left
        exact ⟨by simp [malformedTag, hf], _, rfl, rfl⟩
      | some info =>
        have hok : malformedTag env fld = false := by
          simp only [malformedTag, hf, Option.isNone_some, Bool.or_false,
            decide_eq_false_iff_not]
          exact hc
        simp only [List.any_cons, hok, Bool.false_or]
        cases info.str2int ((fld.dropWhile (fun c => c != ':')).drop 1) with
        | none => exact ih _
        | some v => exact ih _

theorem readLoop_result (env : ReaderEnv)
    (hpre : ∀ s, (env.preprocessRawData s).isSome = true) (lines : List CsvLine) :
    ∀ (boundary : Int) (st : ReadState),
      ((∃ line ∈ recordChunks lines, malformedLine env line = true) ∧
          ∃ e, readLoop env false boundary st lines = .error e ∧
            e.isInvalidParameter = true) ∨
        ((¬ ∃ line ∈ recordChunks lines, malformedLine env line = true) ∧
          ∃ out, readLoop env false boundary st lines = .ok out) := by
  induction lines with
  | nil =>
    intro boundary st
    right
    exact ⟨by simp [recordChunks], _, readLoop_nil env false boundary st⟩
  | cons line rest ih =>
    intro boundary st
    rw [readLoop_cons_false]
    by_cases h1 : line.numFields = 1
    · rw [if_pos h1]
      have hnm : malformedLine env line = false := by simp [malformedLine, h1]
      by_cases he : line.field0.isEmpty = true
      · rw [if_pos he]
        right
        have hterm : line.isTerminator = true := by simp [CsvLine.isTerminator, h1, he]
        rw [recordChunks_cons_of_terminator line rest hterm]
        exact ⟨by simp, _, rfl⟩
      · rw [if_neg he]
        have hterm : line.isTerminator = false := by simp [CsvLine.isTerminator, he]
        obtain ⟨cps, hcps⟩ := Option.isSome_iff_exists.mp (hpre line.field0)
        rw [hcps, recordChunks_cons_of_not_terminator line rest hterm]
        simp only [List.mem_cons, exists_eq_or_imp, hnm, Bool.false_eq_true, false_or]
        exact ih _ _
    · rw [if_neg h1]
      have hterm : line.isTerminator = false := by simp [CsvLine.isTerminator, h1]
      have h2 : 2 ≤ line.numFields := by
        unfold CsvLine.numFields at h1 ⊢; omega
      rw [recordChunks_cons_of_not_terminator line rest hterm]
      by_cases he : (!line.field0.isEmpty) = true
      · rw [if_pos he]
        left
        refine ⟨⟨line, List.mem_cons_self _ _, ?_⟩, _, rfl, rfl⟩
        simp [malformedLine, h2, he]
      · rw [if_neg he]
        obtain ⟨cps, hcps⟩ := Option.isSome_iff_exists.mp (hpre (line.more.headD []))
        rw [hcps]
        simp only
        rcases parseTags_result env hpre (line.more.drop 1) [] with
          ⟨hany, e, hperr, hinv⟩ | ⟨hany, t, hpok⟩
        · left
          rw [hperr]
          refine ⟨⟨line, List.mem_cons_self _ _, ?_⟩, e, rfl, hinv⟩
          unfold malformedLine
          rw [hany]
          simp [h2]
        · rw [hpok]
          have hnm : malformedLine env line = false := by
            simp only [Bool.not_eq_true, Bool.not_eq_false'] at he
            unfold malformedLine
            rw [hany, he]
            simp
          simp only [List.mem_cons, exists_eq_or_imp, hnm, Bool.false_eq_true, false_or]
          exact ih _ _

/-- C16: when codepoint preprocessing succeeds, `readExample` returns an InvalidParameter
error if and only if, before the terminating blank line of the record, some line with two
or more fields has a non-empty first field, or a tag field without `':'`, or a tag field
whose name is not a field of the dictionary spec; otherwise it returns Ok. -/
theorem readExample_invalid_parameter_iff (env : ReaderEnv) (comment : List Char)
    (lines : List CsvLine) (hpre : ∀ s, (env.preprocessRawData s).isSome = true) :
    ((∃ line ∈ recordChunks lines, malformedLine env line = true) ∧
        ∃ e, readExample env comment lines = .error e ∧ e.isInvalidParameter = true) ∨
      ((¬ ∃ line ∈ recordChunks lines, malformedLine env line = true) ∧
        ∃ out, readExample env comment lines = .ok out) := by
  unfold readExample
  rw [readLoop_true]
  cases lines with
  | nil => right; exact ⟨by simp [recordChunks], _, rfl⟩
  | cons line rest =>
    simp only
    by_cases hc : isCommentLine line = true
    · rw [if_pos hc]
      have hparts : line.numFields = 1 ∧ line.field0.isEmpty = false := by
        unfold isCommentLine at hc
        simp only [Bool.and_eq_true, beq_iff_eq, decide_eq_true_eq] at hc
        refine ⟨hc.1.1.1, ?_⟩
        cases hf : line.field0 with
        | nil => rw [hf] at hc; simp at hc
        | cons c cs => rfl
      have hterm : line.isTerminator = false := by
        simp [CsvLine.isTerminator, hparts.2]
      have hnm : malformedLine env line = false := by simp [malformedLine, hparts.1]
      rw [recordChunks_cons_of_not_terminator line rest hterm]
      simp only [List.mem_cons, exists_eq_or_imp, hnm, Bool.false_eq_true, false_or]
      exact readLoop_result env hpre rest _ _
    · rw [if_neg hc]
      exact readLoop_result env hpre (line :: rest) _ _

/-- Instance of `readExample_invalid_parameter_iff` on a record whose second line has a
tag field without a field name. -/
theorem readExample_invalid_parameter_iff_witness :
    (∀ s, (demoReaderEnv.preprocessRawData s).isSome = true) ∧
    (((∃ line ∈ recordChunks
          [⟨['a'], []⟩, ⟨[], [['b'], ['p', 'o', 's']]⟩, ⟨[], []⟩],
          malformedLine demoReaderEnv line = true) ∧
        ∃ e, readExample demoReaderEnv []
            [⟨['a'], []⟩, ⟨[], [['b'], ['p', 'o', 's']]⟩, ⟨[], []⟩] = .error e ∧
          e.isInvalidParameter = true) ∨
      ((¬ ∃ line ∈ recordChunks
          [⟨['a'], []⟩, ⟨[], [['b'], ['p', 'o', 's']]⟩, ⟨[], []⟩],
          malformedLine demoReaderEnv line = true) ∧
        ∃ out, readExample demoReaderEnv []
            [⟨['a'], []⟩, ⟨[], [['b'], ['p', 'o', 's']]⟩, ⟨[], []⟩] = .ok out)) :=
  ⟨fun _ => rfl,
    readExample_invalid_parameter_iff demoReaderEnv []
      [⟨['a'], []⟩, ⟨[], [['b'], ['p', 'o', 's']]⟩, ⟨[], []⟩] (fun _ => rfl)⟩

/-! ## Theorems: `handleEos` -/

theorem foldl_flag_eq {α : Type} (P : α → Prop) [DecidablePred P] (l : List α) :
    ∀ (init : Bool), l.foldl (fun inv b => if P b then true else inv) init
      = (init || l.any (fun b => decide (P b))) := by
  induction l with
  | nil => intro init; simp
  | cons x rest ih =>
    intro init
    rw [List.foldl_cons, ih]
    by_cases hx : P x
    · simp [hx]
    · simp [hx]

theorem eosTagLoop_eq (prevFields : Nat → Int) (tags : List TagConstraint) :
    ∀ (inv : Bool), eosTagLoop prevFields tags inv
      = (inv || tags.any (fun tag => decide (prevFields tag.field ≠ tag.value))) := by
  induction tags with
  | nil => intro inv; simp [eosTagLoop]
  | cons tag rest ih =>
    intro inv
    unfold eosTagLoop
    by_cases hx : prevFields tag.field ≠ tag.value
    · rw [if_pos hx]; simp [hx]
    · rw [if_neg hx, ih]
      have hx2 : prevFields tag.field = tag.value := not_not.mp hx
      simp [hx2]

theorem eosNodeLoop_eq (prevBoundary : Nat) (prevLen : Int) (prevFields : Nat → Int)
    (nodes : List NodeConstraint) :
    ∀ (inv : Bool), eosNodeLoop prevBoundary prevLen prevFields nodes inv
      = (inv || nodes.any (fun n => decide (n.boundary = (prevBoundary : Int)) &&
          (decide (n.length ≠ prevLen) ||
            n.tags.any (fun tag => decide (prevFields tag.field ≠ tag.value))))) := by
  induction nodes with
  | nil => intro inv; simp [eosNodeLoop]
  | cons n rest ih =>
    intro inv
    unfold eosNodeLoop
    by_cases hb : n.boundary = (prevBoundary : Int)
    · rw [if_pos hb]
      by_cases hl : n.length ≠ prevLen
      · rw [if_pos hl]; simp [hb, hl]
      · rw [if_neg hl, ih, eosTagLoop_eq]
        have hl2 : n.length = prevLen := not_not.mp hl
        simp [hb, hl2, Bool.or_assoc]
    · rw [if_neg hb, ih]; simp [hb]

theorem eosBeamCount_eq (a : Analyzer) (beam : List ConnectionBeamElement) :
    ∀ (beams : Int), eosBeamCount a beam beams = beams + ((liveBeam a beam).length : Int) := by
  induction beam with
  | nil => intro beams; simp [eosBeamCount, liveBeam]
  | cons e rest ih =>
    intro beams
    unfold eosBeamCount liveBeam
    by_cases hf : a.isFake e = true
    · rw [if_pos hf, List.takeWhile_cons_of_neg (by simp [hf])]; simp
    · rw [if_neg hf, List.takeWhile_cons_of_pos (by simp [hf]), ih]
      simp only [liveBeam, List.length_cons]
      push_cast
      omega

theorem eosCountLoop_eq (a : Analyzer) (ex : PartialExample) (prev : ConnectionPtr)
    (ptrs : List LatticeNodePtr)
    (hprev : ∀ p ∈ ptrs, doesNodeMatch ex (a.lattice.boundary p.boundary).starts
      (p.boundary : Int) p.position = true → prev.latticeNodePtr ≠ p) :
    ∀ (st : Int × Int), eosCountLoop a ex prev ptrs st
      = some (st.1 + (((ptrs.filter (fun p => doesNodeMatch ex
            (a.lattice.boundary p.boundary).starts (p.boundary : Int) p.position)).length : Nat)
              : Int),
          st.2 + ((((ptrs.filter (fun p => doesNodeMatch ex
            (a.lattice.boundary p.boundary).starts (p.boundary : Int) p.position)).flatMap
              (fun p => liveBeam a
                ((a.lattice.boundary p.boundary).starts.beamData p.position))).length : Nat)
                  : Int)) := by
  induction ptrs with
  | nil => intro st; simp [eosCountLoop]
  | cons p rest ih =>
    intro st
    have hrest := ih (fun q hq => hprev q (List.mem_cons_of_mem _ hq))
    unfold eosCountLoop
    simp only
    by_cases hm : doesNodeMatch ex (a.lattice.boundary p.boundary).starts
        (p.boundary : Int) p.position = true
    · rw [if_pos hm, if_neg (hprev p (List.mem_cons_self _ _) hm), hrest, eosBeamCount_eq]
      simp only [List.filter_cons, hm, if_true, List.length_cons, List.flatMap_cons,
        List.length_append]
      push_cast
      congr 1
      refine Prod.ext ?_ ?_ <;> simp only <;> omega
    · rw [if_neg hm, hrest]
      simp only [List.filter_cons, hm, Bool.false_eq_true, if_false]

theorem eosBeamFeatures_eq (a : Analyzer) (prev : ConnectionPtr) (eosPtr : LatticeNodePtr)
    (score : ℚ) (beam : List ConnectionBeamElement) :
    ∀ (features : List ScoredFeature),
      eosBeamFeatures a prev eosPtr score beam features
        = features ++ (liveBeam a beam).flatMap (fun e =>
            (calculateNgramFeatures a
              ⟨(a.lattice.deref e.ptr.previous).latticeNodePtr, prev.latticeNodePtr, eosPtr⟩).map
              (fun f => (⟨f, score⟩ : ScoredFeature))) := by
  induction beam with
  | nil => intro features; simp [eosBeamFeatures, liveBeam]
  | cons e rest ih =>
    intro features
    unfold eosBeamFeatures liveBeam
    by_cases hf : a.isFake e = true
    · rw [if_pos hf, List.takeWhile_cons_of_neg (by simp [hf])]; simp
    · rw [if_neg hf, List.takeWhile_cons_of_pos (by simp [hf])]
      simp only
      rw [ih]
      simp only [liveBeam, pushFeatures, List.flatMap_cons, List.append_assoc]

theorem eosPositive_fold (a : Analyzer) (ex : PartialExample) (prev : ConnectionPtr)
    (eosPtr : LatticeNodePtr) (score : ℚ) (ptrs : List LatticeNodePtr) :
    ∀ (features : List ScoredFeature),
      ptrs.foldl (eosPositiveStep a ex prev eosPtr score) features
        = features ++ ((ptrs.filter (fun p => doesNodeMatch ex
            (a.lattice.boundary p.boundary).starts (p.boundary : Int) p.position)).flatMap
              (fun p => liveBeam a
                ((a.lattice.boundary p.boundary).starts.beamData p.position))).flatMap
            (fun e => (calculateNgramFeatures a
              ⟨(a.lattice.deref e.ptr.previous).latticeNodePtr, prev.latticeNodePtr, eosPtr⟩).map
              (fun f => (⟨f, score⟩ : ScoredFeature))) := by
  induction ptrs with
  | nil => intro features; simp
  | cons p rest ih =>
    intro features
    rw [List.foldl_cons, ih]
    unfold eosPositiveStep
    simp only
    by_cases hm : doesNodeMatch ex (a.lattice.boundary p.boundary).starts
        (p.boundary : Int) p.position = true
    · rw [if_pos hm, eosBeamFeatures_eq]
      simp only [List.filter_cons, hm, if_true, List.flatMap_cons, List.flatMap_append,
        List.append_assoc]
    · rw [if_neg hm]
      simp only [List.filter_cons, hm, Bool.false_eq_true, if_false]

/-- What `handleEos` does when the last content node of the top-1 path is invalid, is not
accepted by `doesNodeMatch`, and some predecessor of EOS is accepted. -/
theorem handleEos_eq {W : Type} (t : Trainer W) (st : TrainerState)
    (hinv : lastNodeInvalid t.example_ t.analyzer_.lattice = true)
    (hprev : doesNodeMatch t.example_
      (t.analyzer_.lattice.boundary (top1Prev t.analyzer_.lattice).boundary).starts
      ((top1Prev t.analyzer_.lattice).boundary : Int) (top1Prev t.analyzer_.lattice).right
        = false)
    (hnodes : eosAccepted t.example_ t.analyzer_.lattice ≠ []) :
    handleEos t st =
      { features := st.features ++
          (eosBeamEntries t.analyzer_ t.example_).flatMap (fun e =>
            (calculateNgramFeatures t.analyzer_ (eosPositiveRef t.analyzer_.lattice e)).map
              (fun f => (⟨f, 1 / (((eosBeamEntries t.analyzer_ t.example_).length : Nat) : ℚ)⟩
                : ScoredFeature))) ++
          (calculateNgramFeatures t.analyzer_
            (trigramOf t.analyzer_.lattice (top1Element t.analyzer_.lattice).ptr)).map
              (fun f => (⟨f, -1⟩ : ScoredFeature)),
        loss := st.loss +
          (((eosAccepted t.example_ t.analyzer_.lattice).length : Nat) : ℚ) /
            (((eosBoundary t.analyzer_.lattice).ends.nodePtrs.length : Nat) : ℚ) /
            ((t.analyzer_.lattice.createdBoundaryCount : Nat) : ℚ) } := by
  have hflag : eosNodeLoop (top1Prev t.analyzer_.lattice).boundary
      ((t.analyzer_.lattice.boundary (top1Prev t.analyzer_.lattice).boundary).starts.numCodepoints
        (top1Prev t.analyzer_.lattice).right)
      ((t.analyzer_.lattice.boundary (top1Prev t.analyzer_.lattice).boundary).starts.entryData
        (top1Prev t.analyzer_.lattice).right) t.example_.nodes
      (t.example_.boundaries.foldl
        (fun invalidNode b =>
          if ((top1Prev t.analyzer_.lattice).boundary : Int) < b ∧
            b < ((top1Prev t.analyzer_.lattice).boundary : Int) +
              (t.analyzer_.lattice.boundary
                (top1Prev t.analyzer_.lattice).boundary).starts.numCodepoints
                  (top1Prev t.analyzer_.lattice).right then true else invalidNode) false)
      = true := by
    rw [eosNodeLoop_eq, foldl_flag_eq]
    simpa [lastNodeInvalid] using hinv
  have hno : ∀ p ∈ (eosBoundary t.analyzer_.lattice).ends.nodePtrs,
      doesNodeMatch t.example_ (t.analyzer_.lattice.boundary p.boundary).starts
        (p.boundary : Int) p.position = true →
      (top1Prev t.analyzer_.lattice).latticeNodePtr ≠ p := by
    intro p _ hm heq
    rw [← heq] at hm
    simp only [ConnectionPtr.latticeNodePtr] at hm
    rw [hprev] at hm
    exact absurd hm (by simp)
  have hcount := eosCountLoop_eq t.analyzer_ t.example_ (top1Prev t.analyzer_.lattice)
    (eosBoundary t.analyzer_.lattice).ends.nodePtrs hno (0, 0)
  have hlen : (eosAccepted t.example_ t.analyzer_.lattice).length ≠ 0 := by
    intro h0; exact hnodes (List.length_eq_zero.mp h0)
  unfold handleEos
  simp only
  unfold top1Prev at hflag hcount
  unfold eosBoundary at hcount
  rw [hflag]
  simp only [Bool.not_true, Bool.false_eq_true, if_false]
  rw [hcount]
  simp only [zero_add]
  have hne : ¬ ((((eosBoundary t.analyzer_.lattice).ends.nodePtrs.filter
      (fun p => doesNodeMatch t.example_ (t.analyzer_.lattice.boundary p.boundary).starts
        (p.boundary : Int) p.position)).length : Nat) : Int) = 0 := by
    unfold eosAccepted at hlen
    omega
  unfold eosBoundary at hne
  rw [if_neg hne, eosPositive_fold]
  simp only [pushFeatures, eosBeamEntries, eosAccepted, eosBoundary, eosPositiveRef, top1Prev,
    eosNodePtr, trigramOf, Int.cast_natCast, one_mul]

/-- C18: when the last content node of the top-1 path is invalid, is not itself accepted by
`doesNodeMatch`, and `nodes ≥ 1` predecessors of EOS are accepted, `handleEos` adds
`nodes / |eos.ends.nodePtrs()| / createdBoundaryCount()` to the loss, which is strictly
positive, and the features it appends end with one feature of score `-1` for every n-gram
template of the top-1 trigram `(top1_prev2, top1_prev, top1)`. -/
theorem handleEos_invalid_last_node {W : Type} (t : Trainer W) (st : TrainerState)
    (hinv : lastNodeInvalid t.example_ t.analyzer_.lattice = true)
    (hprev : doesNodeMatch t.example_
      (t.analyzer_.lattice.boundary (top1Prev t.analyzer_.lattice).boundary).starts
      ((top1Prev t.analyzer_.lattice).boundary : Int) (top1Prev t.analyzer_.lattice).right
        = false)
    (hnodes : 1 ≤ (eosAccepted t.example_ t.analyzer_.lattice).length)
    (hB : 0 < t.analyzer_.lattice.createdBoundaryCount) :
    (handleEos t st).loss = st.loss +
        (((eosAccepted t.example_ t.analyzer_.lattice).length : Nat) : ℚ) /
          (((eosBoundary t.analyzer_.lattice).ends.nodePtrs.length : Nat) : ℚ) /
          ((t.analyzer_.lattice.createdBoundaryCount : Nat) : ℚ) ∧
      0 < (((eosAccepted t.example_ t.analyzer_.lattice).length : Nat) : ℚ) /
          (((eosBoundary t.analyzer_.lattice).ends.nodePtrs.length : Nat) : ℚ) /
          ((t.analyzer_.lattice.createdBoundaryCount : Nat) : ℚ) ∧
      (∃ positives, (handleEos t st).features = st.features ++ positives ++
        (calculateNgramFeatures t.analyzer_
          (trigramOf t.analyzer_.lattice (top1Element t.analyzer_.lattice).ptr)).map
            (fun f => (⟨f, -1⟩ : ScoredFeature))) ∧
      (calculateNgramFeatures t.analyzer_
        (trigramOf t.analyzer_.lattice (top1Element t.analyzer_.lattice).ptr)).length
          = t.analyzer_.numNgram := by
  have hne : eosAccepted t.example_ t.analyzer_.lattice ≠ [] := by
    intro h0; rw [h0] at hnodes; simp at hnodes
  rw [handleEos_eq t st hinv hprev hne]
  refine ⟨rfl, ?_, ⟨_, rfl⟩, calculateNgramFeatures_length _ _⟩
  have hle : (eosAccepted t.example_ t.analyzer_.lattice).length
      ≤ (eosBoundary t.analyzer_.lattice).ends.nodePtrs.length := by
    unfold eosAccepted
    exact List.length_filter_le _ _
  have h1 : (0 : ℚ) < (((eosAccepted t.example_ t.analyzer_.lattice).length : Nat) : ℚ) := by
    exact_mod_cast hnodes
  have h2 : (0 : ℚ) < (((eosBoundary t.analyzer_.lattice).ends.nodePtrs.length : Nat) : ℚ) := by
    exact_mod_cast (lt_of_lt_of_le hnodes hle)
  have h3 : (0 : ℚ) < ((t.analyzer_.lattice.createdBoundaryCount : Nat) : ℚ) := by
    exact_mod_cast hB
  positivity

/-- Instance of `handleEos_invalid_last_node` on the example trainer: the gold cut 6 lies
inside the last top-1 node (5, 0), and the predecessor (6, 0) of EOS is accepted. -/
theorem handleEos_invalid_last_node_witness :
    lastNodeInvalid demoTrainer.example_ demoTrainer.analyzer_.lattice = true ∧
    doesNodeMatch demoTrainer.example_
      (demoTrainer.analyzer_.lattice.boundary
        (top1Prev demoTrainer.analyzer_.lattice).boundary).starts
      ((top1Prev demoTrainer.analyzer_.lattice).boundary : Int)
      (top1Prev demoTrainer.analyzer_.lattice).right = false ∧
    1 ≤ (eosAccepted demoTrainer.example_ demoTrainer.analyzer_.lattice).length ∧
    0 < demoTrainer.analyzer_.lattice.createdBoundaryCount ∧
    ((handleEos demoTrainer ⟨[], 0⟩).loss = (0 : ℚ) +
        (((eosAccepted demoTrainer.example_ demoTrainer.analyzer_.lattice).length : Nat) : ℚ) /
          (((eosBoundary demoTrainer.analyzer_.lattice).ends.nodePtrs.length : Nat) : ℚ) /
          ((demoTrainer.analyzer_.lattice.createdBoundaryCount : Nat) : ℚ) ∧
      0 < (((eosAccepted demoTrainer.example_ demoTrainer.analyzer_.lattice).length : Nat) : ℚ) /
          (((eosBoundary demoTrainer.analyzer_.lattice).ends.nodePtrs.length : Nat) : ℚ) /
          ((demoTrainer.analyzer_.lattice.createdBoundaryCount : Nat) : ℚ) ∧
      (∃ positives, (handleEos demoTrainer ⟨[], 0⟩).features = [] ++ positives ++
        (calculateNgramFeatures demoTrainer.analyzer_
          (trigramOf demoTrainer.analyzer_.lattice
            (top1Element demoTrainer.analyzer_.lattice).ptr)).map
            (fun f => (⟨f, -1⟩ : ScoredFeature))) ∧
      (calculateNgramFeatures demoTrainer.analyzer_
        (trigramOf demoTrainer.analyzer_.lattice
          (top1Element demoTrainer.analyzer_.lattice).ptr)).length
          = demoTrainer.analyzer_.numNgram) :=
  ⟨by decide, by decide, by decide, by decide,
    handleEos_invalid_last_node demoTrainer ⟨[], 0⟩ (by decide) (by decide) (by decide)
      (by decide)⟩

/-- C19 (defect in the code): in the example the accepted predecessor of EOS is the node
(6, 0) with the single live beam entry at address 8, whose predecessor is the node (4, 0);
the last top-1 node is (5, 0). The positive features that `handleEos` appends are the
hashes of the trigram ((4, 0), (5, 0), EOS), built with the top-1 node `prev` in the middle,
and none of the hashes of the trigram ((4, 0), (6, 0), EOS) of the candidate is appended. -/
theorem handleEos_positive_trigram_defect :
    eosAccepted demoTrainer.example_ demoLattice = [⟨6, 0⟩] ∧
      (liveBeam demoAnalyzer ((demoLattice.boundary 6).starts.beamData 0)).map (fun e => e.ptr)
        = [demoDeref 8] ∧
      (top1Prev demoLattice).latticeNodePtr = ⟨5, 0⟩ ∧
      eosPositiveRef demoLattice ⟨demoDeref 8, 0⟩ = ⟨⟨4, 0⟩, ⟨5, 0⟩, ⟨7, 0⟩⟩ ∧
      eosCandidateRef demoLattice ⟨6, 0⟩ ⟨demoDeref 8, 0⟩ = ⟨⟨4, 0⟩, ⟨6, 0⟩, ⟨7, 0⟩⟩ ∧
      ((handleEos demoTrainer ⟨[], 0⟩).features.take 2).map (fun f => f.feature)
        = calculateNgramFeatures demoAnalyzer (eosPositiveRef demoLattice ⟨demoDeref 8, 0⟩) ∧
      (∀ f ∈ calculateNgramFeatures demoAnalyzer
          (eosCandidateRef demoLattice ⟨6, 0⟩ ⟨demoDeref 8, 0⟩),
        f ∉ (handleEos demoTrainer ⟨[], 0⟩).features.map (fun f => f.feature)) := by
  decide

/-- The positive features of `handleEos` in general: every live beam entry of an accepted
predecessor of EOS contributes the hashes of the trigram with the last top-1 node in the
middle (`eosPositiveRef`), not the candidate. -/
theorem handleEos_positive_features {W : Type} (t : Trainer W) (st : TrainerState)
    (hinv : lastNodeInvalid t.example_ t.analyzer_.lattice = true)
    (hprev : doesNodeMatch t.example_
      (t.analyzer_.lattice.boundary (top1Prev t.analyzer_.lattice).boundary).starts
      ((top1Prev t.analyzer_.lattice).boundary : Int) (top1Prev t.analyzer_.lattice).right
        = false)
    (hnodes : eosAccepted t.example_ t.analyzer_.lattice ≠ []) :
    (handleEos t st).features = st.features ++
      (eosBeamEntries t.analyzer_ t.example_).flatMap (fun e =>
        (calculateNgramFeatures t.analyzer_ (eosPositiveRef t.analyzer_.lattice e)).map
          (fun f => (⟨f, 1 / (((eosBeamEntries t.analyzer_ t.example_).length : Nat) : ℚ)⟩
            : ScoredFeature))) ++
      (calculateNgramFeatures t.analyzer_
        (trigramOf t.analyzer_.lattice (top1Element t.analyzer_.lattice).ptr)).map
          (fun f => (⟨f, -1⟩ : ScoredFeature)) := by
  rw [handleEos_eq t st hinv hprev hnodes]

/-- C17: the result of `compute` does not depend on the features and the loss that the
trainer held before: any two prior states give the same result, and running `compute`
again on its own result gives that result again. -/
theorem compute_independent_of_prior_state {W : Type} (t : Trainer W) (fuel : Nat)
    (st1 st2 : TrainerState) :
    compute t fuel st1 = compute t fuel st2 ∧
      (compute t fuel st1).bind (compute t fuel) = compute t fuel st1 := by
  refine ⟨rfl, ?_⟩
  cases h : compute t fuel st1 with
  | none => rfl
  | some st' =>
    show compute t fuel st' = some st'
    rw [← h]
    rfl

/-! ## Theorems: `HashedFeaturePerceptron::compute` -/

theorem foldl_set_range (f : Nat → ℚ) (n : Nat) :
    ∀ (result : List ℚ), n ≤ result.length →
      (List.range n).foldl (fun res i => res.set i (f i)) result
        = (List.range n).map f ++ result.drop n := by
  induction n with
  | zero => intro result _; simp
  | succ n ih =>
    intro result hn
    rw [List.range_succ, List.foldl_append, ih result (by omega)]
    simp only [List.foldl_cons, List.foldl_nil, List.map_append, List.map_cons, List.map_nil]
    rw [List.set_append_right _ _ (by simp)]
    simp only [List.length_map, List.length_range, Nat.sub_self, List.append_assoc,
      List.singleton_append]
    congr 1
    rw [List.drop_eq_getElem_cons (by omega : n < result.length)]
    rfl

theorem perceptronMask_pow (k : Nat) :
    perceptronMask (2 ^ k) = if k ≤ 32 then 2 ^ k - 1 else 2 ^ 32 - 1 := by
  unfold perceptronMask
  have hpos : 0 < 2 ^ k := Nat.pow_pos (by omega)
  have h1 : 2 ^ k + 2 ^ 64 - 1 = (2 ^ k - 1) + 2 ^ 64 := by omega
  rw [h1, Nat.add_mod_right, Nat.mod_mod_of_dvd _ (by norm_num : 2 ^ 32 ∣ 2 ^ 64)]
  by_cases hk : k ≤ 32
  · rw [if_pos hk]
    have : 2 ^ k ≤ 2 ^ 32 := Nat.pow_le_pow_right (by omega) hk
    exact Nat.mod_eq_of_lt (by omega)
  · rw [if_neg hk]
    obtain ⟨d, rfl⟩ : ∃ d, k = 32 + (d + 1) := ⟨k - 33, by omega⟩
    have hd : 0 < 2 ^ (d + 1) := Nat.pow_pos (by omega)
    have h2 : 2 ^ (32 + (d + 1)) - 1 = (2 ^ 32 - 1) + 2 ^ 32 * (2 ^ (d + 1) - 1) := by
      rw [Nat.pow_add, Nat.mul_sub, Nat.mul_one]
      have : 2 ^ 32 ≤ 2 ^ 32 * 2 ^ (d + 1) := Nat.le_mul_of_pos_right _ hd
      omega
    rw [h2, Nat.add_mul_mod_self_left]
    norm_num

theorem perceptron_index (k h : Nat) (hh : h < 2 ^ 32) :
    h &&& perceptronMask (2 ^ k) = h &&& (2 ^ k - 1) ∧ h &&& perceptronMask (2 ^ k) < 2 ^ k := by
  have hpos : 0 < 2 ^ k := Nat.pow_pos (by omega)
  rw [perceptronMask_pow]
  by_cases hk : k ≤ 32
  · rw [if_pos hk]
    refine ⟨rfl, ?_⟩
    rw [Nat.and_pow_two_sub_one_eq_mod]
    exact Nat.mod_lt _ hpos
  · rw [if_neg hk]
    have hlt : 2 ^ 32 < 2 ^ k := Nat.pow_lt_pow_right (by omega) (by omega)
    rw [Nat.and_pow_two_sub_one_eq_mod, Nat.and_pow_two_sub_one_eq_mod,
      Nat.mod_eq_of_lt hh, Nat.mod_eq_of_lt (by omega)]
    exact ⟨rfl, by omega⟩

/-- C20: for a weight table whose size is a power of two, `u32` hashes and a connection
with `n` n-gram rows, `HashedFeaturePerceptron::compute` writes exactly the `n` scores
`result[i]`, `0 ≤ i < n`, each the sum of `W[h & mask]` over the hashes `h` of row `i` with
`mask = size - 1`, and every index `h & mask` lies inside the table. -/
theorem perceptronCompute_scores (weights : List ℚ) (ngrams : List (List Nat))
    (result : List ℚ) (k : Nat) (hsize : weights.length = 2 ^ k)
    (hhash : ∀ row ∈ ngrams, ∀ h ∈ row, h < 2 ^ 32)
    (hres : ngrams.length ≤ result.length) :
    (perceptronCompute weights ngrams result).length = result.length ∧
      (∀ i, i < ngrams.length →
        (perceptronCompute weights ngrams result)[i]? =
          some (((ngrams.getD i []).map
            (fun h => weights.getD (h &&& (weights.length - 1)) 0)).sum)) ∧
      (∀ i, ngrams.length ≤ i → (perceptronCompute weights ngrams result)[i]? = result[i]?) ∧
      (∀ row ∈ ngrams, ∀ h ∈ row, h &&& perceptronMask weights.length < weights.length) := by
  have hidx : ∀ row ∈ ngrams, ∀ h ∈ row,
      h &&& perceptronMask weights.length = h &&& (weights.length - 1) ∧
        h &&& perceptronMask weights.length < weights.length := by
    intro row hrow h hh
    rw [hsize]
    exact perceptron_index k h (hhash row hrow h hh)
  have heq : perceptronCompute weights ngrams result
      = (List.range ngrams.length).map (fun i =>
          computeUnrolled4Perceptron weights (ngrams.getD i [])
            (perceptronMask weights.length)) ++ result.drop ngrams.length := by
    unfold perceptronCompute
    exact foldl_set_range _ _ result hres
  refine ⟨?_, ?_, ?_, fun row hrow h hh => (hidx row hrow h hh).2⟩
  · rw [heq, List.length_append, List.length_map, List.length_range, List.length_drop]
    omega
  · intro i hi
    rw [heq, List.getElem?_append_left (by simp [hi]), List.getElem?_map,
      List.getElem?_range hi]
    have hrow : ngrams.getD i [] ∈ ngrams := by
      rw [List.getD_eq_getElem _ _ hi]
      exact List.getElem_mem _
    have hmap : (ngrams.getD i []).map
          (fun h => weights.getD (h &&& perceptronMask weights.length) 0)
        = (ngrams.getD i []).map (fun h => weights.getD (h &&& (weights.length - 1)) 0) :=
      List.map_congr_left (fun h hh => by rw [(hidx _ hrow h hh).1])
    simp only [Option.map_some', computeUnrolled4Perceptron]
    rw [hmap]
  · intro i hi
    rw [heq, List.getElem?_append_right (by simp [hi]), List.getElem?_drop]
    simp only [List.length_map, List.length_range]
    congr 1
    omega

/-- Instance of `perceptronCompute_scores` for a table of four weights and two rows. -/
theorem perceptronCompute_scores_witness :
    ([1, 2, 3, 4] : List ℚ).length = 2 ^ 2 ∧
    (∀ row ∈ ([[5, 2], [7]] : List (List Nat)), ∀ h ∈ row, h < 2 ^ 32) ∧
    ([[5, 2], [7]] : List (List Nat)).length ≤ ([0, 0, 9] : List ℚ).length ∧
    ((perceptronCompute [1, 2, 3, 4] [[5, 2], [7]] [0, 0, 9]).length
        = ([0, 0, 9] : List ℚ).length ∧
      (∀ i, i < ([[5, 2], [7]] : List (List Nat)).length →
        (perceptronCompute [1, 2, 3, 4] [[5, 2], [7]] [0, 0, 9])[i]? =
          some (((([[5, 2], [7]] : List (List Nat)).getD i []).map
            (fun h => ([1, 2, 3, 4] : List ℚ).getD
              (h &&& (([1, 2, 3, 4] : List ℚ).length - 1)) 0)).sum)) ∧
      (∀ i, ([[5, 2], [7]] : List (List Nat)).length ≤ i →
        (perceptronCompute [1, 2, 3, 4] [[5, 2], [7]] [0, 0, 9])[i]?
          = ([0, 0, 9] : List ℚ)[i]?) ∧
      (∀ row ∈ ([[5, 2], [7]] : List (List Nat)), ∀ h ∈ row,
        h &&& perceptronMask ([1, 2, 3, 4] : List ℚ).length
          < ([1, 2, 3, 4] : List ℚ).length)) :=
  ⟨by norm_num, by simp, by decide,
    perceptronCompute_scores [1, 2, 3, 4] [[5, 2], [7]] [0, 0, 9] 2 (by norm_num) (by simp)
      (by decide)⟩

/-! ## Theorems: `handleTagConstraints` -/

theorem tagLoop_eq (a : Analyzer) (nodeRatio : ℚ) (c : NodeConstraint) (ptr : ConnectionPtr)
    (entryData : Nat → Int) (tags : List TagConstraint) (st : TrainerState) :
    tagLoop a nodeRatio c ptr entryData tags st
      = if tags.any (fun tag => decide (entryData tag.field ≠ tag.value)) then
          tagViolation a nodeRatio c ptr st
        else st := by
  induction tags with
  | nil => simp [tagLoop]
  | cons tag rest ih =>
    unfold tagLoop
    by_cases hx : entryData tag.field ≠ tag.value
    · rw [if_pos hx]; simp [hx]
    · rw [if_neg hx, ih]
      have hx2 : entryData tag.field = tag.value := not_not.mp hx
      simp [hx2]

theorem tagNodeStep_eq (a : Analyzer) (nodeRatio : ℚ) (c : NodeConstraint)
    (st : TrainerState) (ptr : ConnectionPtr) :
    tagNodeStep a nodeRatio c st ptr
      = if violatesConstraint a.lattice c ptr then tagViolation a nodeRatio c ptr st
        else st := by
  unfold tagNodeStep violatesConstraint
  simp only
  by_cases hl : (a.lattice.boundary ptr.boundary).starts.numCodepoints ptr.right ≠ c.length
  · rw [if_pos hl]; simp [hl]
  · rw [if_neg hl, tagLoop_eq]
    have hl2 : (a.lattice.boundary ptr.boundary).starts.numCodepoints ptr.right = c.length :=
      not_not.mp hl
    simp [hl2]

theorem tagNode_fold (a : Analyzer) (nodeRatio : ℚ) (c : NodeConstraint)
    (ptrs : List ConnectionPtr) :
    ∀ (st : TrainerState),
      ptrs.foldl (tagNodeStep a nodeRatio c) st
        = ((ptrs.map (fun ptr => (c, ptr))).filter
            (fun v => violatesConstraint a.lattice v.1 v.2)).foldl
            (fun s v => tagViolation a nodeRatio v.1 v.2 s) st := by
  induction ptrs with
  | nil => intro st; rfl
  | cons ptr rest ih =>
    intro st
    rw [List.foldl_cons, ih, tagNodeStep_eq, List.map_cons, List.filter_cons]
    by_cases hv : violatesConstraint a.lattice c ptr = true
    · simp only [hv, if_true, List.foldl_cons]
    · simp only [hv, Bool.false_eq_true, if_false]

theorem tagConstraintStep_eq {W : Type} (t : Trainer W) (nodeRatio : ℚ) (w : W)
    (st : TrainerState) (c : NodeConstraint) :
    tagConstraintStep t nodeRatio (w, st) c
      = if !(t.top1_.moveToBoundary w c.boundary).1 then
          ((t.top1_.moveToBoundary w c.boundary).2, st)
        else
          ((t.top1_.nextNodes (t.top1_.moveToBoundary w c.boundary).2).2,
            (t.top1_.nextNodes (t.top1_.moveToBoundary w c.boundary).2).1.foldl
              (tagNodeStep t.analyzer_ nodeRatio c) st) := rfl

theorem tagConstraint_fold {W : Type} (t : Trainer W) (nodeRatio : ℚ)
    (cs : List NodeConstraint) :
    ∀ (w : W) (st : TrainerState),
      (cs.foldl (tagConstraintStep t nodeRatio) (w, st)).2
        = ((tagVisitsFrom t.top1_ w cs).filter
            (fun v => violatesConstraint t.analyzer_.lattice v.1 v.2)).foldl
            (fun s v => tagViolation t.analyzer_ nodeRatio v.1 v.2 s) st := by
  induction cs with
  | nil => intro w st; rfl
  | cons c rest ih =>
    intro w st
    rw [List.foldl_cons, tagConstraintStep_eq, tagVisitsFrom]
    by_cases hm : (!(t.top1_.moveToBoundary w c.boundary).1) = true
    · rw [if_pos hm, if_pos hm, ih]
    · rw [if_neg hm, if_neg hm, ih, tagNode_fold, List.filter_append, List.foldl_append]

/-- C22: `handleTagConstraints` visits, for every `NodeConstraint` in order, the top-1
nodes that the walker yields at the boundary of the constraint (none when the boundary
carries no top-1 node); for every visit it calls `addBadNode2` exactly once if the length
of the node differs from the constraint or at least one tag differs, and not at all
otherwise, and every call adds `(1 / totalNodes())` times its return value to the loss and
leaves the features that `addBadNode2` returns. -/
theorem handleTagConstraints_calls {W : Type} (t : Trainer W) (st : TrainerState) :
    handleTagConstraints t st
        = ((tagVisits t).filter
            (fun v => violatesConstraint t.analyzer_.lattice v.1 v.2)).foldl
            (fun s v => tagViolation t.analyzer_ (1 / (t.top1_.totalNodes : ℚ)) v.1 v.2 s) st ∧
      (∀ (c : NodeConstraint) (ptr : ConnectionPtr) (s : TrainerState),
        (tagViolation t.analyzer_ (1 / (t.top1_.totalNodes : ℚ)) c ptr s).loss
            = s.loss + (1 / (t.top1_.totalNodes : ℚ)) *
              (addBadNode2 t.analyzer_ ptr (ptr.boundary : Int) c.length c.tags s.features).1 ∧
          (tagViolation t.analyzer_ (1 / (t.top1_.totalNodes : ℚ)) c ptr s).features
            = (addBadNode2 t.analyzer_ ptr (ptr.boundary : Int) c.length c.tags
                s.features).2) ∧
      (∀ (w : W) (c : NodeConstraint) (rest : List NodeConstraint),
        (t.top1_.moveToBoundary w c.boundary).1 = false →
          tagVisitsFrom t.top1_ w (c :: rest)
            = tagVisitsFrom t.top1_ (t.top1_.moveToBoundary w c.boundary).2 rest) := by
  refine ⟨?_, fun c ptr s => ⟨rfl, rfl⟩, ?_⟩
  · unfold handleTagConstraints tagVisits
    exact tagConstraint_fold t _ _ _ _
  · intro w c rest hm
    rw [tagVisitsFrom, if_pos (by simp [hm])]

/-! ## Theorems: a top-1 path that agrees with the gold annotation -/

theorem chain_boundary_lt (l : Lattice) (path : List ConnectionPtr) :
    ∀ (nodeEnd : ConnectionPtr), IsTop1Chain l nodeEnd path →
      ∀ n ∈ path, n.boundary < nodeEnd.boundary := by
  induction path with
  | nil => intro nodeEnd _ n hn; simp at hn
  | cons m rest ih =>
    intro nodeEnd hc n hn
    obtain ⟨_, _, hlt, hrest⟩ := hc
    rcases List.mem_cons.mp hn with rfl | hn
    · exact hlt
    · exact lt_trans (ih m hrest n hn) hlt

theorem insideTop1Node_false_of_ge (l : Lattice) (path : List ConnectionPtr) :
    ∀ (nodeEnd : ConnectionPtr) (b : Int), IsTop1Chain l nodeEnd path →
      (nodeEnd.boundary : Int) ≤ b → insideTop1Node nodeEnd path b = false := by
  induction path with
  | nil => intro nodeEnd b _ _; rfl
  | cons n rest ih =>
    intro nodeEnd b hc hb
    obtain ⟨_, _, hlt, hrest⟩ := hc
    unfold insideTop1Node
    rw [ih n b hrest (by omega)]
    simp only [Bool.or_false, decide_eq_false_iff_not]
    omega

/-- The start of a node of the top-1 chain lies strictly inside no node of the chain. -/
theorem insideTop1Node_false_of_start (l : Lattice) (path : List ConnectionPtr) :
    ∀ (nodeEnd : ConnectionPtr), IsTop1Chain l nodeEnd path →
      ∀ n ∈ path, insideTop1Node nodeEnd path (n.boundary : Int) = false := by
  induction path with
  | nil => intro nodeEnd _ n hn; simp at hn
  | cons m rest ih =>
    intro nodeEnd hc n hn
    have hc2 := hc
    obtain ⟨_, _, hlt, hrest⟩ := hc2
    unfold insideTop1Node
    rcases List.mem_cons.mp hn with rfl | hn
    · rw [insideTop1Node_false_of_ge l rest n _ hrest (le_refl _)]
      simp
    · rw [ih m hrest n hn]
      have h2 := chain_boundary_lt l rest m hrest n hn
      simp only [Bool.or_false, decide_eq_false_iff_not]
      omega

/-- When no boundary of the iteration lies strictly inside a node of the top-1 chain, the
loop of `handleBoundaryConstraints` returns the state unchanged. -/
theorem boundaryLoop_no_call {σ : Type} (l : Lattice)
    (f : ConnectionPtr → Int → Int → σ → σ) (st : σ) (fuel : Nat) :
    ∀ (nodeEnd : ConnectionPtr) (path : List ConnectionPtr) (bnditer : List Int),
      IsTop1Chain l nodeEnd path →
      (∀ b ∈ bnditer, insideTop1Node nodeEnd path b = false) →
      path.length + bnditer.length ≤ fuel →
      boundaryLoop l f fuel nodeEnd (l.deref nodeEnd.previous) bnditer st = some st := by
  induction fuel with
  | zero =>
    intro nodeEnd path bnditer _ _ hf
    have hb : bnditer = [] := List.length_eq_zero.mp (by omega)
    subst hb
    simp [boundaryLoop]
  | succ fuel ih =>
    intro nodeEnd path bnditer hc hin hf
    rw [boundaryLoop_succ]
    cases path with
    | nil =>
      have h1 : (l.deref nodeEnd.previous).boundary ≤ 1 := hc
      rw [if_pos (by omega)]
    | cons n rest =>
      have hc2 := hc
      obtain ⟨hd, h1, hlt, hrest⟩ := hc2
      rw [hd, if_neg (by omega)]
      cases bnditer with
      | nil => rfl
      | cons b bs =>
        have hb := hin b (List.mem_cons_self _ _)
        unfold insideTop1Node at hb
        rw [Bool.or_eq_false_iff, decide_eq_false_iff_not] at hb
        have hbs : ∀ x ∈ bs, insideTop1Node nodeEnd (n :: rest) x = false :=
          fun x hx => hin x (List.mem_cons_of_mem _ hx)
        have hbs2 : ∀ x ∈ bs, insideTop1Node n rest x = false := by
          intro x hx
          have h := hbs x hx
          unfold insideTop1Node at h
          rw [Bool.or_eq_false_iff] at h
          exact h.2
        simp only [List.length_cons] at hf
        show (if (n.boundary : Int) = b then _ else _) = _
        by_cases he : (n.boundary : Int) = b
        · rw [if_pos he]
          exact ih n rest bs hrest hbs2 (by omega)
        · rw [if_neg he, if_neg hb.1]
          by_cases hge : b ≥ (nodeEnd.boundary : Int)
          · rw [if_pos hge]
            have h := ih nodeEnd (n :: rest) bs hc hbs (by simp only [List.length_cons]; omega)
            rw [hd] at h
            exact h
          · rw [if_neg hge]
            refine ih n rest (b :: bs) hrest ?_ (by simp only [List.length_cons]; omega)
            intro x hx
            rcases List.mem_cons.mp hx with rfl | hx
            · exact hb.2
            · exact hbs2 x hx

theorem mem_tagVisitsFrom {W : Type} (top1 : AnalysisPath W) (cs : List NodeConstraint) :
    ∀ (w : W), ∀ v ∈ tagVisitsFrom top1 w cs, v.1 ∈ cs := by
  induction cs with
  | nil => intro w v hv; simp [tagVisitsFrom] at hv
  | cons c rest ih =>
    intro w v hv
    unfold tagVisitsFrom at hv
    by_cases hm : (!(top1.moveToBoundary w c.boundary).1) = true
    · rw [if_pos hm] at hv
      exact List.mem_cons_of_mem _ (ih _ v hv)
    · rw [if_neg hm] at hv
      rcases List.mem_append.mp hv with h | h
      · obtain ⟨p, _, rfl⟩ := List.mem_map.mp h
        exact List.mem_cons_self _ _
      · exact List.mem_cons_of_mem _ (ih _ v h)

/-- When the last content node of the top-1 path is not invalid, `handleEos` leaves the
state as it is. -/
theorem handleEos_of_valid {W : Type} (t : Trainer W) (st : TrainerState)
    (hinv : lastNodeInvalid t.example_ t.analyzer_.lattice = false) :
    handleEos t st = st := by
  have hflag : eosNodeLoop (top1Prev t.analyzer_.lattice).boundary
      ((t.analyzer_.lattice.boundary (top1Prev t.analyzer_.lattice).boundary).starts.numCodepoints
        (top1Prev t.analyzer_.lattice).right)
      ((t.analyzer_.lattice.boundary (top1Prev t.analyzer_.lattice).boundary).starts.entryData
        (top1Prev t.analyzer_.lattice).right) t.example_.nodes
      (t.example_.boundaries.foldl
        (fun invalidNode b =>
          if ((top1Prev t.analyzer_.lattice).boundary : Int) < b ∧
            b < ((top1Prev t.analyzer_.lattice).boundary : Int) +
              (t.analyzer_.lattice.boundary
                (top1Prev t.analyzer_.lattice).boundary).starts.numCodepoints
                  (top1Prev t.analyzer_.lattice).right then true else invalidNode) false)
      = false := by
    rw [eosNodeLoop_eq, foldl_flag_eq]
    simpa [lastNodeInvalid] using hinv
  unfold handleEos
  simp only
  unfold top1Prev at hflag
  rw [hflag]
  simp

/-- When no gold boundary lies strictly inside a top-1 node, the nodes that the walker
yields meet their constraints and the last content node is not invalid, none of the three
handlers changes the state. -/
theorem handlers_unchanged {W : Type} (t : Trainer W) (path : List ConnectionPtr)
    (fuel : Nat)
    (hchain : IsTop1Chain t.analyzer_.lattice (top1Element t.analyzer_.lattice).ptr path)
    (hgold : ∀ b ∈ t.example_.boundaries,
      insideTop1Node (top1Element t.analyzer_.lattice).ptr path b = false)
    (htags : ∀ v ∈ tagVisits t, violatesConstraint t.analyzer_.lattice v.1 v.2 = false)
    (hlast : lastNodeInvalid t.example_ t.analyzer_.lattice = false)
    (hfuel : path.length + t.example_.boundaries.length ≤ fuel) (s : TrainerState) :
    handleBoundaryConstraints t fuel s = some s ∧ handleTagConstraints t s = s ∧
      handleEos t s = s := by
  refine ⟨?_, ?_, handleEos_of_valid t s hlast⟩
  · unfold handleBoundaryConstraints
    refine boundaryLoop_no_call _ _ s fuel _ path _ hchain ?_ ?_
    · intro b hb
      exact hgold b (List.mem_reverse.mp hb)
    · rw [List.length_reverse]; exact hfuel
  · unfold handleTagConstraints tagVisits at *
    rw [tagConstraint_fold]
    have hnil : (tagVisitsFrom t.top1_ t.top1_.afterReset t.example_.nodes).filter
        (fun v => violatesConstraint t.analyzer_.lattice v.1 v.2) = [] := by
      rw [List.filter_eq_nil_iff]
      intro v hv
      rw [htags v hv]
      simp
    rw [hnil]
    rfl

/-- C23: when the top-1 path agrees with the gold annotation (every gold boundary is the
start of a top-1 node, the walker yields top-1 nodes at the boundary of each constraint,
and every `NodeConstraint` is met in length and in all tags by the top-1 node at its
boundary), `compute` returns with loss 0 and an empty feature list, and none of
`handleBoundaryConstraints`, `handleTagConstraints` and `handleEos` changes the loss or the
features. -/
theorem compute_agreeing_path {W : Type} (t : Trainer W) (path : List ConnectionPtr)
    (fuel : Nat) (st : TrainerState)
    (hchain : IsTop1Chain t.analyzer_.lattice (top1Element t.analyzer_.lattice).ptr path)
    (hgold : ∀ b ∈ t.example_.boundaries, ∃ n ∈ path, (n.boundary : Int) = b)
    (hwalk : ∀ v ∈ tagVisits t, v.2 ∈ path ∧ (v.2.boundary : Int) = v.1.boundary)
    (hnodes : ∀ c ∈ t.example_.nodes, ∀ n ∈ top1Prev t.analyzer_.lattice :: path,
      (n.boundary : Int) = c.boundary → violatesConstraint t.analyzer_.lattice c n = false)
    (hfuel : path.length + t.example_.boundaries.length ≤ fuel) :
    compute t fuel st = some ⟨[], 0⟩ ∧
      ∀ (s : TrainerState), handleBoundaryConstraints t fuel s = some s ∧
        handleTagConstraints t s = s ∧ handleEos t s = s := by
  have hin : ∀ b ∈ t.example_.boundaries,
      insideTop1Node (top1Element t.analyzer_.lattice).ptr path b = false := by
    intro b hb
    obtain ⟨n, hn, rfl⟩ := hgold b hb
    exact insideTop1Node_false_of_start _ path _ hchain n hn
  have htags : ∀ v ∈ tagVisits t, violatesConstraint t.analyzer_.lattice v.1 v.2 = false := by
    intro v hv
    have hc : v.1 ∈ t.example_.nodes := mem_tagVisitsFrom _ _ _ v hv
    exact hnodes v.1 hc v.2 (List.mem_cons_of_mem _ (hwalk v hv).1) (hwalk v hv).2
  have hle : ∀ n ∈ path, n.boundary ≤ (top1Prev t.analyzer_.lattice).boundary := by
    intro n hn
    cases path with
    | nil => simp at hn
    | cons m rest =>
      obtain ⟨hd, _, _, hrest⟩ := hchain
      have hm : top1Prev t.analyzer_.lattice = m := hd
      rw [hm]
      rcases List.mem_cons.mp hn with rfl | hn
      · exact le_refl _
      · exact le_of_lt (chain_boundary_lt _ rest m hrest n hn)
  have hlast : lastNodeInvalid t.example_ t.analyzer_.lattice = false := by
    unfold lastNodeInvalid
    rw [Bool.or_eq_false_iff, List.any_eq_false, List.any_eq_false]
    constructor
    · intro b hb
      obtain ⟨n, hn, rfl⟩ := hgold b hb
      have h := hle n hn
      simp only [decide_eq_true_eq]
      omega
    · intro c hc
      by_cases hb : c.boundary = ((top1Prev t.analyzer_.lattice).boundary : Int)
      · have hv := hnodes c hc (top1Prev t.analyzer_.lattice) (List.mem_cons_self _ _) hb.symm
        unfold violatesConstraint at hv
        rw [Bool.or_eq_false_iff, decide_eq_false_iff_not] at hv
        rw [hv.2]
        have hl : c.length = (t.analyzer_.lattice.boundary
            (top1Prev t.analyzer_.lattice).boundary).starts.numCodepoints
              (top1Prev t.analyzer_.lattice).right := (not_not.mp hv.1).symm
        simp [hl]
      · simp [hb]
  have hall := handlers_unchanged t path fuel hchain hin htags hlast hfuel
  refine ⟨?_, hall⟩
  unfold compute
  simp only
  rw [(hall ⟨[], 0⟩).1]
  simp only
  rw [(hall ⟨[], 0⟩).2.1, (hall ⟨[], 0⟩).2.2]
  simp [finalizeFeatures, sortFeatures, coalesceLoop]

/-- Instance of `compute_agreeing_path` on the agreeing example trainer. -/
theorem compute_agreeing_path_witness :
    IsTop1Chain agreeingTrainer.analyzer_.lattice
        (top1Element agreeingTrainer.analyzer_.lattice).ptr [demoDeref 6, demoDeref 2] ∧
      (∀ b ∈ agreeingTrainer.example_.boundaries,
        ∃ n ∈ [demoDeref 6, demoDeref 2], (n.boundary : Int) = b) ∧
      (∀ v ∈ tagVisits agreeingTrainer,
        v.2 ∈ [demoDeref 6, demoDeref 2] ∧ (v.2.boundary : Int) = v.1.boundary) ∧
      tagVisits agreeingTrainer = [(⟨2, 3, [⟨1, 10⟩]⟩, demoDeref 2),
        (⟨5, 2, [⟨0, 2⟩, ⟨1, 30⟩]⟩, demoDeref 6)] ∧
      (compute agreeingTrainer 3 ⟨[⟨7, 1⟩], 5⟩ = some ⟨[], 0⟩ ∧
        ∀ (s : TrainerState), handleBoundaryConstraints agreeingTrainer 3 s = some s ∧
          handleTagConstraints agreeingTrainer s = s ∧ handleEos agreeingTrainer s = s) :=
  have hchain : IsTop1Chain agreeingTrainer.analyzer_.lattice
      (top1Element agreeingTrainer.analyzer_.lattice).ptr [demoDeref 6, demoDeref 2] :=
    ⟨rfl, by decide, by decide, rfl, by decide, by decide,
      show (demoDeref 1).boundary ≤ 1 by decide⟩
  ⟨hchain, by decide, by decide, by decide,
    compute_agreeing_path agreeingTrainer [demoDeref 6, demoDeref 2] 3 ⟨[⟨7, 1⟩], 5⟩ hchain
      (by decide) (by decide) (by decide) (by decide)⟩

/-! ## Theorems: termination of the loop of `handleBoundaryConstraints` -/

theorem reachesBosWithin_step (l : Lattice) (k : Nat) (p : ConnectionPtr)
    (h : reachesBosWithin l k p = true) (hp : p.boundary > 1) :
    reachesBosWithin l (k - 1) (l.deref p.previous) = true ∧ 1 ≤ k := by
  cases k with
  | zero =>
    unfold reachesBosWithin at h
    rw [decide_eq_true_eq] at h
    omega
  | succ k =>
    unfold reachesBosWithin at h
    rw [Bool.or_eq_true, decide_eq_true_eq] at h
    rcases h with h | h
    · omega
    · exact ⟨h, by omega⟩

/-- The loop of `handleBoundaryConstraints` follows `loopAdvance`: it returns the state when
there is no further iteration, and otherwise goes on from the advanced cursor. -/
theorem boundaryLoop_advance {σ : Type} (l : Lattice)
    (f : ConnectionPtr → Int → Int → σ → σ) (fuel : Nat) (c : LoopCursor) (st : σ) :
    (loopAdvance l c = none →
        boundaryLoop l f (fuel + 1) c.nodeEnd c.nodeStart c.bnditer st = some st ∧
        boundaryLoop l f 0 c.nodeEnd c.nodeStart c.bnditer st = some st) ∧
      (∀ c2, loopAdvance l c = some c2 →
        ∃ st2, boundaryLoop l f (fuel + 1) c.nodeEnd c.nodeStart c.bnditer st
          = boundaryLoop l f fuel c2.nodeEnd c2.nodeStart c2.bnditer st2) := by
  obtain ⟨nodeEnd, nodeStart, bnditer⟩ := c
  rw [boundaryLoop_succ]
  unfold loopAdvance
  simp only
  by_cases h1 : ¬ nodeStart.boundary > 1
  · rw [if_pos h1, if_pos h1]
    refine ⟨fun _ => ⟨rfl, ?_⟩, fun c2 h => absurd h (by simp)⟩
    unfold boundaryLoop
    rw [if_neg (fun h => h1 h.1)]
  · rw [if_neg h1, if_neg h1]
    cases bnditer with
    | nil =>
      refine ⟨fun _ => ⟨rfl, ?_⟩, fun c2 h => absurd h (by simp)⟩
      unfold boundaryLoop
      rw [if_neg (fun h => h.2 rfl)]
    | cons b bs =>
      show ((if (nodeStart.boundary : Int) = b then _ else _) = none → _) ∧
        (∀ c2, (if (nodeStart.boundary : Int) = b then _ else _) = some c2 →
          ∃ st2, (if (nodeStart.boundary : Int) = b then _ else _) = _)
      by_cases he : (nodeStart.boundary : Int) = b
      · rw [if_pos he, if_pos he]
        refine ⟨fun h => absurd h (by simp), fun c2 h => ?_⟩
        rw [← Option.some.inj h]
        exact ⟨st, rfl⟩
      · rw [if_neg he, if_neg he]
        by_cases hv : (nodeStart.boundary : Int) < b ∧ b < (nodeEnd.boundary : Int)
        · rw [if_pos hv, if_pos hv]
          refine ⟨fun h => absurd h (by simp), fun c2 h => ?_⟩
          rw [← Option.some.inj h]
          exact ⟨_, rfl⟩
        · rw [if_neg hv, if_neg hv]
          by_cases hge : b ≥ (nodeEnd.boundary : Int)
          · rw [if_pos hge, if_pos hge]
            refine ⟨fun h => absurd h (by simp), fun c2 h => ?_⟩
            rw [← Option.some.inj h]
            exact ⟨st, rfl⟩
          · rw [if_neg hge, if_neg hge]
            refine ⟨fun h => absurd h (by simp), fun c2 h => ?_⟩
            rw [← Option.some.inj h]
            exact ⟨st, rfl⟩

/-- Every iteration of the loop advances the gold iterator by one boundary or moves the
node pointer one step along `previous` (or both). -/
theorem loopAdvance_progress (l : Lattice) (c c2 : LoopCursor)
    (h : loopAdvance l c = some c2) :
    c.nodeStart.boundary > 1 ∧ c.bnditer ≠ [] ∧
      ((c2.bnditer = c.bnditer.tail ∧ c2.nodeEnd = c.nodeEnd ∧ c2.nodeStart = c.nodeStart) ∨
        (c2.nodeEnd = c.nodeStart ∧ c2.nodeStart = l.deref c.nodeStart.previous ∧
          (c2.bnditer = c.bnditer ∨ c2.bnditer = c.bnditer.tail))) := by
  obtain ⟨nodeEnd, nodeStart, bnditer⟩ := c
  unfold loopAdvance at h
  simp only at h
  by_cases h1 : ¬ nodeStart.boundary > 1
  · rw [if_pos h1] at h
    exact absurd h (by simp)
  · rw [if_neg h1] at h
    cases bnditer with
    | nil => exact absurd h (by simp)
    | cons b bs =>
      refine ⟨not_not.mp h1, by simp, ?_⟩
      simp only at h
      split_ifs at h
      · rw [← Option.some.inj h]
        right
        exact ⟨rfl, rfl, Or.inr rfl⟩
      · rw [← Option.some.inj h]
        left
        exact ⟨rfl, rfl, rfl⟩
      · rw [← Option.some.inj h]
        left
        exact ⟨rfl, rfl, rfl⟩
      · rw [← Option.some.inj h]
        right
        exact ⟨rfl, rfl, Or.inl rfl⟩

theorem boundaryLoop_returns {σ : Type} (l : Lattice)
    (f : ConnectionPtr → Int → Int → σ → σ) (fuel : Nat) :
    ∀ (k : Nat) (nodeEnd nodeStart : ConnectionPtr) (bnditer : List Int) (st : σ),
      reachesBosWithin l k nodeStart = true → k + bnditer.length ≤ fuel →
      ∃ st2, boundaryLoop l f fuel nodeEnd nodeStart bnditer st = some st2 := by
  induction fuel with
  | zero =>
    intro k nodeEnd nodeStart bnditer st _ hf
    have hb : bnditer = [] := List.length_eq_zero.mp (by omega)
    subst hb
    exact ⟨st, by simp [boundaryLoop]⟩
  | succ fuel ih =>
    intro k nodeEnd nodeStart bnditer st hk hf
    rw [boundaryLoop_succ]
    by_cases h1 : ¬ nodeStart.boundary > 1
    · rw [if_pos h1]; exact ⟨st, rfl⟩
    · rw [if_neg h1]
      obtain ⟨hk2, hk1⟩ := reachesBosWithin_step l k nodeStart hk (not_not.mp h1)
      cases bnditer with
      | nil => exact ⟨st, rfl⟩
      | cons b bs =>
        simp only [List.length_cons] at hf
        show ∃ st2, (if (nodeStart.boundary : Int) = b then _ else _) = some st2
        split_ifs
        · exact ih (k - 1) _ _ bs st hk2 (by omega)
        · exact ih k _ _ bs _ hk (by omega)
        · exact ih k _ _ bs st hk (by omega)
        · exact ih (k - 1) _ _ (b :: bs) st hk2 (by simp only [List.length_cons]; omega)

theorem loopAdvance_eq_none_iff (l : Lattice) (c : LoopCursor) :
    loopAdvance l c = none ↔ (c.nodeStart.boundary ≤ 1 ∨ c.bnditer = []) := by
  obtain ⟨nodeEnd, nodeStart, bnditer⟩ := c
  unfold loopAdvance
  simp only
  by_cases h1 : ¬ nodeStart.boundary > 1
  · rw [if_pos h1]
    exact ⟨fun _ => Or.inl (by omega), fun _ => rfl⟩
  · rw [if_neg h1]
    cases bnditer with
    | nil => exact ⟨fun _ => Or.inr rfl, fun _ => rfl⟩
    | cons b bs =>
      simp only
      constructor
      · intro h
        split_ifs at h
      · intro h
        rcases h with h | h
        · omega
        · exact absurd h (by simp)

/-- C24: the loop of `handleBoundaryConstraints` terminates for every gold boundary list and
every top-1 chain whose `previous` links reach a pointer with boundary at most 1 (within
`k` steps, say): `k` plus the number of gold boundaries iterations suffice. The loop makes
no iteration exactly when the node start has boundary at most 1 or the gold boundaries are
exhausted, and then returns the state; every iteration advances the gold iterator or moves
the node pointer one step along `previous`, and the loop goes on from the advanced
cursor. -/
theorem handleBoundaryConstraints_terminates {W : Type} (t : Trainer W) (k fuel : Nat)
    (st : TrainerState)
    (hreach : reachesBosWithin t.analyzer_.lattice k
      (t.analyzer_.lattice.deref (top1Element t.analyzer_.lattice).ptr.previous) = true)
    (hfuel : k + t.example_.boundaries.length ≤ fuel) :
    (∃ st2, handleBoundaryConstraints t fuel st = some st2) ∧
      (∀ (c : LoopCursor),
        loopAdvance t.analyzer_.lattice c = none ↔
          (c.nodeStart.boundary ≤ 1 ∨ c.bnditer = [])) ∧
      (∀ (c : LoopCursor) (n : Nat) (s : TrainerState),
        loopAdvance t.analyzer_.lattice c = none →
          boundaryLoop t.analyzer_.lattice (boundaryViolation t) n c.nodeEnd c.nodeStart
            c.bnditer s = some s) ∧
      (∀ (c c2 : LoopCursor) (n : Nat) (s : TrainerState),
        loopAdvance t.analyzer_.lattice c = some c2 →
          (∃ s2, boundaryLoop t.analyzer_.lattice (boundaryViolation t) (n + 1) c.nodeEnd
              c.nodeStart c.bnditer s
            = boundaryLoop t.analyzer_.lattice (boundaryViolation t) n c2.nodeEnd
              c2.nodeStart c2.bnditer s2) ∧
          ((c2.bnditer = c.bnditer.tail ∧ c2.nodeEnd = c.nodeEnd ∧
              c2.nodeStart = c.nodeStart) ∨
            (c2.nodeEnd = c.nodeStart ∧
              c2.nodeStart = t.analyzer_.lattice.deref c.nodeStart.previous ∧
              (c2.bnditer = c.bnditer ∨ c2.bnditer = c.bnditer.tail)))) := by
  refine ⟨?_, loopAdvance_eq_none_iff _, ?_, ?_⟩
  · unfold handleBoundaryConstraints
    exact boundaryLoop_returns _ _ fuel k _ _ _ st hreach
      (by rw [List.length_reverse]; exact hfuel)
  · intro c n s h
    cases n with
    | zero => exact ((boundaryLoop_advance _ (boundaryViolation t) 0 c s).1 h).2
    | succ n => exact ((boundaryLoop_advance _ (boundaryViolation t) n c s).1 h).1
  · intro c c2 n s h
    exact ⟨(boundaryLoop_advance _ (boundaryViolation t) n c s).2 c2 h,
      (loopAdvance_progress _ c c2 h).2.2⟩

/-- Instance of `handleBoundaryConstraints_terminates` on the example trainer: BOS is
reached within two steps from the last content node. -/
theorem handleBoundaryConstraints_terminates_witness :
    reachesBosWithin demoTrainer.analyzer_.lattice 2
        (demoTrainer.analyzer_.lattice.deref
          (top1Element demoTrainer.analyzer_.lattice).ptr.previous) = true ∧
      2 + demoTrainer.example_.boundaries.length ≤ 4 ∧
      ∃ st2, handleBoundaryConstraints demoTrainer 4 ⟨[], 0⟩ = some st2 :=
  ⟨by decide, by decide,
    (handleBoundaryConstraints_terminates demoTrainer 2 4 ⟨[], 0⟩ (by decide) (by decide)).1⟩

/-! ## Theorems: the features of `addBadNode2` -/

/-- C25: when no qualifying start position at the boundary has a beam entry that is neither
fake nor the bad node (`count == 0`), `addBadNode2` returns 0 and leaves the feature list
unchanged, whether or not qualifying positions exist. -/
theorem addBadNode2_no_positive (a : Analyzer) (node : ConnectionPtr) (boundary length : Int)
    (tagFilter : List TagConstraint) (features : List ScoredFeature)
    (h : (addBadNode2Positives a node boundary length tagFilter).length = 0) :
    (addBadNode2 a node boundary length tagFilter features).1 = 0 ∧
      (addBadNode2 a node boundary length tagFilter features).2 = features := by
  rw [addBadNode2_snd_of_none a node boundary length tagFilter features h]
  exact ⟨rfl, rfl⟩

/-- Instance of `addBadNode2_no_positive` on the example lattice: at boundary 2 the position
1 qualifies for length 2, and its only live beam entry is the bad node itself. -/
theorem addBadNode2_no_positive_witness :
    qualifyingPositions (demoAnalyzer.lattice.boundary (2 : Int).toNat).starts 2 [] = [1] ∧
      (addBadNode2Positives demoAnalyzer (demoDeref 3) 2 2 []).length = 0 ∧
      (addBadNode2 demoAnalyzer (demoDeref 3) 2 2 [] [⟨7, 1⟩]).1 = 0 ∧
      (addBadNode2 demoAnalyzer (demoDeref 3) 2 2 [] [⟨7, 1⟩]).2 = [⟨7, 1⟩] :=
  ⟨by decide, by decide,
    addBadNode2_no_positive demoAnalyzer (demoDeref 3) 2 2 [] [⟨7, 1⟩] (by decide)⟩

theorem positiveBeam_fold (a : Analyzer) (node : ConnectionPtr) (score : ℚ)
    (beam : List ConnectionBeamElement) :
    ∀ (fs : List ScoredFeature),
      beam.foldl (positiveBeamStep a node score) fs
        = fs ++ (positiveEntries a node beam).flatMap (fun el => featureGroup a score el.ptr) := by
  induction beam with
  | nil => intro fs; simp [positiveEntries]
  | cons el rest ih =>
    intro fs
    rw [List.foldl_cons, ih]
    unfold positiveBeamStep positiveEntries
    by_cases hf : a.isFake el = true
    · simp [hf, List.filter_cons]
    · by_cases hn : el.ptr = node
      · simp [hf, hn, List.filter_cons]
      · simp [hf, hn, List.filter_cons, pushFeatures, featureGroup]

theorem positive_fold (a : Analyzer) (bndNodes : LatticeRightBoundary) (node : ConnectionPtr)
    (length : Int) (tagFilter : List TagConstraint) (score : ℚ) (positions : List Nat) :
    ∀ (fs : List ScoredFeature),
      positions.foldl (positiveStep a bndNodes node length tagFilter score) fs
        = fs ++ ((positions.filter (fun i => decide (bndNodes.numCodepoints i = length) &&
              checkTags bndNodes tagFilter i)).flatMap
              (fun i => positiveEntries a node (bndNodes.beamData i))).flatMap
              (fun el => featureGroup a score el.ptr) := by
  induction positions with
  | nil => intro fs; simp
  | cons i rest ih =>
    intro fs
    rw [List.foldl_cons, ih]
    unfold positiveStep
    by_cases hl : bndNodes.numCodepoints i = length
    · by_cases ht : checkTags bndNodes tagFilter i = true
      · simp only [hl, ne_eq, not_true_eq_false, if_false, ht, Bool.not_true, Bool.false_eq_true,
          List.filter_cons, decide_True, Bool.and_self, if_true, List.flatMap_cons,
          List.flatMap_append, positiveBeam_fold, List.append_assoc]
      · simp [hl, ht, List.filter_cons]
    · simp [hl, List.filter_cons]

/-- The features that `addBadNode2` leaves when `count > 0`. -/
theorem addBadNode2_snd_eq (a : Analyzer) (node : ConnectionPtr) (boundary length : Int)
    (tagFilter : List TagConstraint) (features : List ScoredFeature)
    (h : (addBadNode2Positives a node boundary length tagFilter).length ≠ 0) :
    (addBadNode2 a node boundary length tagFilter features).2
      = features ++
        ((addBadNode2Positives a node boundary length tagFilter).flatMap
          (fun el => featureGroup a
            (1 / (((addBadNode2Positives a node boundary length tagFilter).length : Nat) : ℚ))
            el.ptr) ++
        featureGroup a (-1) node) := by
  unfold addBadNode2
  simp only [addBadNode2_counters]
  rw [if_neg (by omega)]
  simp only [positive_fold, pushFeatures, featureGroup, addBadNode2Positives,
    qualifyingPositions, Int.cast_natCast, List.append_assoc]

/-- C28: whenever `addBadNode2` appends features (`count > 0`), it appends `count` groups of
`T` features with score `+1/count`, one group for every qualifying beam entry, and then one
group of `T` features with score `-1` for the trigram of the bad node, `T` being the number
of n-gram templates; the appended scores sum to zero. -/
theorem addBadNode2_scores_sum_zero (a : Analyzer) (node : ConnectionPtr)
    (boundary length : Int) (tagFilter : List TagConstraint) (features : List ScoredFeature)
    (h : (addBadNode2Positives a node boundary length tagFilter).length ≠ 0) :
    (addBadNode2 a node boundary length tagFilter features).2
        = features ++
          ((addBadNode2Positives a node boundary length tagFilter).flatMap
            (fun el => featureGroup a
              (1 / (((addBadNode2Positives a node boundary length tagFilter).length : Nat) : ℚ))
              el.ptr) ++
          featureGroup a (-1) node) ∧
      (∀ (score : ℚ) (ptr : ConnectionPtr),
        (featureGroup a score ptr).length = a.numNgram ∧
          ∀ f ∈ featureGroup a score ptr, f.score = score) ∧
      ((((addBadNode2Positives a node boundary length tagFilter).flatMap
            (fun el => featureGroup a
              (1 / (((addBadNode2Positives a node boundary length tagFilter).length : Nat) : ℚ))
              el.ptr) ++
          featureGroup a (-1) node).map (fun f => f.score)).sum = 0) := by
  refine ⟨addBadNode2_snd_eq a node boundary length tagFilter features h, ?_, ?_⟩
  · intro score ptr
    refine ⟨featureGroup_length a score ptr, ?_⟩
    intro f hf
    unfold featureGroup at hf
    obtain ⟨x, _, rfl⟩ := List.mem_map.mp hf
    rfl
  · rw [List.map_append, List.sum_append, featureGroups_sum, featureGroup_sum]
    have hc : ((((addBadNode2Positives a node boundary length tagFilter).length : Nat) : ℚ)) ≠ 0 := by
      exact_mod_cast h
    field_simp

/-- Instance of `addBadNode2_scores_sum_zero` on the example lattice: for the bad node
(2, 0) and length 2 the beam entry of the position 1 at boundary 2 is positive. -/
theorem addBadNode2_scores_sum_zero_witness :
    (addBadNode2Positives demoAnalyzer (demoDeref 2) 2 2 []).length ≠ 0 ∧
      ((((addBadNode2Positives demoAnalyzer (demoDeref 2) 2 2 []).flatMap
            (fun el => featureGroup demoAnalyzer
              (1 / (((addBadNode2Positives demoAnalyzer (demoDeref 2) 2 2 []).length : Nat) : ℚ))
              el.ptr) ++
          featureGroup demoAnalyzer (-1) (demoDeref 2)).map (fun f => f.score)).sum = 0) :=
  ⟨by decide,
    (addBadNode2_scores_sum_zero demoAnalyzer (demoDeref 2) 2 2 [] [] (by decide)).2.2⟩

/-! ## Theorems: idempotence of `finalizeFeatures` -/

/-- C27: `finalizeFeatures` is idempotent: run on its own output with the same mask it
leaves the list as it is, because the hashes are already masked, strictly increasing and
distinct. -/
theorem finalizeFeatures_idempotent (mask : Nat) (features : List ScoredFeature) :
    finalizeFeatures mask (finalizeFeatures mask features) = finalizeFeatures mask features := by
  apply strictly_increasing_ext _ _ (finalizeFeatures_pairwise_lt _ _)
    (finalizeFeatures_pairwise_lt _ _)
  intro h
  have hmask : ∀ x ∈ finalizeFeatures mask features, x.feature &&& mask = x.feature := by
    intro x hx
    obtain ⟨y, _, hy⟩ := finalizeFeatures_mem_masked _ _ x hx
    rw [hy, Nat.land_assoc, Nat.and_self]
  have hmap : (finalizeFeatures mask features).map (fun f => f.feature &&& mask)
      = (finalizeFeatures mask features).map (fun f => f.feature) :=
    List.map_congr_left hmask
  have hfil : (finalizeFeatures mask features).filter (fun f => f.feature &&& mask = h)
      = (finalizeFeatures mask features).filter (fun f => f.feature = h) :=
    List.filter_congr (fun x hx => by rw [hmask x hx])
  rw [finalizeFeatures_filter_eq mask (finalizeFeatures mask features) h, hmap, hfil]
  have he := finalizeFeatures_filter_eq mask features h
  by_cases hm : h ∈ features.map (fun f => f.feature &&& mask)
  · rw [if_pos hm] at he
    have hin : h ∈ (finalizeFeatures mask features).map (fun f => f.feature) := by
      have hx : (⟨h, ((features.filter (fun f => f.feature &&& mask = h)).map
          (fun f => f.score)).sum⟩ : ScoredFeature) ∈
          (finalizeFeatures mask features).filter (fun f => f.feature = h) := by
        rw [he]; exact List.mem_singleton.mpr rfl
      exact List.mem_map.mpr ⟨_, (List.mem_filter.mp hx).1, rfl⟩
    rw [if_pos hin, he]
    simp
  · rw [if_neg hm] at he
    have hnin : h ∉ (finalizeFeatures mask features).map (fun f => f.feature) := by
      intro hin
      obtain ⟨x, hx, hxh⟩ := List.mem_map.mp hin
      have hx2 : x ∈ (finalizeFeatures mask features).filter (fun f => f.feature = h) :=
        List.mem_filter.mpr ⟨hx, by simpa using hxh⟩
      rw [he] at hx2
      simp at hx2
    rw [if_neg hnin, he]

/-! ## Theorems: `doesNodeMatch` behind the last gold boundary -/

theorem lowerBound_eq_nil (boundaries : List Int) (b : Int)
    (h : ∀ g ∈ boundaries, g < b) : lowerBound boundaries b = [] := by
  unfold lowerBound
  rw [List.dropWhile_eq_nil_iff]
  intro g hg
  simpa using h g hg

theorem doesNodeMatch_false_of_lt (ex : PartialExample) (lr : LatticeRightBoundary) (b : Int)
    (p : Nat) (h : ∀ g ∈ ex.boundaries, g < b) : doesNodeMatch ex lr b p = false := by
  unfold doesNodeMatch
  rw [lowerBound_eq_nil ex.boundaries b h]

theorem markGold_eq_nil (ex : PartialExample) (l : Lattice)
    (h : ∀ lr b p, doesNodeMatch ex lr b p = false) : markGold ex l = [] := by
  apply List.eq_nil_iff_forall_not_mem.mpr
  intro n hn
  have hm := ((mem_markGold ex l n).mp hn).2.2
  rw [h] at hm
  exact absurd hm (by simp)

theorem markGoldPosLoop_no_match (ex : PartialExample) (bndRight : LatticeRightBoundary)
    (bnd : Nat) (h : ∀ lr b p, doesNodeMatch ex lr b p = false) (fuel : Nat) :
    ∀ (pos : Nat) (calls out : List LatticeNodePtr),
      markGoldPosLoop ex bndRight bnd fuel pos calls = some out → out = calls := by
  induction fuel with
  | zero => intro pos calls out ho; simp [markGoldPosLoop] at ho
  | succ fuel ih =>
    intro pos calls out ho
    unfold markGoldPosLoop at ho
    by_cases hlt : pos < bndRight.numEntries
    · rw [if_pos hlt, h] at ho
      exact ih _ _ _ ho
    · rw [if_neg hlt] at ho
      exact (Option.some.inj ho).symm

theorem markGoldBndLoop_no_match (ex : PartialExample) (l : Lattice)
    (h : ∀ lr b p, doesNodeMatch ex lr b p = false) (fuel : Nat) :
    ∀ (bnd : Nat) (calls out : List LatticeNodePtr),
      markGoldBndLoop ex l fuel bnd calls = some out → out = calls := by
  induction fuel with
  | zero => intro bnd calls out ho; simp [markGoldBndLoop] at ho
  | succ fuel ih =>
    intro bnd calls out ho
    unfold markGoldBndLoop at ho
    by_cases hlt : bnd < l.createdBoundaryCount
    · rw [if_pos hlt] at ho
      cases hp : markGoldPosLoop ex (l.boundary bnd).starts bnd (2 ^ 16) 0 calls with
      | none => rw [hp] at ho; simp at ho
      | some calls1 =>
        rw [hp] at ho
        have h1 := markGoldPosLoop_no_match ex _ bnd h _ _ _ _ hp
        rw [h1] at ho
        exact ih _ _ _ ho
    · rw [if_neg hlt] at ho
      exact (Option.some.inj ho).symm

/-- A record of one chunk line ended by a blank line is read with an empty gold boundary
list. -/
theorem readExample_single_chunk (env : ReaderEnv) (comment : List Char) (line : CsvLine)
    (rest : List CsvLine) (out : ReadOutcome)
    (hc : isCommentLine line = false) (ht : line.isTerminator = false)
    (h : readExample env comment (line :: ⟨[], []⟩ :: rest) = .ok out) :
    out.state.boundaries = [] := by
  obtain ⟨_, heof, hb, _⟩ := readExample_ok env comment _ out h
  have hafter : afterComment (line :: ⟨[], []⟩ :: rest) = line :: ⟨[], []⟩ :: rest := by
    show (if isCommentLine line = true then _ else _) = _
    rw [if_neg (by simp [hc])]
  have hterm : (⟨[], []⟩ : CsvLine).isTerminator = true := rfl
  have hchunks : chunkLines (line :: ⟨[], []⟩ :: rest) = [line] := by
    rw [chunkLines_eq, hafter, recordChunks_cons_of_not_terminator _ _ ht,
      recordChunks_cons_of_terminator _ _ hterm]
  have heof2 : out.eof = false := by
    rw [heof, hafter]
    simp [hasTerminator, hterm]
  rw [heof2, hchunks] at hb
  rw [hb]
  rfl

/-- C29: `doesNodeMatch` is false for every node that starts after the last gold boundary
(every gold boundary is below its start). In particular, for an example with an empty gold
boundary list `doesNodeMatch` is false for every boundary and position, boundary 2
included, and `markGold` emits no node; a record of a single chunk line ended by a blank
line is read as such an example. -/
theorem doesNodeMatch_after_last_gold (ex : PartialExample) (lr : LatticeRightBoundary)
    (b : Int) (p : Nat) (h : ∀ g ∈ ex.boundaries, g < b) :
    doesNodeMatch ex lr b p = false ∧
      (∀ (nodes : List NodeConstraint) (lr2 : LatticeRightBoundary) (b2 : Int) (p2 : Nat),
        doesNodeMatch ⟨[], nodes⟩ lr2 b2 p2 = false) ∧
      (∀ (nodes : List NodeConstraint) (l : Lattice),
        markGold ⟨[], nodes⟩ l = [] ∧
          ∀ calls, markGoldU16 ⟨[], nodes⟩ l = some calls → calls = []) ∧
      (∀ (env : ReaderEnv) (comment : List Char) (line : CsvLine) (rest : List CsvLine)
        (out : ReadOutcome), isCommentLine line = false → line.isTerminator = false →
        readExample env comment (line :: ⟨[], []⟩ :: rest) = .ok out →
          out.state.boundaries = [] ∧
            ∀ (lr2 : LatticeRightBoundary) (b2 : Int) (p2 : Nat),
              doesNodeMatch ⟨out.state.boundaries, out.state.nodes⟩ lr2 b2 p2 = false) := by
  have hempty : ∀ (nodes : List NodeConstraint) (lr2 : LatticeRightBoundary) (b2 : Int)
      (p2 : Nat), doesNodeMatch ⟨[], nodes⟩ lr2 b2 p2 = false := by
    intro nodes lr2 b2 p2
    exact doesNodeMatch_false_of_lt _ lr2 b2 p2 (by intro g hg; simp at hg)
  refine ⟨doesNodeMatch_false_of_lt ex lr b p h, hempty, ?_, ?_⟩
  · intro nodes l
    refine ⟨markGold_eq_nil _ l (hempty nodes), ?_⟩
    intro calls hc
    exact markGoldBndLoop_no_match _ l (hempty nodes) _ _ _ _ hc
  · intro env comment line rest out hc ht hr
    have hb := readExample_single_chunk env comment line rest out hc ht hr
    refine ⟨hb, ?_⟩
    rw [hb]
    exact hempty _

/-- Instance of `doesNodeMatch_after_last_gold` on the example lattice: with the gold cuts
4 and 6 the EOS node at boundary 7 starts after the last gold boundary; and the record of
the single chunk `ab` is read with no gold boundary. -/
theorem doesNodeMatch_after_last_gold_witness :
    (∀ g ∈ demoTrainer.example_.boundaries, g < 7) ∧
      readExample demoReaderEnv [] [⟨['a', 'b'], []⟩, ⟨[], []⟩]
        = .ok ⟨⟨[], ['a', 'b'], [], []⟩, false, []⟩ ∧
      doesNodeMatch demoTrainer.example_ (demoLattice.boundary 7).starts 7 0 = false ∧
      doesNodeMatch ⟨[], []⟩ (demoLattice.boundary 2).starts 2 0 = false ∧
      markGold ⟨[], []⟩ demoLattice = [] :=
  ⟨by decide, rfl,
    (doesNodeMatch_after_last_gold demoTrainer.example_ (demoLattice.boundary 7).starts 7 0
      (by decide)).1,
    (doesNodeMatch_after_last_gold demoTrainer.example_ (demoLattice.boundary 7).starts 7 0
      (by decide)).2.1 [] _ 2 0,
    ((doesNodeMatch_after_last_gold demoTrainer.example_ (demoLattice.boundary 7).starts 7 0
      (by decide)).2.2.1 [] demoLattice).1⟩

/-! ## Theorems: `FeatureSet::binning` -/

/-- A negative value above `-0.01` gets the label `0.01` of the smallest positive class:
the sign is lost. -/
theorem binning_small_negative (x : ℚ) (h1 : -1 / 100 < x) (h2 : x < 0) :
    FeatureSet.binning x = "0.01" := by
  unfold FeatureSet.binning
  rw [if_neg (by linarith), if_neg (by linarith), if_neg (by linarith), if_neg (by linarith),
    if_neg (by linarith), if_neg (by linarith), if_neg (by linarith), if_neg (by linarith),
    if_neg (by linarith), if_neg (by linarith), if_neg (by linarith), if_neg (by linarith),
    if_neg (by linarith), if_pos (by linarith)]

/-- C26 (defect in the code): the labels of `binning` are not symmetric in the sign. For
`x = 0.75` the label is `0.8` and for `-0.75` it is `-0.7`, not `-0.8`: the positive side
names a class by its upper limit and the negative side by the lower limit of the magnitude.
For `x = 1/128` the label is `0.01` and for `-1/128` it is `0.01` again, without a minus
sign. The symmetry holds at `x = 0.5`, a limit of a class. -/
theorem binning_sign_asymmetry :
    FeatureSet.binning (3 / 4) = "0.8" ∧ FeatureSet.binning (-(3 / 4)) = "-0.7" ∧
      FeatureSet.binning (1 / 128) = "0.01" ∧ FeatureSet.binning (-(1 / 128)) = "0.01" ∧
      FeatureSet.binning (1 / 2) = "0.5" ∧ FeatureSet.binning (-(1 / 2)) = "-0.5" := by
  refine ⟨?_, ?_, ?_, ?_, ?_, ?_⟩ <;> (unfold FeatureSet.binning; norm_num)

end Jumanpp
